import Mathlib

/-!
# RGBLINK section placement (`src/link/assign.c`) and RGBASM character maps (`src/asm/charmap.c`)

A shallow embedding of the section-placement engine of `rgblink`:
the free-space bookkeeping (`initFreeSpace`, the carving in `placeSection`),
the candidate search (`isLocationSuitable`, `getPlacement`), the linker-script
override (`processLinkerScript`), the constraint classifier
(`categorizeSection`) and the driver (`assign_AssignSections`); and of the
character maps of `rgbasm` (`charmap_Add`, `charmap_Convert`), in the namespace
`Rgbasm`.

Conventions of the embedding.

* `uint16_t` / `uint32_t` / `uint64_t` values are natural numbers; every place
  where the C code truncates a result to a machine width carries an explicit
  `% 2^w`.  Expressions that C evaluates in `int` after integer promotion
  (sums of two `uint16_t`) are plain sums.
* A per-bank free list (`memory[type][bank].next`, a doubly linked list behind
  a sentinel) is a `List FreeSpace`; a pointer into that list is the index of
  the node.  `memory[type]` is the list of its banks, so an access outside the
  allocated array is visible as a failed lookup.
* The loops of `getPlacement` are driven by a fuel argument; running out of
  fuel is reported as `SearchError.outOfFuel`.
* The conventions for C strings and arrays of the character maps are given at
  the head of their part.

The file has four parts: the embedding of the code, the predicates used to
state its properties (together with a concrete memory map, a few example
sections and example character maps), auxiliary lemmas, and the properties
themselves, numbered as in the list of claims about the program.
-/

namespace Rgblink

/-! ## Data model -/

/-- The static tables `startaddr[]`, `maxsize[]`, `bankranges[][2]` and the
enumerator `SECTTYPE_INVALID` come from `linkdefs.h` / `section.c`, which are
not part of the sources at hand; they are parameters of the development. -/
structure MemoryModel where
  /-- the enumerator `SECTTYPE_INVALID`: number of section types -/
  nbTypes : Nat
  /-- the table `startaddr[type]` -/
  startaddr : Nat → Nat
  /-- the table `maxsize[type]` -/
  maxsize : Nat → Nat
  /-- the table `bankranges[type]`, as the pair `(bankranges[type][0], bankranges[type][1])` -/
  bankranges : Nat → Nat × Nat

/-- Modelled from the spec: the macro `nbbanks(type)` is declared outside the
sources at hand; the spec gives `bank_range = [lo, hi]` inclusive, so a region
has `hi - lo + 1` banks. -/
def nbbanks (mm : MemoryModel) (type : Nat) : Nat :=
  (mm.bankranges type).2 - (mm.bankranges type).1 + 1

/-- Modelled from the spec: the macro `endaddr(type)` is declared outside the
sources at hand; the spec gives `end_addr = start_addr + max_size − 1`. -/
def endaddr (mm : MemoryModel) (type : Nat) : Nat :=
  mm.startaddr type + mm.maxsize type - 1

/-- The fields of `struct Section` that the placement engine reads or writes
(`name`, payload and patches are opaque to it). -/
structure Section where
  size : Nat
  type : Nat
  isAddressFixed : Bool
  org : Nat
  isBankFixed : Bool
  bank : Nat
  isAlignFixed : Bool
  alignMask : Nat
  alignOfs : Nat
  deriving DecidableEq, Repr

/-- The fields of C `struct MemoryLocation`. -/
structure MemoryLocation where
  address : Nat
  bank : Nat
  deriving DecidableEq, Repr

/-- The data fields of C `struct FreeSpace`; `next` / `prev` are the list structure. -/
structure FreeSpace where
  address : Nat
  size : Nat
  deriving DecidableEq, Repr

/-- The global `memory`: for each section type the array of its banks, each
bank being its list of free intervals. -/
abbrev Memory := Nat → List (List FreeSpace)

/-- The file-scope state of `assign.c`, together with the log of the calls to
`out_AddSection`. -/
structure State where
  memory : Memory
  nbSectionsToAssign : Nat
  unassignedSections : Nat → List Section
  /-- the sections handed to `out_AddSection`, most recent first -/
  placed : List Section

/-! ## Free-space initialisation -/

/-- Lines 44-63, `initFreeSpace`: every bank of every type gets one interval
`(startaddr[type], maxsize[type])`. -/
def initFreeSpace (mm : MemoryModel) : Memory :=
  fun type =>
    if type < mm.nbTypes then
      List.replicate (nbbanks mm type)
        [{ address := mm.startaddr type, size := mm.maxsize type }]
    else []

/-! ## Assignment and suitability -/

/-- Modelled from the spec: `out_AddSection` lives in `output.c`, outside the
sources at hand; it records the assignment of the section for the report.
The record is kept as a log, most recent first. -/
def out_AddSection (st : State) (sect : Section) : State :=
  { st with placed := sect :: st.placed }

/-- The statement `nbSectionsToAssign--` of line 115, on a `uint64_t`. -/
def decr64 (n : Nat) : Nat := (n + 2^64 - 1) % 2^64

/-- The statement `nbSectionsToAssign++` of line 384, on a `uint64_t`. -/
def incr64 (n : Nat) : Nat := (n + 1) % 2^64

/-- Lines 109-118, `assignSection`: the section receives the location, the
counter is decremented, the section is handed to `out_AddSection`.  Returns
the new state and the updated section. -/
def assignSection (st : State) (sect : Section) (location : MemoryLocation) :
    State × Section :=
  let sect1 := { sect with org := location.address, bank := location.bank }
  let st1 := { st with nbSectionsToAssign := decr64 st.nbSectionsToAssign }
  (out_AddSection st1 sect1, sect1)

/-- The test `(location->address - section->alignOfs) & section->alignMask`
of line 137: the difference is computed in (32-bit, two's complement) `int`. -/
def alignResidue (sect : Section) (address : Nat) : Nat :=
  ((address + 2^32 - sect.alignOfs) % 2^32) &&& sect.alignMask

/-- Lines 129-144, `isLocationSuitable`. -/
def isLocationSuitable (sect : Section) (freeSpace : FreeSpace)
    (location : MemoryLocation) : Bool :=
  if sect.isAddressFixed && sect.org != location.address then false
  else if sect.isAlignFixed && alignResidue sect location.address != 0 then false
  else if location.address < freeSpace.address then false
  else decide (location.address + sect.size ≤ freeSpace.address + freeSpace.size)

/-! ## The search `getPlacement` -/

/-- Why a run of the search produced no answer. -/
inductive SearchError where
  /-- the fuel was used up before the loops ended -/
  | outOfFuel
  /-- the read of `memory[type][BANK_INDEX]` fell outside the allocated array -/
  | outOfBounds
  deriving DecidableEq, Repr

/-- The value of `getPlacement`: `none` is `NULL`; `some (i, location)` is the
pointer to node `i` of the free list of bank `location.bank`, with the
location filled in. -/
abbrev SearchResult := Except SearchError (Option (Nat × MemoryLocation))

/-- Lines 206-208: `while (space && location->address >= space->address + space->size)
space = space->next;`.  `idx` is the index of the head of `space`. -/
def skipSpaces (address : Nat) : Nat → List FreeSpace → Nat × List FreeSpace
  | idx, [] => (idx, [])
  | idx, s :: rest =>
    if address ≥ s.address + s.size then skipSpaces address (idx + 1) rest
    else (idx, s :: rest)

/-- Lines 189-194: the align-fixed advancement of `location->address`, in
`uint16_t` arithmetic (`~alignMask` is masked to 16 bits by the assignment). -/
def nextAligned (sect : Section) (address : Nat) : Nat :=
  let a1 := (address + 2^16 - sect.alignOfs) % 2^16
  let a2 := a1 &&& (sect.alignMask ^^^ (2^16 - 1))
  (a2 + (sect.alignMask + 1 + sect.alignOfs)) % 2^16

/-- Lines 169-211: the loop `while (space)` over the locations of one bank.
`space` is the rest of the free list starting at the current node, `idx` the
index of that node, `address` the current `location->address`. -/
def scanBank (sect : Section) (bank : Nat) :
    Nat → Nat → List FreeSpace → Nat → SearchResult
  | _, _, [], _ => .ok none
  | 0, _, _ :: _, _ => .error .outOfFuel
  | fuel + 1, idx, s :: rest, address =>
    if isLocationSuitable sect s { address := address, bank := bank } then
      .ok (some (idx, { address := address, bank := bank }))
    else if sect.isAddressFixed then
      if address < sect.org then
        let r := skipSpaces sect.org idx (s :: rest)
        scanBank sect bank fuel r.1 r.2 sect.org
      else
        .ok none
    else if sect.isAlignFixed then
      let address1 := nextAligned sect address
      let r := skipSpaces address1 idx (s :: rest)
      scanBank sect bank fuel r.1 r.2 address1
    else
      match rest with
      | [] => .ok none
      | s1 :: rest1 =>
        let r := skipSpaces s1.address (idx + 1) (s1 :: rest1)
        scanBank sect bank fuel r.1 r.2 s1.address

/-- The macro `BANK_INDEX` of line 163, in `uint32_t` arithmetic. -/
def bankIndex (mm : MemoryModel) (sect : Section) (bank : Nat) : Nat :=
  (bank + 2^32 - (mm.bankranges sect.type).1) % 2^32

/-- Lines 165-166: `if (space) location->address = space->address;`.  When the
bank has no free interval the loop `while (space)` is not entered and the value
of `location->address` is not read; it is taken to be 0. -/
def firstAddress : List FreeSpace → Nat
  | [] => 0
  | s :: _ => s.address

/-- Lines 161-221: the loop `for (;;)` over the banks, from `bank` on. -/
def getPlacementLoop (mm : MemoryModel) (memory : Memory) (sect : Section) (fuel : Nat) :
    Nat → Nat → SearchResult
  | 0, _ => .error .outOfFuel
  | n + 1, bank =>
    match (memory sect.type)[bankIndex mm sect bank]? with
    | none => .error .outOfBounds
    | some space =>
      match scanBank sect bank fuel 0 space (firstAddress space) with
      | .error e => .error e
      | .ok (some r) => .ok (some r)
      | .ok none =>
        if sect.isBankFixed then .ok none
        else
          let bank1 := (bank + 1) % 2^32
          if bank1 > (mm.bankranges sect.type).2 then .ok none
          else getPlacementLoop mm memory sect fuel n bank1

/-- Lines 153-222, `getPlacement`. -/
def getPlacement (mm : MemoryModel) (memory : Memory) (sect : Section) (fuel : Nat) :
    SearchResult :=
  getPlacementLoop mm memory sect fuel fuel
    (if sect.isBankFixed then sect.bank else (mm.bankranges sect.type).1)

/-! ## Placing one section -/

/-- Lines 259-299: what becomes of the chosen free interval once the section
(whose `org` is already assigned) is taken out of it: nothing (deleted), one
interval (shrunk on one side) or two (split).  Sizes and addresses are stored
back into `uint16_t` fields. -/
def splitFreeSpace (freeSpace : FreeSpace) (sect : Section) : List FreeSpace :=
  let noLeftSpace := freeSpace.address == sect.org
  let noRightSpace := freeSpace.address + freeSpace.size == sect.org + sect.size
  if noLeftSpace && noRightSpace then
    []
  else if !noLeftSpace && !noRightSpace then
    let newAddress := (sect.org + sect.size) % 2^16
    let newSize := (freeSpace.address + freeSpace.size + 2^16 - newAddress) % 2^16
    [{ address := freeSpace.address,
       size := (sect.org + 2^16 - freeSpace.address) % 2^16 },
     { address := newAddress, size := newSize }]
  else
    let size1 := (freeSpace.size + 2^16 - sect.size) % 2^16
    [{ address := if noLeftSpace then (freeSpace.address + sect.size) % 2^16
                  else freeSpace.address,
       size := size1 }]

/-- The list surgery of lines 263-299 on the free list of one bank: node `idx`
is replaced by what `splitFreeSpace` leaves of it. -/
def carveAt (sect : Section) : List FreeSpace → Nat → List FreeSpace
  | [], _ => []
  | s :: rest, 0 => splitFreeSpace s sect ++ rest
  | s :: rest, i + 1 => s :: carveAt sect rest i

/-- Replace the free list of bank `i` in the array of banks of one type. -/
def updateBank (f : List FreeSpace → List FreeSpace) :
    List (List FreeSpace) → Nat → List (List FreeSpace)
  | [], _ => []
  | l :: rest, 0 => f l :: rest
  | l :: rest, i + 1 => l :: updateBank f rest i

/-- Why `placeSection` did not return. -/
inductive PlaceError where
  /-- the `errx(1, "Unable to place ...")` of lines 329-341 -/
  | unplaceable
  /-- the search did not produce an answer -/
  | search (e : SearchError)
  deriving DecidableEq, Repr

/-- Lines 230-342, `placeSection`. -/
def placeSection (mm : MemoryModel) (fuel : Nat) (st : State) (sect : Section) :
    Except PlaceError State :=
  if sect.size = 0 then
    let location : MemoryLocation :=
      { address := if sect.isAddressFixed then sect.org else mm.startaddr sect.type,
        bank := if sect.isBankFixed then sect.bank else (mm.bankranges sect.type).1 }
    .ok (assignSection st sect location).1
  else
    match getPlacement mm st.memory sect fuel with
    | .error e => .error (.search e)
    | .ok none => .error .unplaceable
    | .ok (some (idx, location)) =>
      let r := assignSection st sect location
      .ok { r.1 with
            memory := fun type =>
              if type = sect.type then
                updateBank (fun l => carveAt r.2 l idx) (r.1.memory type)
                  (bankIndex mm sect location.bank)
              else r.1.memory type }

/-! ## The linker script override -/

/-- The fields of `struct SectionPlacement` (declared in `script.h`): the
section the record names, as a pointer into the section store, and the
`org` / `bank` the script gives it. -/
structure SectionPlacement where
  sect : Nat
  org : Nat
  bank : Nat
  deriving DecidableEq, Repr

/-- The three calls to `error` of lines 84, 87 and 91, with the section they
are about. -/
inductive Diagnostic where
  | bankContradiction (sect : Nat)
  | addressContradiction (sect : Nat)
  | alignContradiction (sect : Nat)
  deriving DecidableEq, Repr

/-- The sections of the program, addressed by pointer. -/
abbrev SectionStore := Nat → Section

/-- Lines 80-98: the body of the loop of `processLinkerScript` for one record.
The diagnostics are appended in the order in which `error` is called. -/
def applyPlacement (acc : SectionStore × List Diagnostic) (placement : SectionPlacement) :
    SectionStore × List Diagnostic :=
  let sect := acc.1 placement.sect
  let d1 := if sect.isBankFixed && placement.bank != sect.bank
            then acc.2 ++ [Diagnostic.bankContradiction placement.sect] else acc.2
  let d2 := if sect.isAddressFixed && placement.org != sect.org
            then d1 ++ [Diagnostic.addressContradiction placement.sect] else d1
  let d3 := if sect.isAlignFixed && (placement.org &&& sect.alignMask) != 0
            then d2 ++ [Diagnostic.alignContradiction placement.sect] else d2
  let sect1 := { sect with
                 isAddressFixed := true, org := placement.org,
                 isBankFixed := true, bank := placement.bank,
                 isAlignFixed := false }
  (fun p => if p = placement.sect then sect1 else acc.1 p, d3)

/-- Lines 68-102, `processLinkerScript`.  `script` is `none` when no linker
script is configured (`linkerScriptName == NULL`), otherwise the records that
`script_NextSection` returns, in order. -/
def processLinkerScript (script : Option (List SectionPlacement)) (store : SectionStore) :
    SectionStore × List Diagnostic :=
  match script with
  | none => (store, [])
  | some records => records.foldl applyPlacement (store, [])

/-! ## The classifier -/

/-- Line 349. -/
def BANK_CONSTRAINED : Nat := 1 <<< 2
/-- Line 350. -/
def ORG_CONSTRAINED : Nat := 1 <<< 1
/-- Line 351. -/
def ALIGN_CONSTRAINED : Nat := 1 <<< 0

/-- Lines 364-372: the constraint mask of a section. -/
def constraintsOf (sect : Section) : Nat :=
  let c1 := if sect.isBankFixed then 0 ||| BANK_CONSTRAINED else 0
  if sect.isAddressFixed then c1 ||| ORG_CONSTRAINED
  else if sect.isAlignFixed then c1 ||| ALIGN_CONSTRAINED
  else c1

/-- Lines 374-382: the walk `while (*ptr && (*ptr)->section->size > section->size)`
followed by the insertion of the new node at `*ptr`. -/
def insertBySize (sect : Section) : List Section → List Section
  | [] => [sect]
  | s :: rest =>
    if s.size > sect.size then s :: insertBySize sect rest
    else sect :: s :: rest

/-- Lines 361-385, `categorizeSection`. -/
def categorizeSection (st : State) (sect : Section) : State :=
  { st with
    unassignedSections := fun c =>
      if c = constraintsOf sect then insertBySize sect (st.unassignedSections c)
      else st.unassignedSections c
    nbSectionsToAssign := incr64 st.nbSectionsToAssign }

/-! ## The driver -/

/-- The loops of lines 417-420 and 437-440: `placeSection` on every node of a
bucket list, in list order. -/
def placeBucket (mm : MemoryModel) (fuel : Nat) :
    State → List Section → Except PlaceError State
  | st, [] => .ok st
  | st, s :: rest =>
    match placeSection mm fuel st s with
    | .error e => .error e
    | .ok st1 => placeBucket mm fuel st1 rest

/-- Why `assign_AssignSections` did not return. -/
inductive AssignError where
  /-- a call to `placeSection` did not return -/
  | place (e : PlaceError)
  /-- the `errx` of line 429: sections remain and an overlay is configured -/
  | overlay
  /-- the `unreachable_()` of line 446 was reached -/
  | unreachable
  deriving DecidableEq, Repr

/-- Lines 433-444: the loop over the remaining buckets; `cs` lists the values
that `constraints` still has to take. -/
def assignBuckets (mm : MemoryModel) (fuel : Nat) :
    List Nat → State → Except AssignError State
  | [], _ => .error .unreachable
  | c :: cs, st =>
    match placeBucket mm fuel st (st.unassignedSections c) with
    | .error e => .error (.place e)
    | .ok st1 =>
      if st1.nbSectionsToAssign = 0 then .ok st1
      else assignBuckets mm fuel cs st1

/-- Lines 387-447, `assign_AssignSections`.  `script` and `store` are the
inputs of `processLinkerScript`; `all` lists the sections that `sect_ForEach`
visits after `sect_PerformSmartLink`, in visiting order (both are external);
`overlay` tells whether `overlayFileName` is set. -/
def assign_AssignSections (mm : MemoryModel) (fuel : Nat)
    (script : Option (List SectionPlacement)) (overlay : Bool)
    (store : SectionStore) (all : List Nat) :
    Except AssignError (State × List Diagnostic) :=
  let scripted := processLinkerScript script store
  let st0 : State :=
    { memory := initFreeSpace mm, nbSectionsToAssign := 0,
      unassignedSections := fun _ => [], placed := [] }
  let st1 := (all.map scripted.1).foldl categorizeSection st0
  match placeBucket mm fuel st1
      (st1.unassignedSections (BANK_CONSTRAINED ||| ORG_CONSTRAINED)) with
  | .error e => .error (.place e)
  | .ok st2 =>
    if st2.nbSectionsToAssign = 0 then .ok (st2, scripted.2)
    else if overlay then .error .overlay
    else
      match assignBuckets mm fuel [5, 4, 3, 2, 1, 0] st2 with
      | .error e => .error e
      | .ok st3 => .ok (st3, scripted.2)

/-! ## Specification-level definitions -/

/-- A free list is well formed between `lo` and `hi`: every interval has a
non-zero size and lies in `[lo, hi]`, and each interval starts strictly after
the end of the one before it (so that they neither overlap nor touch). -/
def FreeListWF (hi : Nat) : Nat → List FreeSpace → Prop
  | _, [] => True
  | lo, s :: rest =>
    lo ≤ s.address ∧ 0 < s.size ∧ s.address + s.size ≤ hi ∧
      FreeListWF hi (s.address + s.size + 1) rest

/-- The tables describe 16-bit regions with at least one byte and a non-empty
range of 32-bit bank numbers. -/
def MemoryModel.WF (mm : MemoryModel) : Prop :=
  ∀ t, t < mm.nbTypes →
    0 < mm.maxsize t ∧ mm.startaddr t + mm.maxsize t ≤ 2^16 ∧
    (mm.bankranges t).1 ≤ (mm.bankranges t).2 ∧ (mm.bankranges t).2 + 1 < 2^32

/-- A well-formed free-space map: `memory[type]` has `nbbanks(type)` banks for
the valid types (and nothing else is allocated), and every free list is well
formed inside its region. -/
def MemoryWF (mm : MemoryModel) (memory : Memory) : Prop :=
  ∀ t, (memory t).length = (if t < mm.nbTypes then nbbanks mm t else 0) ∧
    ∀ l ∈ memory t, FreeListWF (mm.startaddr t + mm.maxsize t) (mm.startaddr t) l

/-- The states of the placement phase: `initFreeSpace` has run and nothing is
placed yet, or a reachable state was extended by a successful `placeSection`
of a section whose bank number is a `uint32_t`. -/
inductive Reachable (mm : MemoryModel) : State → Prop
  | init (st : State) (hm : st.memory = initFreeSpace mm) (hp : st.placed = []) :
      Reachable mm st
  | place (st st1 : State) (sect : Section) (fuel : Nat) (h : Reachable mm st)
      (hb : sect.bank < 2^32) (hs : placeSection mm fuel st sect = .ok st1) :
      Reachable mm st1

/-- Total size of the intervals of a free list. -/
def freeSize (l : List FreeSpace) : Nat := (l.map FreeSpace.size).sum

/-- Total size of the logged sections of type `t` that were assigned bank `bank`. -/
def placedSize (placed : List Section) (t bank : Nat) : Nat :=
  ((placed.filter (fun p => decide (p.type = t ∧ p.bank = bank))).map Section.size).sum

/-- Two sections occupy disjoint address intervals `[org, org + size)`. -/
def Section.Disjoint (a b : Section) : Prop :=
  a.org + a.size ≤ b.org ∨ b.org + b.size ≤ a.org

/-- The invariant of the placement phase. -/
structure Inv (mm : MemoryModel) (st : State) : Prop where
  wf : MemoryWF mm st.memory
  free_disjoint : ∀ p ∈ st.placed, p.size ≠ 0 →
    ∀ l, (st.memory p.type)[bankIndex mm p p.bank]? = some l →
    ∀ s ∈ l, p.org + p.size ≤ s.address ∨ s.address + s.size ≤ p.org
  placed_disjoint : st.placed.Pairwise (fun a b =>
    a.size ≠ 0 → b.size ≠ 0 → a.type = b.type → a.bank = b.bank → Section.Disjoint a b)
  sum : ∀ t i l, (st.memory t)[i]? = some l →
    freeSize l + placedSize st.placed t ((mm.bankranges t).1 + i) = mm.maxsize t

/-- A concrete instance of the tables (the Game Boy memory map, with a few
banks per banked region), used to exercise the theorems. -/
def gbModel : MemoryModel where
  nbTypes := 8
  startaddr := fun t => match t with
    | 0 => 0xC000 | 1 => 0x8000 | 2 => 0x4000 | 3 => 0x0000
    | 4 => 0xFF80 | 5 => 0xD000 | 6 => 0xA000 | _ => 0xFE00
  maxsize := fun t => match t with
    | 0 => 0x1000 | 1 => 0x2000 | 2 => 0x4000 | 3 => 0x4000
    | 4 => 0x007F | 5 => 0x1000 | 6 => 0x2000 | _ => 0x00A0
  bankranges := fun t => match t with
    | 0 => (0, 0) | 1 => (0, 1) | 2 => (1, 3) | 3 => (0, 0)
    | 4 => (0, 0) | 5 => (1, 7) | 6 => (0, 3) | _ => (0, 0)

/-- The state right after `initFreeSpace` for `gbModel`. -/
def gbInit : State :=
  { memory := initFreeSpace gbModel, nbSectionsToAssign := 0,
    unassignedSections := fun _ => [], placed := [] }

/-- The state a successful step returns (the given default otherwise). -/
def stateOf (r : Except PlaceError State) (dflt : State) : State :=
  match r with
  | .ok st => st
  | .error _ => dflt

/-- A 16-byte ROM0 section aligned to 256 bytes with offset 3. -/
def alignedSection : Section :=
  { size := 0x10, type := 3, isAddressFixed := false, org := 0, isBankFixed := false,
    bank := 0, isAlignFixed := true, alignMask := 0xFF, alignOfs := 3 }

/-- The alignment data of an align-fixed section is a low-bit mask `2^k - 1`
of at most 16 bits and an offset not larger than the mask. -/
def Section.AlignWF (sect : Section) : Prop :=
  sect.isAlignFixed = true →
    ∃ k, k ≤ 16 ∧ sect.alignMask = 2^k - 1 ∧ sect.alignOfs ≤ sect.alignMask

/-- The banks in which `getPlacement` may place a section: the fixed bank of a
bank-fixed section, every bank of the bank range of the region otherwise. -/
def eligibleBank (mm : MemoryModel) (sect : Section) (b : Nat) : Prop :=
  if sect.isBankFixed then b = sect.bank
  else (mm.bankranges sect.type).1 ≤ b ∧ b ≤ (mm.bankranges sect.type).2

/-- A state with empty buckets: the file-scope initialisers of `assign.c`. -/
def emptyState (mm : MemoryModel) : State :=
  { memory := initFreeSpace mm, nbSectionsToAssign := 0,
    unassignedSections := fun _ => [], placed := [] }

/-- The section as `applyPlacement` leaves it. -/
def scriptOverride (sect : Section) (org bank : Nat) : Section :=
  { sect with
    isAddressFixed := true, org := org, isBankFixed := true, bank := bank,
    isAlignFixed := false }

/-- Two unconstrained sections of equal size (in different regions). -/
def tieFirst : Section :=
  { size := 0x100, type := 3, isAddressFixed := false, org := 0, isBankFixed := false,
    bank := 0, isAlignFixed := false, alignMask := 0, alignOfs := 0 }

/-- The second section of the tie. -/
def tieSecond : Section :=
  { size := 0x100, type := 0, isAddressFixed := false, org := 0, isBankFixed := false,
    bank := 0, isAlignFixed := false, alignMask := 0, alignOfs := 0 }

/-- A section aligned to 256 bytes with offset 1. -/
def offsetSection : Section :=
  { size := 0x10, type := 3, isAddressFixed := false, org := 0, isBankFixed := false,
    bank := 0, isAlignFixed := true, alignMask := 0xFF, alignOfs := 1 }

/-- A ROM0 section fixed at `$1000` in bank 0. -/
def fixedSection : Section :=
  { size := 0x100, type := 3, isAddressFixed := true, org := 0x1000, isBankFixed := true,
    bank := 0, isAlignFixed := false, alignMask := 0, alignOfs := 0 }

/-- An empty ROMX section without constraints. -/
def emptySection : Section :=
  { size := 0, type := 2, isAddressFixed := false, org := 0, isBankFixed := false,
    bank := 0, isAlignFixed := false, alignMask := 0, alignOfs := 0 }

/-- A ROMX section that fills a whole bank. -/
def bankSection : Section :=
  { size := 0x4000, type := 2, isAddressFixed := false, org := 0, isBankFixed := false,
    bank := 0, isAlignFixed := false, alignMask := 0, alignOfs := 0 }

/-- A 16-byte ROMX section aligned to 256 bytes with offset 3. -/
def alignedRomx : Section :=
  { size := 0x10, type := 2, isAddressFixed := false, org := 0, isBankFixed := false,
    bank := 0, isAlignFixed := true, alignMask := 0xFF, alignOfs := 3 }

/-- The state after placing `fixedSection` in the initial state. -/
def stateFixed : State := stateOf (placeSection gbModel 10 gbInit fixedSection) gbInit

/-- The state after placing `fixedSection` and then `tieFirst`. -/
def stateTwo : State := stateOf (placeSection gbModel 10 stateFixed tieFirst) gbInit

/-- The state after placing `bankSection` in the initial state. -/
def stateBank : State := stateOf (placeSection gbModel 10 gbInit bankSection) gbInit

/-- An empty ROM0 section aligned to 256 bytes with offset 1. -/
def emptyAligned : Section :=
  { size := 0, type := 3, isAddressFixed := false, org := 0, isBankFixed := false,
    bank := 0, isAlignFixed := true, alignMask := 0xFF, alignOfs := 1 }

/-- A section aligned to 256 bytes without offset. -/
def pageAligned : Section :=
  { size := 0x10, type := 4, isAddressFixed := false, org := 0, isBankFixed := false,
    bank := 0, isAlignFixed := true, alignMask := 0xFF, alignOfs := 0 }

/-- A 64-byte HRAM section without constraints. -/
def hramFirst : Section :=
  { size := 0x40, type := 4, isAddressFixed := false, org := 0, isBankFixed := false,
    bank := 0, isAlignFixed := false, alignMask := 0, alignOfs := 0 }

/-- A 64-byte HRAM section aligned to 2 bytes. -/
def hramAligned : Section :=
  { size := 0x40, type := 4, isAddressFixed := false, org := 0, isBankFixed := false,
    bank := 0, isAlignFixed := true, alignMask := 1, alignOfs := 0 }

/-- The state after placing `hramFirst` in the initial state. -/
def stateHram : State := stateOf (placeSection gbModel 10 gbInit hramFirst) gbInit

/-- The sections that `sect_ForEach` hands to `categorizeSection`: the visited
sections as the linker script left them. -/
def scriptedSections (script : Option (List SectionPlacement)) (store : SectionStore)
    (all : List Nat) : List Section :=
  all.map (processLinkerScript script store).1

/-- The state of `assign_AssignSections` after the call to `sect_ForEach`. -/
def categorized (mm : MemoryModel) (sects : List Section) : State :=
  sects.foldl categorizeSection (emptyState mm)

/-- The bucket lists of the given constraint values, one after the other. -/
def bucketsConcat (st : State) : List Nat → List Section
  | [] => []
  | c :: cs => st.unassignedSections c ++ bucketsConcat st cs

/-- Three sections addressed by pointer: `fixedSection`, `tieFirst` and
`alignedSection`. -/
def exampleStore : SectionStore := fun p =>
  match p with
  | 0 => fixedSection
  | 1 => tieFirst
  | _ => alignedSection

/-- Whether a run of `assign_AssignSections` stopped in a call to `placeSection`. -/
def isPlaceError (r : Except AssignError (State × List Diagnostic)) : Bool :=
  match r with
  | .error (.place _) => true
  | _ => false

/-- A ROMX section as large as a bank, aligned to 4096 bytes with offset 3: it
fits in no bank. -/
def wideRomx : Section :=
  { size := 0x4000, type := 2, isAddressFixed := false, org := 0, isBankFixed := false,
    bank := 0, isAlignFixed := true, alignMask := 0xFFF, alignOfs := 3 }

/-- A 3-byte ROM0 section whose alignment mask, 2, is not a low-bit mask. -/
def oddMask : Section :=
  { size := 3, type := 3, isAddressFixed := false, org := 0, isBankFixed := false,
    bank := 0, isAlignFixed := true, alignMask := 2, alignOfs := 0 }

/-- The free-space map of `gbModel` in which only the intervals `[0, 2)` and
`[5, 8)` of ROM0 are free. -/
def gapMemory : Memory :=
  fun type =>
    if type = 3 then [[{ address := 0, size := 2 }, { address := 5, size := 3 }]]
    else initFreeSpace gbModel type

/-- Every pointer names a copy of `hramAligned`: the store of a program made of
64-byte HRAM sections aligned to 2 bytes. -/
def hramStore : SectionStore := fun _ => hramAligned

/-- The state in which `assign_AssignSections` starts placing the two sections
of `hramStore`. -/
def hramPending : State := categorized gbModel (scriptedSections none hramStore [0, 1])

/-- The state after the first of the two sections of `hramStore` is placed. -/
def hramHalf : State := stateOf (placeSection gbModel 1 hramPending hramAligned) hramPending

end Rgblink

/-! ## The character maps of RGBASM (`src/asm/charmap.c`)

A C string is the list of its bytes before the terminating NUL; memory reached
through a `char *` is the list of the bytes from the pointer on (terminator and
what follows included), and an access past the end of that list, or outside an
array, is reported as `CharmapError.outOfBounds`. -/

namespace Rgbasm

/-- The constants `MAXCHARMAPS` and `CHARMAPLENGTH` come from `asm/charmap.h`,
which is not part of the sources at hand; they are parameters. -/
structure Limits where
  MAXCHARMAPS : Nat
  CHARMAPLENGTH : Nat
  deriving DecidableEq, Repr

/-- One slot of the table: the row `input[i]`, as a C string, and the byte
`output[i]`. -/
structure Entry where
  input : List Nat
  output : Nat
  deriving DecidableEq, Repr

/-- The fields of `struct Charmap` (declared in `asm/charmap.h`): `count` and
the arrays `input` / `output`, as the list of their slots.  The length of the
list is the size of the arrays; the table proper is made of the first `count`
slots. -/
structure Charmap where
  count : Nat
  slots : List Entry
  deriving DecidableEq, Repr

/-- Why a call did not produce a value. -/
inductive CharmapError where
  /-- an array or a string was accessed outside of its bounds -/
  | outOfBounds
  /-- the fuel was used up before the loop ended -/
  | outOfFuel
  deriving DecidableEq, Repr

/-- Lines 21-44 of `readUTF8Char`: the size announced by the first byte. -/
def utf8Size (first : Nat) : Nat :=
  if first ≥ 0xFC then 6
  else if first ≥ 0xF8 then 5
  else if first ≥ 0xF0 then 4
  else if first ≥ 0xE0 then 3
  else if first ≥ 0xC0 then 2
  else 1

/-- The library function `strncpy(destination, source, size)`: the `size` bytes
it writes, namely the bytes of `source` up to its NUL (at most `size` of them)
followed by NUL padding. -/
def strncpy (source : List Nat) (size : Nat) : List Nat :=
  let copied := (source.take size).takeWhile (fun c => c ≠ 0)
  copied ++ List.replicate (size - copied.length) 0

/-- Lines 14-48, `readUTF8Char`: the contents of `destination` (`size + 1`
bytes) and the returned size. -/
def readUTF8Char (source : List Nat) : List Nat × Nat :=
  let first := source.headD 0
  let size := utf8Size first
  (strncpy source size ++ [0], size)

/-- Lines 87-99 of `charmap_Add`: the first loop, from index `i` on, with `n`
the number of indices left below `count`.  Returns the index after the loop,
the slots and the temporaries `temp1i` / `temp1o`. -/
def firstLoop (inputLength : Nat) (new : Entry) :
    Nat → Nat → List Entry → Entry → Except CharmapError (Nat × List Entry × Entry)
  | 0, i, slots, temp1 => .ok (i, slots, temp1)
  | n + 1, i, slots, temp1 =>
    match slots[i]? with
    | none => .error .outOfBounds
    | some e =>
      if inputLength > e.input.length then .ok (i + 1, slots.set i new, e)
      else firstLoop inputLength new n (i + 1) slots temp1

/-- Lines 100-109 of `charmap_Add`: the second loop, from index `i` on, with
`n` the number of indices left below `count`.  Returns the slots and the
temporaries `temp1i` / `temp1o`. -/
def shiftLoop : Nat → Nat → List Entry → Entry → Except CharmapError (List Entry × Entry)
  | 0, _, slots, temp1 => .ok (slots, temp1)
  | n + 1, i, slots, temp1 =>
    match slots[i]? with
    | none => .error .outOfBounds
    | some e => shiftLoop n (i + 1) (slots.set i temp1) e

/-- Lines 78-118 of `charmap_Add`, on the charmap that lines 58-76 select (the
charmap of the current section, or `globalCharmap`).  `temp` is the content of
the uninitialised locals `temp1i` / `temp1o` on entry.  Returns the `int`
result and the charmap as the call leaves it. -/
def charmap_Add (lim : Limits) (temp : Entry) (charmap : Charmap) (input : List Nat)
    (output : Nat) : Except CharmapError (Int × Charmap) :=
  if charmap.count > lim.MAXCHARMAPS || input.length > lim.CHARMAPLENGTH then
    .ok (-1, charmap)
  else
    let input_length := input.length
    if input_length > 1 then
      match firstLoop input_length { input := input, output := output } charmap.count 0
          charmap.slots temp with
      | .error e => .error e
      | .ok (i, slots1, temp1) =>
        match shiftLoop (charmap.count - i) i slots1 temp1 with
        | .error e => .error e
        | .ok (slots2, temp2) =>
          if charmap.count < slots2.length then
            .ok ((charmap.count : Int) + 1,
              { count := charmap.count + 1, slots := slots2.set charmap.count temp2 })
          else .error .outOfBounds
    else
      if 1 ≤ charmap.count ∧ charmap.count - 1 < charmap.slots.length then
        .ok ((charmap.count : Int) + 1,
          { count := charmap.count + 1,
            slots := charmap.slots.set (charmap.count - 1)
              { input := input, output := output } })
      else .error .outOfBounds

/-- Lines 150-160 of `charmap_Convert`: the scan of the table from index `i`
on, with `n` the number of indices left below `count`.  Returns the entry at
which the loop breaks, if any. -/
def findEntry (slots : List Entry) (source : List Nat) :
    Nat → Nat → Except CharmapError (Option Entry)
  | 0, _ => .ok none
  | n + 1, i =>
    match slots[i]? with
    | none => .error .outOfBounds
    | some e =>
      if source.take e.input.length = e.input then .ok (some e)
      else findEntry slots source n (i + 1)

/-- Lines 165-175 of `charmap_Convert`: the bytes appended to `buffer` for the
given contents of `outchar`. -/
def emitted (outchar : List Nat) : List Nat :=
  if outchar.headD 0 = 0 then [0]
  else outchar.takeWhile (fun c => c ≠ 0)

/-- Lines 149-176 of `charmap_Convert`: one turn of the loop `while (**input)`.
Returns the bytes appended to `buffer` and the value of `j` by which `*input`
advances. -/
def convertStep (charmap : Charmap) (source : List Nat) :
    Except CharmapError (List Nat × Nat) :=
  match findEntry charmap.slots source charmap.count 0 with
  | .error e => .error e
  | .ok found =>
    match found with
    | some e =>
      if e.input.length ≠ 0 then .ok (emitted [e.output, 0], e.input.length)
      else .ok (emitted (readUTF8Char source).1, (readUTF8Char source).2)
    | none => .ok (emitted (readUTF8Char source).1, (readUTF8Char source).2)

/-- Lines 147-177 of `charmap_Convert`: the loop `while (**input)`.  `capacity`
is the size of `buffer`. -/
def convertLoop (charmap : Charmap) (capacity : Nat) :
    Nat → List Nat → List Nat → Except CharmapError (List Nat)
  | fuel, source, buffer =>
    match source with
    | [] => .error .outOfBounds
    | c :: rest =>
      if c = 0 then .ok buffer
      else
        match fuel with
        | 0 => .error .outOfFuel
        | fuel1 + 1 =>
          match convertStep charmap (c :: rest) with
          | .error e => .error e
          | .ok (bytes, j) =>
            if buffer.length + bytes.length ≤ capacity then
              convertLoop charmap capacity fuel1 ((c :: rest).drop j) (buffer ++ bytes)
            else .error .outOfBounds

/-- The library function `strlen`, on the memory at the pointer. -/
def strlen : List Nat → Option Nat
  | [] => none
  | c :: rest => if c = 0 then some 0 else (strlen rest).map (fun n => n + 1)

/-- Lines 139-180 of `charmap_Convert`, on the charmap that lines 130-137
select.  `source` is the memory at `*input`.  Returns the contents of `buffer`;
the `int` result is the length of that list.  The fuel is the length of the
memory, which the loop cannot use up since every turn advances. -/
def charmap_Convert (charmap : Charmap) (source : List Nat) :
    Except CharmapError (List Nat) :=
  match strlen source with
  | none => .error .outOfBounds
  | some capacity => convertLoop charmap capacity source.length source []

/-! ### Specification-level definitions and example tables -/

/-- The table proper of a character map: its first `count` slots. -/
def Charmap.table (cm : Charmap) : List Entry := cm.slots.take cm.count

/-- The order the table is meant to have: no entry is longer than an entry stored
before it. -/
def SortedByLength (t : List Entry) : Prop :=
  t.Pairwise (fun a b => b.input.length ≤ a.input.length)

instance SortedByLength.decidable (t : List Entry) : Decidable (SortedByLength t) := by
  unfold SortedByLength; infer_instance

/-- A run of `charmap_Add` calls, each given as (contents of the temporaries, input,
output): the returned values in call order and the final character map. -/
def addAll (limits : Limits) : Charmap → List (Entry × List Nat × Nat) →
    Except CharmapError (List Int × Charmap)
  | cm, [] => .ok ([], cm)
  | cm, (temp, input, output) :: rest =>
    match charmap_Add limits temp cm input output with
    | .error e => .error e
    | .ok (r, cm1) =>
      match addAll limits cm1 rest with
      | .error e => .error e
      | .ok (rs, cm2) => .ok (r :: rs, cm2)

/-- Example limits: four entries of at most sixteen bytes. -/
def smallLimits : Limits := { MAXCHARMAPS := 4, CHARMAPLENGTH := 16 }

/-- A zero-filled slot: the empty string with output 0. -/
def zeroEntry : Entry := { input := [], output := 0 }

/-- The zero-initialised character map for `smallLimits`. -/
def emptyCharmap : Charmap := { count := 0, slots := List.replicate 4 zeroEntry }

/-- A character map holding the single entry ("AB", 1). -/
def oneCharmap : Charmap :=
  { count := 1, slots := [⟨[0x41, 0x42], 1⟩, zeroEntry, zeroEntry, zeroEntry] }

/-- A character map holding `MAXCHARMAPS` entries for `smallLimits`. -/
def fullCharmap : Charmap :=
  { count := 4, slots := [⟨[0x41, 0x42], 1⟩, ⟨[0x43], 2⟩, ⟨[0x44], 3⟩, ⟨[0x45], 4⟩] }

/-- The table of the witness of the longest match: [("AB", 1), ("A", 2)]. -/
def abCharmap : Charmap :=
  { count := 2, slots := [⟨[0x41, 0x42], 1⟩, ⟨[0x41], 2⟩, zeroEntry, zeroEntry] }

/-- Completeness of the UTF-8 sequences of a string, checked over at most `fuel`
codepoints: every codepoint, of the length announced by its first byte, ends inside
the string. -/
def utf8CompleteAux : Nat → List Nat → Bool
  | _, [] => true
  | 0, _ :: _ => false
  | fuel + 1, c :: rest =>
    decide (utf8Size c ≤ (c :: rest).length)
      && utf8CompleteAux fuel ((c :: rest).drop (utf8Size c))

/-- A string none of whose UTF-8 sequences is cut short by the end of the string. -/
def utf8Complete (s : List Nat) : Bool := utf8CompleteAux s.length s

end Rgbasm

namespace Rgblink

/-! ## Auxiliary lemmas -/

/-! ### Soundness of the search: what `getPlacement` returns is suitable -/

theorem isLocationSuitable_iff (sect : Section) (s : FreeSpace) (loc : MemoryLocation) :
    isLocationSuitable sect s loc = true ↔
      (sect.isAddressFixed = true → sect.org = loc.address) ∧
      (sect.isAlignFixed = true → alignResidue sect loc.address = 0) ∧
      s.address ≤ loc.address ∧ loc.address + sect.size ≤ s.address + s.size := by
  unfold isLocationSuitable
  cases h1 : sect.isAddressFixed <;> cases h2 : sect.isAlignFixed <;>
    by_cases h3 : sect.org = loc.address <;>
    by_cases h4 : alignResidue sect loc.address = 0 <;>
    by_cases h5 : loc.address < s.address <;>
    simp [h3, h4, h5] <;> omega

theorem FreeListWF.mono {hi lo lo1 : Nat} {l : List FreeSpace} (h : FreeListWF hi lo l)
    (hle : lo1 ≤ lo) : FreeListWF hi lo1 l := by
  cases l with
  | nil => trivial
  | cons s rest =>
    obtain ⟨h1, h2, h3, h4⟩ := h
    exact ⟨by omega, h2, h3, h4⟩

theorem skipSpaces_drop (address : Nat) (L : List FreeSpace) :
    ∀ (space : List FreeSpace) (idx : Nat), L.drop idx = space →
      L.drop (skipSpaces address idx space).1 = (skipSpaces address idx space).2 := by
  intro space
  induction space with
  | nil => intro idx h; simpa [skipSpaces] using h
  | cons s rest ih =>
    intro idx h
    unfold skipSpaces
    split
    · apply ih
      rw [← List.drop_drop, h]; rfl
    · exact h

theorem scanBank_sound (sect : Section) (bank : Nat) (L : List FreeSpace) :
    ∀ (fuel idx : Nat) (space : List FreeSpace) (address : Nat) (i : Nat)
      (loc : MemoryLocation),
      L.drop idx = space →
      scanBank sect bank fuel idx space address = .ok (some (i, loc)) →
      ∃ s, L[i]? = some s ∧ isLocationSuitable sect s loc = true ∧ loc.bank = bank := by
  intro fuel
  induction fuel with
  | zero =>
    intro idx space address i loc _ h
    cases space <;> simp [scanBank] at h
  | succ fuel ih =>
    intro idx space address i loc hd h
    cases space with
    | nil => simp [scanBank] at h
    | cons s rest =>
      unfold scanBank at h
      split at h
      · rename_i hs
        simp only [Except.ok.injEq, Option.some.injEq, Prod.mk.injEq] at h
        obtain ⟨rfl, rfl⟩ := h
        refine ⟨s, ?_, hs, rfl⟩
        have := List.getElem?_drop L idx 0
        rw [hd] at this
        simpa using this.symm
      · split at h
        · split at h
          · exact ih _ _ _ _ _ (skipSpaces_drop _ L _ _ hd) h
          · simp at h
        · split at h
          · exact ih _ _ _ _ _ (skipSpaces_drop _ L _ _ hd) h
          · cases rest with
            | nil => simp at h
            | cons s1 rest1 =>
              simp only at h
              refine ih _ _ _ _ _ (skipSpaces_drop _ L _ _ ?_) h
              rw [← List.drop_drop, hd]; rfl

/-! ### The array of banks -/

theorem updateBank_length (f : List FreeSpace → List FreeSpace) :
    ∀ (L : List (List FreeSpace)) (j : Nat), (updateBank f L j).length = L.length := by
  intro L
  induction L with
  | nil => intro j; rfl
  | cons l rest ih =>
    intro j
    cases j with
    | zero => rfl
    | succ j => simp [updateBank, ih]

theorem updateBank_getElem? (f : List FreeSpace → List FreeSpace) :
    ∀ (L : List (List FreeSpace)) (j i : Nat),
      (updateBank f L j)[i]? = if i = j then L[i]?.map f else L[i]? := by
  intro L
  induction L with
  | nil => intro j i; simp [updateBank]
  | cons l rest ih =>
    intro j i
    cases j with
    | zero =>
      cases i with
      | zero => simp [updateBank]
      | succ i => simp [updateBank]
    | succ j =>
      cases i with
      | zero => simp [updateBank]
      | succ i => simp [updateBank, ih]

theorem updateBank_mem (f : List FreeSpace → List FreeSpace) :
    ∀ (L : List (List FreeSpace)) (j : Nat) (l1 : List FreeSpace),
      l1 ∈ updateBank f L j → l1 ∈ L ∨ ∃ l, L[j]? = some l ∧ l1 = f l := by
  intro L
  induction L with
  | nil => intro j l1 h; simp [updateBank] at h
  | cons l rest ih =>
    intro j l1 h
    cases j with
    | zero =>
      simp only [updateBank, List.mem_cons] at h
      rcases h with h | h
      · right; exact ⟨l, by simp, h⟩
      · left; simp [h]
    | succ j =>
      simp only [updateBank, List.mem_cons] at h
      rcases h with h | h
      · left; simp [h]
      · rcases ih j l1 h with h1 | ⟨l2, h2, h3⟩
        · left; simp [h1]
        · right; exact ⟨l2, by simpa using h2, h3⟩

theorem getPlacementLoop_sound (mm : MemoryModel) (memory : Memory) (sect : Section)
    (fuel : Nat) (hhi : (mm.bankranges sect.type).2 + 1 < 2^32) :
    ∀ (n bank i : Nat) (loc : MemoryLocation),
      (sect.isBankFixed = false → bank ≤ (mm.bankranges sect.type).2) →
      getPlacementLoop mm memory sect fuel n bank = .ok (some (i, loc)) →
      ∃ l s, (memory sect.type)[bankIndex mm sect loc.bank]? = some l ∧ l[i]? = some s ∧
        isLocationSuitable sect s loc = true ∧
        (sect.isBankFixed = true → loc.bank = bank) ∧
        (sect.isBankFixed = false → bank ≤ loc.bank ∧ loc.bank ≤ (mm.bankranges sect.type).2) := by
  intro n
  induction n with
  | zero => intro bank i loc _ h; simp [getPlacementLoop] at h
  | succ n ih =>
    intro bank i loc hb h
    unfold getPlacementLoop at h
    split at h
    · simp at h
    · rename_i space hspace
      simp only at h
      split at h
      · simp at h
      · rename_i r hr
        simp only [Except.ok.injEq, Option.some.injEq] at h
        subst h
        obtain ⟨s, hs1, hs2, hs3⟩ := scanBank_sound sect bank space fuel 0 space _ i loc rfl hr
        subst hs3
        exact ⟨space, s, hspace, hs1, hs2, fun _ => rfl, fun hf => ⟨le_refl _, hb hf⟩⟩
      · split at h
        · simp at h
        · rename_i hfix
          split at h
          · simp at h
          · rename_i hle
            have hfix1 : sect.isBankFixed = false := by simpa using hfix
            have hb1 := hb hfix1
            have hmod : (bank + 1) % 2^32 = bank + 1 := Nat.mod_eq_of_lt (by omega)
            rw [hmod] at h hle
            obtain ⟨l, s, h1, h2, h3, h4, h5⟩ := ih (bank + 1) i loc (fun _ => by omega) h
            refine ⟨l, s, h1, h2, h3, fun hf => ?_, fun hf => ?_⟩
            · rw [hfix1] at hf; cases hf
            · have := h5 hf; omega

theorem getPlacement_sound (mm : MemoryModel) (memory : Memory) (sect : Section)
    (fuel : Nat) (hhi : (mm.bankranges sect.type).2 + 1 < 2^32)
    (hlo : (mm.bankranges sect.type).1 ≤ (mm.bankranges sect.type).2)
    (i : Nat) (loc : MemoryLocation)
    (h : getPlacement mm memory sect fuel = .ok (some (i, loc))) :
    ∃ l s, (memory sect.type)[bankIndex mm sect loc.bank]? = some l ∧ l[i]? = some s ∧
      isLocationSuitable sect s loc = true ∧
      (sect.isBankFixed = true → loc.bank = sect.bank) ∧
      (sect.isBankFixed = false →
        (mm.bankranges sect.type).1 ≤ loc.bank ∧ loc.bank ≤ (mm.bankranges sect.type).2) := by
  unfold getPlacement at h
  obtain ⟨l, s, h1, h2, h3, h4, h5⟩ :=
    getPlacementLoop_sound mm memory sect fuel hhi fuel _ i loc
      (fun hf => by simp [hf]; exact hlo) h
  refine ⟨l, s, h1, h2, h3, fun hf => ?_, fun hf => ?_⟩
  · have := h4 hf; simpa [hf] using this
  · have := h5 hf; simpa [hf] using this

/-! ### Carving a section out of a free interval -/

theorem FreeListWF.bounds {hi : Nat} : ∀ {l : List FreeSpace} {lo : Nat},
    FreeListWF hi lo l → ∀ s ∈ l, lo ≤ s.address ∧ 0 < s.size ∧ s.address + s.size ≤ hi := by
  intro l
  induction l with
  | nil => intro lo _ s hs; cases hs
  | cons a rest ih =>
    intro lo h s hs
    obtain ⟨h1, h2, h3, h4⟩ := h
    rcases List.mem_cons.1 hs with rfl | hs
    · exact ⟨h1, h2, h3⟩
    · have := ih h4 s hs
      exact ⟨by omega, this.2.1, this.2.2⟩

theorem splitFreeSpace_eq (s : FreeSpace) (sect : Section) :
    splitFreeSpace s sect =
      if s.address = sect.org then
        if s.address + s.size = sect.org + sect.size then []
        else [{ address := (s.address + sect.size) % 2^16,
                size := (s.size + 2^16 - sect.size) % 2^16 }]
      else
        if s.address + s.size = sect.org + sect.size then
          [{ address := s.address, size := (s.size + 2^16 - sect.size) % 2^16 }]
        else
          [{ address := s.address, size := (sect.org + 2^16 - s.address) % 2^16 },
           { address := (sect.org + sect.size) % 2^16,
             size := (s.address + s.size + 2^16 - (sect.org + sect.size) % 2^16) % 2^16 }] := by
  unfold splitFreeSpace
  by_cases e1 : s.address = sect.org <;>
    by_cases e2 : s.address + s.size = sect.org + sect.size
  · have e1' : (s.address == sect.org) = true := by simpa using e1
    have e2' : (s.address + s.size == sect.org + sect.size) = true := by simpa using e2
    simp only [e1', e2', if_pos e1, if_pos e2, Bool.and_self, if_true]
  · have e1' : (s.address == sect.org) = true := by simpa using e1
    have e2' : (s.address + s.size == sect.org + sect.size) = false := by simpa using e2
    simp only [e1', e2', if_pos e1, if_neg e2, Bool.and_false, Bool.not_true, Bool.not_false,
      Bool.false_and, if_true, Bool.false_eq_true, if_false]
  · have e1' : (s.address == sect.org) = false := by simpa using e1
    have e2' : (s.address + s.size == sect.org + sect.size) = true := by simpa using e2
    simp only [e1', e2', if_neg e1, if_pos e2, Bool.and_false, Bool.not_true, Bool.not_false,
      Bool.false_and, Bool.and_true, if_true, Bool.false_eq_true, if_false]
  · have e1' : (s.address == sect.org) = false := by simpa using e1
    have e2' : (s.address + s.size == sect.org + sect.size) = false := by simpa using e2
    simp only [e1', e2', if_neg e1, if_neg e2, Bool.and_false, Bool.not_true, Bool.not_false,
      Bool.false_and, Bool.and_true, Bool.and_self, if_true, Bool.false_eq_true, if_false]

theorem splitFreeSpace_wf {hi lo : Nat} {s : FreeSpace} {rest : List FreeSpace}
    {sect : Section} (hhi : hi ≤ 2^16) (h1 : lo ≤ s.address) (h3 : s.address + s.size ≤ hi)
    (h4 : FreeListWF hi (s.address + s.size + 1) rest) (hsz : sect.size ≠ 0)
    (ha : s.address ≤ sect.org) (hb : sect.org + sect.size ≤ s.address + s.size) :
    FreeListWF hi lo (splitFreeSpace s sect ++ rest) := by
  rw [splitFreeSpace_eq]
  norm_num at hhi
  by_cases e1 : s.address = sect.org <;>
    by_cases e2 : s.address + s.size = sect.org + sect.size
  · simp only [if_pos e1, if_pos e2, List.nil_append]
    exact h4.mono (by omega : lo ≤ s.address + s.size + 1)
  · simp only [if_pos e1, if_neg e2, List.cons_append, List.nil_append, FreeListWF]
    norm_num
    exact ⟨by omega, by omega, by omega,
      h4.mono (by omega)⟩
  · simp only [if_neg e1, if_pos e2, List.cons_append, List.nil_append, FreeListWF]
    norm_num
    exact ⟨by omega, by omega, by omega, h4.mono (by omega)⟩
  · simp only [if_neg e1, if_neg e2, List.cons_append, List.nil_append, FreeListWF]
    norm_num
    exact ⟨by omega, by omega, by omega, by omega, by omega, by omega, h4.mono (by omega)⟩

theorem carveAt_wf {hi : Nat} (hhi : hi ≤ 2^16) (sect : Section) (s : FreeSpace)
    (hsz : sect.size ≠ 0) (ha : s.address ≤ sect.org)
    (hb : sect.org + sect.size ≤ s.address + s.size) :
    ∀ (l : List FreeSpace) (idx lo : Nat), FreeListWF hi lo l → l[idx]? = some s →
      FreeListWF hi lo (carveAt sect l idx) := by
  intro l
  induction l with
  | nil => intro idx lo _ h; simp at h
  | cons a rest ih =>
    intro idx lo hwf h
    obtain ⟨h1, h2, h3, h4⟩ := hwf
    cases idx with
    | zero =>
      simp only [List.getElem?_cons_zero, Option.some.injEq] at h
      subst h
      exact splitFreeSpace_wf hhi h1 h3 h4 hsz ha hb
    | succ i =>
      simp only [List.getElem?_cons_succ] at h
      exact ⟨h1, h2, h3, ih i _ h4 h⟩

theorem splitFreeSpace_size (s : FreeSpace) (sect : Section)
    (h3 : s.address + s.size ≤ 2^16) (hsz : sect.size ≠ 0)
    (ha : s.address ≤ sect.org) (hb : sect.org + sect.size ≤ s.address + s.size) :
    freeSize (splitFreeSpace s sect) + sect.size = s.size := by
  rw [splitFreeSpace_eq]
  unfold freeSize
  norm_num at h3
  by_cases e1 : s.address = sect.org <;>
    by_cases e2 : s.address + s.size = sect.org + sect.size
  · simp only [if_pos e1, if_pos e2, List.map_nil, List.sum_nil]; omega
  · simp only [if_pos e1, if_neg e2, List.map_cons, List.map_nil, List.sum_cons, List.sum_nil]
    omega
  · simp only [if_neg e1, if_pos e2, List.map_cons, List.map_nil, List.sum_cons, List.sum_nil]
    omega
  · simp only [if_neg e1, if_neg e2, List.map_cons, List.map_nil, List.sum_cons, List.sum_nil]
    omega

theorem freeSize_cons (s : FreeSpace) (l : List FreeSpace) :
    freeSize (s :: l) = s.size + freeSize l := by
  simp [freeSize]

theorem freeSize_append (l1 l2 : List FreeSpace) :
    freeSize (l1 ++ l2) = freeSize l1 + freeSize l2 := by
  simp [freeSize]

theorem carveAt_size {hi : Nat} (hhi : hi ≤ 2^16) (sect : Section) (s : FreeSpace)
    (hsz : sect.size ≠ 0) (ha : s.address ≤ sect.org) (hb : sect.org + sect.size ≤ s.address + s.size) :
    ∀ (l : List FreeSpace) (idx lo : Nat), FreeListWF hi lo l → l[idx]? = some s →
      freeSize (carveAt sect l idx) + sect.size = freeSize l := by
  intro l
  induction l with
  | nil => intro idx lo _ h; simp at h
  | cons a rest ih =>
    intro idx lo hwf h
    obtain ⟨h1, h2, h3, h4⟩ := hwf
    cases idx with
    | zero =>
      simp only [List.getElem?_cons_zero, Option.some.injEq] at h
      subst h
      have := splitFreeSpace_size a sect (by omega) hsz ha hb
      simp only [carveAt, freeSize_append, freeSize_cons]
      omega
    | succ i =>
      simp only [List.getElem?_cons_succ] at h
      have := ih i _ h4 h
      simp only [carveAt, freeSize_cons]
      omega

theorem splitFreeSpace_mem (s : FreeSpace) (sect : Section)
    (h3 : s.address + s.size ≤ 2^16)
    (ha : s.address ≤ sect.org) (hb : sect.org + sect.size ≤ s.address + s.size) :
    ∀ s1 ∈ splitFreeSpace s sect,
      (s.address ≤ s1.address ∧ s1.address + s1.size ≤ s.address + s.size) ∧
      (s1.address + s1.size ≤ sect.org ∨ sect.org + sect.size ≤ s1.address) := by
  intro s1 hs1
  rw [splitFreeSpace_eq] at hs1
  norm_num at h3
  by_cases e1 : s.address = sect.org <;>
    by_cases e2 : s.address + s.size = sect.org + sect.size
  · simp only [if_pos e1, if_pos e2, List.not_mem_nil] at hs1
  · simp only [if_pos e1, if_neg e2, List.mem_singleton] at hs1
    subst hs1
    norm_num
    omega
  · simp only [if_neg e1, if_pos e2, List.mem_singleton] at hs1
    subst hs1
    norm_num
    omega
  · simp only [if_neg e1, if_neg e2, List.mem_cons, List.mem_singleton, List.not_mem_nil,
      or_false] at hs1
    rcases hs1 with rfl | rfl <;> norm_num <;> omega

theorem carveAt_mem {hi : Nat} (hhi : hi ≤ 2^16) (sect : Section) (s : FreeSpace)
    (ha : s.address ≤ sect.org)
    (hb : sect.org + sect.size ≤ s.address + s.size) :
    ∀ (l : List FreeSpace) (idx lo : Nat), FreeListWF hi lo l → l[idx]? = some s →
      ∀ s1 ∈ carveAt sect l idx,
        (∃ s0 ∈ l, s0.address ≤ s1.address ∧ s1.address + s1.size ≤ s0.address + s0.size) ∧
        (s1.address + s1.size ≤ sect.org ∨ sect.org + sect.size ≤ s1.address) := by
  intro l
  induction l with
  | nil => intro idx lo _ h; simp at h
  | cons a rest ih =>
    intro idx lo hwf h s1 hs1
    obtain ⟨h1, h2, h3, h4⟩ := hwf
    cases idx with
    | zero =>
      simp only [List.getElem?_cons_zero, Option.some.injEq] at h
      subst h
      simp only [carveAt, List.mem_append] at hs1
      rcases hs1 with hs1 | hs1
      · have := splitFreeSpace_mem a sect (by omega) ha hb s1 hs1
        exact ⟨⟨a, by simp, this.1⟩, this.2⟩
      · have := h4.bounds s1 hs1
        exact ⟨⟨s1, by simp [hs1], le_refl _, le_refl _⟩, by omega⟩
    | succ i =>
      simp only [List.getElem?_cons_succ] at h
      simp only [carveAt, List.mem_cons] at hs1
      rcases hs1 with rfl | hs1
      · have hmem : s ∈ rest := List.getElem?_mem h
        have := h4.bounds s hmem
        exact ⟨⟨s1, by simp, le_refl _, le_refl _⟩, by omega⟩
      · obtain ⟨⟨s0, hs0, hs0'⟩, hd⟩ := ih i _ h4 h s1 hs1
        exact ⟨⟨s0, by simp [hs0], hs0'⟩, hd⟩

/-! ### The invariant of the placement phase -/

theorem getPlacement_lookup (mm : MemoryModel) (memory : Memory) (sect : Section)
    (fuel : Nat) (r : Nat × MemoryLocation)
    (h : getPlacement mm memory sect fuel = .ok (some r)) : memory sect.type ≠ [] := by
  unfold getPlacement at h
  cases fuel with
  | zero => simp [getPlacementLoop] at h
  | succ n =>
    unfold getPlacementLoop at h
    split at h
    · simp at h
    · rename_i space hspace
      intro hnil
      rw [hnil] at hspace
      simp at hspace

theorem placeSection_zero (mm : MemoryModel) (fuel : Nat) (st : State) (sect : Section)
    (hsz : sect.size = 0) :
    placeSection mm fuel st sect = .ok
      { st with
        nbSectionsToAssign := decr64 st.nbSectionsToAssign
        placed :=
          { sect with
            org := if sect.isAddressFixed then sect.org else mm.startaddr sect.type
            bank := if sect.isBankFixed then sect.bank else (mm.bankranges sect.type).1 } ::
          st.placed } := by
  simp [placeSection, hsz, assignSection, out_AddSection]

theorem placeSection_nonzero (mm : MemoryModel) (fuel : Nat) (st st1 : State)
    (sect : Section) (hsz : sect.size ≠ 0) (h : placeSection mm fuel st sect = .ok st1) :
    ∃ idx loc, getPlacement mm st.memory sect fuel = .ok (some (idx, loc)) ∧
      (∀ type, st1.memory type =
        if type = sect.type then
          updateBank
            (fun l => carveAt { sect with org := loc.address, bank := loc.bank } l idx)
            (st.memory type) (bankIndex mm sect loc.bank)
        else st.memory type) ∧
      st1.nbSectionsToAssign = decr64 st.nbSectionsToAssign ∧
      (∀ c, st1.unassignedSections c = st.unassignedSections c) ∧
      st1.placed = { sect with org := loc.address, bank := loc.bank } :: st.placed := by
  unfold placeSection at h
  rw [if_neg hsz] at h
  split at h
  · simp at h
  · simp at h
  · rename_i idx loc hg
    refine ⟨idx, loc, hg, ?_⟩
    simp only [Except.ok.injEq] at h
    subst h
    refine ⟨fun type => ?_, ?_, fun c => ?_, ?_⟩ <;> simp only [assignSection, out_AddSection]

theorem initFreeSpace_wf (mm : MemoryModel) (hmm : mm.WF) : MemoryWF mm (initFreeSpace mm) := by
  intro t
  unfold initFreeSpace
  by_cases ht : t < mm.nbTypes
  · simp only [if_pos ht, List.length_replicate, true_and]
    intro l hl
    rw [List.eq_of_mem_replicate hl]
    have := hmm t ht
    exact ⟨le_refl _, this.1, le_refl _, trivial⟩
  · simp [if_neg ht]

theorem Inv.init (mm : MemoryModel) (hmm : mm.WF) (st : State)
    (hm : st.memory = initFreeSpace mm) (hp : st.placed = []) : Inv mm st := by
  refine ⟨?_, ?_, ?_, ?_⟩
  · rw [hm]; exact initFreeSpace_wf mm hmm
  · intro p hp'; rw [hp] at hp'; cases hp'
  · rw [hp]; exact List.Pairwise.nil
  · intro t i l hl
    rw [hm] at hl
    have hmem := List.getElem?_mem hl
    unfold initFreeSpace at hmem
    by_cases ht : t < mm.nbTypes
    · rw [if_pos ht] at hmem
      rw [List.eq_of_mem_replicate hmem, hp]
      simp [freeSize, placedSize]
    · rw [if_neg ht] at hmem; cases hmem

theorem placedSize_cons (q : Section) (placed : List Section) (t bank : Nat) :
    placedSize (q :: placed) t bank =
      (if q.type = t ∧ q.bank = bank then q.size else 0) + placedSize placed t bank := by
  unfold placedSize
  by_cases h : q.type = t ∧ q.bank = bank
  · simp [List.filter_cons, h]
  · rw [if_neg h]
    simp only [List.filter_cons]
    rw [if_neg (by simpa using h)]
    simp

theorem Inv.place_zero (mm : MemoryModel) (st st1 : State) (sect : Section) (fuel : Nat)
    (hinv : Inv mm st) (hsz : sect.size = 0)
    (h : placeSection mm fuel st sect = .ok st1) : Inv mm st1 := by
  rw [placeSection_zero mm fuel st sect hsz] at h
  simp only [Except.ok.injEq] at h
  subst h
  refine ⟨hinv.wf, ?_, ?_, ?_⟩
  · intro p hp hpz
    rcases List.mem_cons.1 hp with rfl | hp
    · exact absurd hsz hpz
    · exact hinv.free_disjoint p hp hpz
  · refine List.Pairwise.cons ?_ hinv.placed_disjoint
    intro p _ hq
    exact absurd hsz hq
  · intro t i l hl
    have := hinv.sum t i l hl
    simp only [placedSize_cons, hsz]
    simpa using this

theorem bankIndex_type (mm : MemoryModel) (a b : Section) (bank : Nat) (h : a.type = b.type) :
    bankIndex mm a bank = bankIndex mm b bank := by
  unfold bankIndex; rw [h]

theorem Inv.place_nonzero (mm : MemoryModel) (hmm : mm.WF) (st st1 : State) (sect : Section)
    (fuel : Nat) (hinv : Inv mm st) (hsz : sect.size ≠ 0) (hbk : sect.bank < 2^32)
    (h : placeSection mm fuel st sect = .ok st1) : Inv mm st1 := by
  obtain ⟨idx, loc, hg, hmem, -, -, hpl⟩ := placeSection_nonzero mm fuel st st1 sect hsz h
  have hne := getPlacement_lookup mm st.memory sect fuel _ hg
  have ht : sect.type < mm.nbTypes := by
    by_contra hc
    have := (hinv.wf sect.type).1
    rw [if_neg hc] at this
    exact hne (List.length_eq_zero.1 this)
  obtain ⟨hmax, hhi, hlo, hhi32⟩ := hmm sect.type ht
  obtain ⟨l, s, hl, hs, hsuit, hfix, hnfix⟩ :=
    getPlacement_sound mm st.memory sect fuel hhi32 hlo idx loc hg
  rw [isLocationSuitable_iff] at hsuit
  obtain ⟨-, -, ha, hb⟩ := hsuit
  have hlwf := (hinv.wf sect.type).2 l (List.getElem?_mem hl)
  have hsl : s ∈ l := List.getElem?_mem hs
  -- the bank number and the bank index determine each other
  have hlen : bankIndex mm sect loc.bank < nbbanks mm sect.type := by
    have h1 := (hinv.wf sect.type).1
    rw [if_pos ht] at h1
    rw [← h1]
    exact (List.getElem?_eq_some.1 hl).1
  have hbank : (mm.bankranges sect.type).1 ≤ loc.bank ∧ loc.bank ≤ (mm.bankranges sect.type).2 := by
    cases hf : sect.isBankFixed with
    | false => exact hnfix hf
    | true =>
      have e := hfix hf
      unfold bankIndex nbbanks at hlen
      rw [e] at hlen ⊢
      norm_num at hlen hhi32 hbk
      omega
  have hidx : bankIndex mm sect loc.bank = loc.bank - (mm.bankranges sect.type).1 := by
    unfold bankIndex
    norm_num at hhi32 ⊢
    omega
  set q : Section := { sect with org := loc.address, bank := loc.bank } with hq
  refine ⟨?_, ?_, ?_, ?_⟩
  · -- well-formedness of the map
    intro t
    rw [hmem t]
    by_cases e : t = sect.type
    · subst e
      rw [if_pos rfl, updateBank_length]
      refine ⟨(hinv.wf _).1, ?_⟩
      intro l1 hl1
      rcases updateBank_mem _ _ _ _ hl1 with h1 | ⟨l2, h2, h3⟩
      · exact (hinv.wf _).2 l1 h1
      · rw [hl] at h2
        simp only [Option.some.injEq] at h2
        subst h2
        rw [h3]
        exact carveAt_wf hhi q s hsz ha hb l idx _ hlwf hs
    · rw [if_neg e]
      exact hinv.wf t
  · -- free intervals avoid the placed sections
    intro p hp hpz l1 hl1 s1 hs1
    rw [hpl] at hp
    rw [hmem p.type] at hl1
    rcases List.mem_cons.1 hp with rfl | hp
    · rw [if_pos rfl, updateBank_getElem?] at hl1
      rw [bankIndex_type mm q sect loc.bank rfl, if_pos rfl, hl] at hl1
      simp only [Option.map_some', Option.some.injEq] at hl1
      subst hl1
      have := (carveAt_mem hhi q s ha hb l idx _ hlwf hs s1 hs1).2
      rcases this with h1 | h1
      · right; exact h1
      · left; exact h1
    · by_cases e : p.type = sect.type
      · rw [if_pos e, updateBank_getElem?] at hl1
        by_cases e2 : bankIndex mm p p.bank = bankIndex mm sect loc.bank
        · rw [if_pos e2, e2, e, hl] at hl1
          simp only [Option.map_some', Option.some.injEq] at hl1
          subst hl1
          obtain ⟨s0, hs0, h1, h2⟩ := (carveAt_mem hhi q s ha hb l idx _ hlwf hs s1 hs1).1
          have hl' : (st.memory p.type)[bankIndex mm p p.bank]? = some l := by
            rw [e2, e]; exact hl
          have := hinv.free_disjoint p hp hpz l hl' s0 hs0
          omega
        · rw [if_neg e2] at hl1
          exact hinv.free_disjoint p hp hpz l1 hl1 s1 hs1
      · rw [if_neg e] at hl1
        exact hinv.free_disjoint p hp hpz l1 hl1 s1 hs1
  · -- placed sections avoid each other
    rw [hpl]
    refine List.Pairwise.cons ?_ hinv.placed_disjoint
    intro p hp _ hpz htype hbank'
    have e : p.type = sect.type := htype.symm
    have e2 : p.bank = loc.bank := hbank'.symm
    have hl' : (st.memory p.type)[bankIndex mm p p.bank]? = some l := by
      rw [bankIndex_type mm p sect p.bank e, e2, e]; exact hl
    have := hinv.free_disjoint p hp hpz l hl' s hsl
    unfold Section.Disjoint
    show loc.address + sect.size ≤ p.org ∨ p.org + p.size ≤ loc.address
    omega
  · -- free bytes plus placed bytes
    intro t i l1 hl1
    rw [hmem t] at hl1
    rw [hpl, placedSize_cons]
    by_cases e : t = sect.type
    · subst e
      rw [if_pos rfl, updateBank_getElem?] at hl1
      by_cases e2 : i = bankIndex mm sect loc.bank
      · rw [if_pos e2, e2, hl] at hl1
        simp only [Option.map_some', Option.some.injEq] at hl1
        subst hl1
        have h1 := carveAt_size hhi q s hsz ha hb l idx _ hlwf hs
        have h2 := hinv.sum sect.type _ l hl
        have h3 : q.type = sect.type ∧ q.bank = (mm.bankranges sect.type).1 + i := by
          refine ⟨rfl, ?_⟩
          show loc.bank = _
          omega
        rw [if_pos h3]
        rw [e2]
        have h4 : q.size = sect.size := rfl
        omega
      · rw [if_neg e2] at hl1
        have h2 := hinv.sum sect.type i l1 hl1
        have h3 : ¬ (q.type = sect.type ∧ q.bank = (mm.bankranges sect.type).1 + i) := by
          rintro ⟨-, h4⟩
          have h5 : loc.bank = (mm.bankranges sect.type).1 + i := h4
          omega
        rw [if_neg h3]
        omega
    · rw [if_neg e] at hl1
      have h2 := hinv.sum t i l1 hl1
      have h3 : ¬ (q.type = t ∧ q.bank = (mm.bankranges t).1 + i) := by
        rintro ⟨h4, -⟩
        exact e h4.symm
      rw [if_neg h3]
      omega

theorem Reachable.inv (mm : MemoryModel) (hmm : mm.WF) {st : State} (h : Reachable mm st) :
    Inv mm st := by
  induction h with
  | init st hm hp => exact Inv.init mm hmm st hm hp
  | place st st1 sect fuel _ hb hs ih =>
    by_cases hsz : sect.size = 0
    · exact Inv.place_zero mm st st1 sect fuel ih hsz hs
    · exact Inv.place_nonzero mm hmm st st1 sect fuel ih hsz hb hs

theorem gbModel_wf : gbModel.WF := by
  unfold MemoryModel.WF
  decide

theorem FreeListWF.pairwise {hi : Nat} : ∀ {l : List FreeSpace} {lo : Nat},
    FreeListWF hi lo l → l.Pairwise (fun a b => a.address + a.size < b.address) := by
  intro l
  induction l with
  | nil => intro lo _; exact List.Pairwise.nil
  | cons a rest ih =>
    intro lo h
    obtain ⟨-, -, -, h4⟩ := h
    refine List.Pairwise.cons ?_ (ih h4)
    intro b hb
    have := (h4.bounds b hb).1
    omega

/-! ### Arithmetic of the aligned advancement -/

theorem and_not_lowMask (d k : Nat) (hd : d < 2^16) (hk : k ≤ 16) :
    d &&& ((2^k - 1) ^^^ (2^16 - 1)) = d - d % 2^k := by
  have h1 : d &&& ((2^k - 1) ^^^ (2^16 - 1)) = 2^k * (d / 2^k) := by
    apply Nat.eq_of_testBit_eq
    intro i
    rw [Nat.testBit_and, Nat.testBit_xor, Nat.testBit_two_pow_sub_one,
      Nat.testBit_two_pow_sub_one, Nat.testBit_mul_pow_two, ← Nat.shiftRight_eq_div_pow,
      Nat.testBit_shiftRight]
    by_cases hik : i < k
    · have : ¬ (i ≥ k) := by omega
      have h16 : i < 16 := by omega
      simp [hik, this, h16]
    · have hge : i ≥ k := by omega
      have hki : k + (i - k) = i := by omega
      by_cases h16 : i < 16
      · simp [hik, hge, h16, hki]
      · have hlt : d < 2^i :=
          lt_of_lt_of_le hd (Nat.pow_le_pow_right (by decide) (by omega))
        simp [hik, hge, h16, hki, Nat.testBit_lt_two_pow hlt]
  rw [h1]
  have := Nat.div_add_mod d (2^k)
  omega

theorem two_pow_mem (k : Nat) (hk : k ≤ 16) :
    2^k ∈ [1, 2, 4, 8, 16, 32, 64, 128, 256, 512, 1024, 2048, 4096, 8192, 16384, 32768,
      65536] := by
  interval_cases k <;> decide

theorem alignResidue_arith (M ofs a : Nat)
    (hM : M ∈ [1, 2, 4, 8, 16, 32, 64, 128, 256, 512, 1024, 2048, 4096, 8192, 16384, 32768,
      65536])
    (ho : ofs ≤ M - 1) (ha : a < 65536) :
    (a + 4294967296 - ofs) % 4294967296 % M = 0 ↔ a % M = ofs := by
  simp only [List.mem_cons, List.mem_singleton, List.not_mem_nil, or_false] at hM
  rcases hM with rfl | rfl | rfl | rfl | rfl | rfl | rfl | rfl | rfl | rfl | rfl | rfl | rfl |
    rfl | rfl | rfl | rfl <;> omega

theorem nextAligned_arith_least (M ofs a x : Nat)
    (hM : M ∈ [1, 2, 4, 8, 16, 32, 64, 128, 256, 512, 1024, 2048, 4096, 8192, 16384, 32768,
      65536])
    (ho : ofs ≤ M - 1) (ha : a < 65536) (hx : a < x) (hxm : x % M = ofs)
    (hlt : a < ((a + 65536 - ofs) % 65536 - (a + 65536 - ofs) % 65536 % M
      + (M - 1 + 1 + ofs)) % 65536) :
    ((a + 65536 - ofs) % 65536 - (a + 65536 - ofs) % 65536 % M + (M - 1 + 1 + ofs)) % 65536
      ≤ x := by
  simp only [List.mem_cons, List.mem_singleton, List.not_mem_nil, or_false] at hM
  rcases hM with rfl | rfl | rfl | rfl | rfl | rfl | rfl | rfl | rfl | rfl | rfl | rfl | rfl |
    rfl | rfl | rfl | rfl <;> omega

theorem nextAligned_arith_none (M ofs a x : Nat)
    (hM : M ∈ [1, 2, 4, 8, 16, 32, 64, 128, 256, 512, 1024, 2048, 4096, 8192, 16384, 32768,
      65536])
    (ho : ofs ≤ M - 1) (ha : a < 65536) (hx : a < x) (hx16 : x < 65536)
    (hlt : ¬ a < ((a + 65536 - ofs) % 65536 - (a + 65536 - ofs) % 65536 % M
      + (M - 1 + 1 + ofs)) % 65536) :
    x % M ≠ ofs := by
  simp only [List.mem_cons, List.mem_singleton, List.not_mem_nil, or_false] at hM
  rcases hM with rfl | rfl | rfl | rfl | rfl | rfl | rfl | rfl | rfl | rfl | rfl | rfl | rfl |
    rfl | rfl | rfl | rfl <;> omega

theorem alignResidue_eq_zero_iff (sect : Section) (k : Nat) (hk : k ≤ 16)
    (hm : sect.alignMask = 2^k - 1) (ho : sect.alignOfs ≤ sect.alignMask)
    (a : Nat) (ha : a < 2^16) :
    alignResidue sect a = 0 ↔ a % 2^k = sect.alignOfs := by
  unfold alignResidue
  rw [hm] at ho ⊢
  rw [Nat.and_pow_two_sub_one_eq_mod]
  exact alignResidue_arith (2^k) _ a (two_pow_mem k hk) ho ha

theorem nextAligned_spec (sect : Section) (k : Nat) (hk : k ≤ 16)
    (hm : sect.alignMask = 2^k - 1) (ho : sect.alignOfs ≤ sect.alignMask)
    (a : Nat) (ha : a < 2^16) :
    (a < nextAligned sect a ∧ ∀ x, a < x → x % 2^k = sect.alignOfs → nextAligned sect a ≤ x) ∨
    (∀ x, a < x → x < 2^16 → x % 2^k ≠ sect.alignOfs) := by
  unfold nextAligned
  rw [hm] at ho ⊢
  dsimp only
  rw [and_not_lowMask _ k (Nat.mod_lt _ (by decide)) hk]
  have hM := two_pow_mem k hk
  by_cases hw : a < ((a + 2^16 - sect.alignOfs) % 2^16
      - (a + 2^16 - sect.alignOfs) % 2^16 % 2^k + (2^k - 1 + 1 + sect.alignOfs)) % 2^16
  · left
    exact ⟨hw, fun x hx hxm => nextAligned_arith_least (2^k) _ a x hM ho ha hx hxm hw⟩
  · right
    intro x hx hx16
    exact nextAligned_arith_none (2^k) _ a x hM ho ha hx hx16 hw

/-! ### Completeness of the search: suitable locations are not passed over -/

theorem FreeListWF.tail {hi lo : Nat} {s : FreeSpace} {rest : List FreeSpace}
    (h : FreeListWF hi lo (s :: rest)) : FreeListWF hi lo rest :=
  h.2.2.2.mono (by have := h.1; omega)

theorem FreeListWF.rebase {hi lo : Nat} {s : FreeSpace} {rest : List FreeSpace}
    (h : FreeListWF hi lo (s :: rest)) : FreeListWF hi s.address (s :: rest) :=
  ⟨le_refl _, h.2.1, h.2.2.1, h.2.2.2⟩

theorem skipSpaces_spec (address : Nat) :
    ∀ (space : List FreeSpace) (idx : Nat),
      ∃ skipped, space = skipped ++ (skipSpaces address idx space).2 ∧
        (∀ x ∈ skipped, x.address + x.size ≤ address) ∧
        (∀ h rest, (skipSpaces address idx space).2 = h :: rest →
          address < h.address + h.size) := by
  intro space
  induction space with
  | nil =>
    intro idx
    exact ⟨[], by simp [skipSpaces], by simp, by simp [skipSpaces]⟩
  | cons s rest ih =>
    intro idx
    unfold skipSpaces
    split
    · rename_i hge
      obtain ⟨sk, h1, h2, h3⟩ := ih (idx + 1)
      refine ⟨s :: sk, ?_, ?_, h3⟩
      · rw [List.cons_append, ← h1]
      · intro x hx
        rcases List.mem_cons.1 hx with rfl | hx
        · exact hge
        · exact h2 x hx
    · rename_i hlt
      refine ⟨[], by simp, by simp, ?_⟩
      intro h rest' e
      simp only [List.cons.injEq] at e
      rw [← e.1]
      omega

theorem skipSpaces_wf {hi : Nat} (address : Nat) :
    ∀ (space : List FreeSpace) (idx lo : Nat), FreeListWF hi lo space →
      FreeListWF hi lo (skipSpaces address idx space).2 := by
  intro space
  induction space with
  | nil => intro idx lo h; simpa [skipSpaces] using h
  | cons s rest ih =>
    intro idx lo h
    unfold skipSpaces
    split
    · exact ih _ _ h.tail
    · exact h

theorem mem_skipSpaces (sect : Section) (hsz : sect.size ≠ 0) (s : FreeSpace)
    (space : List FreeSpace) (idx address a : Nat) (hs : s ∈ space) (hle : address ≤ a)
    (hfit : a + sect.size ≤ s.address + s.size) :
    s ∈ (skipSpaces address idx space).2 := by
  obtain ⟨sk, h1, h2, -⟩ := skipSpaces_spec address space idx
  rw [h1] at hs
  rcases List.mem_append.1 hs with h | h
  · have := h2 s h
    omega
  · exact h

theorem scanBank_complete (sect : Section) (hsz : sect.size ≠ 0) (halign : sect.AlignWF)
    (bank : Nat) (L : List FreeSpace) (hi : Nat) (hhi : hi ≤ 2^16) :
    ∀ (fuel idx : Nat) (space : List FreeSpace) (address lo : Nat),
      FreeListWF hi lo space →
      (∀ h rest, space = h :: rest → address < h.address + h.size) →
      (sect.isAddressFixed = false → sect.isAlignFixed = false →
        ∀ h rest, space = h :: rest → h.address ≤ address) →
      (∀ s ∈ L, ∀ a, isLocationSuitable sect s { address := a, bank := bank } = true →
        address ≤ a ∧ s ∈ space) →
      ∀ r, scanBank sect bank fuel idx space address = .ok r →
        ∀ s ∈ L, ∀ a, isLocationSuitable sect s { address := a, bank := bank } = true →
          ∃ i loc, r = some (i, loc) ∧ loc.address ≤ a := by
  intro fuel
  induction fuel with
  | zero =>
    intro idx space address lo _ _ _ hcov r h s hs a hsuit
    cases space with
    | nil => exact absurd (hcov s hs a hsuit).2 (List.not_mem_nil s)
    | cons _ _ => simp [scanBank] at h
  | succ fuel ih =>
    intro idx space address lo hwf hhead hunc hcov r h s hs a hsuit
    cases space with
    | nil => exact absurd (hcov s hs a hsuit).2 (List.not_mem_nil s)
    | cons s0 rest =>
      have hs0 := hhead s0 rest rfl
      have hb0 := hwf.bounds s0 (List.mem_cons_self _ _)
      unfold scanBank at h
      split at h
      · simp only [Except.ok.injEq] at h
        subst h
        exact ⟨idx, _, rfl, (hcov s hs a hsuit).1⟩
      · rename_i hns
        -- every suitable address lies strictly above the current one
        have hF : ∀ s ∈ L, ∀ a, isLocationSuitable sect s { address := a, bank := bank } = true →
            address < a := by
          intro s1 hs1 a1 h1
          obtain ⟨hle, hmem⟩ := hcov s1 hs1 a1 h1
          rcases List.mem_cons.1 hmem with rfl | hmem
          · rcases Nat.lt_or_ge address a1 with hlt | hge
            · exact hlt
            · have : a1 = address := by omega
              subst this
              exact absurd h1 hns
          · have := (hwf.2.2.2.bounds s1 hmem).1
            rw [isLocationSuitable_iff] at h1
            have := h1.2.2.1
            simp only at this
            omega
        split at h
        · rename_i haf
          split at h
          · rename_i hlt
            refine ih _ _ sect.org lo (skipSpaces_wf _ _ _ _ hwf)
              (skipSpaces_spec sect.org (s0 :: rest) idx).choose_spec.2.2 ?_ ?_ r h s hs a hsuit
            · intro h1; rw [haf] at h1; cases h1
            · intro s1 hs1 a1 h1
              obtain ⟨hle, hmem⟩ := hcov s1 hs1 a1 h1
              have h1' := (isLocationSuitable_iff _ _ _).1 h1
              have e : sect.org = a1 := h1'.1 haf
              refine ⟨by omega, mem_skipSpaces sect hsz s1 _ idx _ a1 hmem (by omega) h1'.2.2.2⟩
          · rename_i hnlt
            have := hF s hs a hsuit
            have e : sect.org = a := ((isLocationSuitable_iff _ _ _).1 hsuit).1 haf
            omega
        · rename_i hnaf
          have hnaf' : sect.isAddressFixed = false := by simpa using hnaf
          split at h
          · rename_i hal
            obtain ⟨k, hk, hm, ho⟩ := halign hal
            have ha16 : address < 2^16 := by omega
            refine ih _ _ (nextAligned sect address) lo (skipSpaces_wf _ _ _ _ hwf)
              (skipSpaces_spec _ (s0 :: rest) idx).choose_spec.2.2 ?_ ?_ r h s hs a hsuit
            · intro _ h2; rw [hal] at h2; cases h2
            · intro s1 hs1 a1 h1
              obtain ⟨hle, hmem⟩ := hcov s1 hs1 a1 h1
              have hlt := hF s1 hs1 a1 h1
              have h1' := (isLocationSuitable_iff _ _ _).1 h1
              have hb1 := hwf.bounds s1 hmem
              have ha1 : a1 < 2^16 := by
                have := h1'.2.2.2
                simp only at this
                omega
              have hres : a1 % 2^k = sect.alignOfs :=
                (alignResidue_eq_zero_iff sect k hk hm ho a1 ha1).1 (h1'.2.1 hal)
              rcases nextAligned_spec sect k hk hm ho address ha16 with ⟨-, hmin⟩ | hnone
              · have hle1 := hmin a1 hlt hres
                exact ⟨hle1, mem_skipSpaces sect hsz s1 _ idx _ a1 hmem hle1 h1'.2.2.2⟩
              · exact absurd hres (hnone a1 hlt ha1)
          · rename_i hnal
            have hnal' : sect.isAlignFixed = false := by simpa using hnal
            have hge0 := hunc hnaf' hnal' s0 rest rfl
            -- nothing fits in the current interval at or above the current address
            have hG : ∀ a, address ≤ a →
                isLocationSuitable sect s0 { address := a, bank := bank } = true → False := by
              intro a1 hle h1
              have h1' := (isLocationSuitable_iff _ _ _).1 h1
              apply hns
              rw [isLocationSuitable_iff]
              refine ⟨fun hc => ?_, fun hc => ?_, hge0, ?_⟩
              · rw [hnaf'] at hc; cases hc
              · rw [hnal'] at hc; cases hc
              · have := h1'.2.2.2
                simp only at this ⊢
                omega
            cases rest with
            | nil =>
              exfalso
              obtain ⟨hle, hmem⟩ := hcov s hs a hsuit
              rw [List.mem_singleton] at hmem
              subst hmem
              exact hG a hle hsuit
            | cons s1 rest1 =>
              simp only at h
              have hwf1 : FreeListWF hi s1.address (s1 :: rest1) := hwf.2.2.2.rebase
              have hskip : skipSpaces s1.address (idx + 1) (s1 :: rest1) =
                  (idx + 1, s1 :: rest1) := by
                have := hwf1.2.1
                unfold skipSpaces
                rw [if_neg (by omega)]
              rw [hskip] at h
              refine ih _ _ s1.address _ hwf1 ?_ ?_ ?_ r h s hs a hsuit
              · intro h2 rest2 e
                simp only [List.cons.injEq] at e
                rw [← e.1]
                have := hwf1.2.1
                omega
              · intro _ _ h2 rest2 e
                simp only [List.cons.injEq] at e
                rw [← e.1]
              · intro s2 hs2 a2 h2
                obtain ⟨hle, hmem⟩ := hcov s2 hs2 a2 h2
                rcases List.mem_cons.1 hmem with rfl | hmem
                · exact absurd h2 (fun hc => hG a2 hle hc)
                · have := (hwf1.bounds s2 hmem).1
                  have h2' := (isLocationSuitable_iff _ _ _).1 h2
                  have := h2'.2.2.1
                  simp only at this
                  exact ⟨by omega, hmem⟩

theorem isLocationSuitable_bank (sect : Section) (s : FreeSpace) (a b b1 : Nat) :
    isLocationSuitable sect s { address := a, bank := b } =
      isLocationSuitable sect s { address := a, bank := b1 } := rfl

theorem scanBank_start_complete (sect : Section) (hsz : sect.size ≠ 0)
    (halign : sect.AlignWF) (bank : Nat) (space : List FreeSpace) (hi lo : Nat)
    (hhi : hi ≤ 2^16) (hwf : FreeListWF hi lo space) (fuel : Nat)
    (r : Option (Nat × MemoryLocation))
    (h : scanBank sect bank fuel 0 space (firstAddress space) = .ok r) :
    ∀ s ∈ space, ∀ a, isLocationSuitable sect s { address := a, bank := bank } = true →
      ∃ i loc, r = some (i, loc) ∧ loc.address ≤ a := by
  cases space with
  | nil => intro s hs; cases hs
  | cons s0 rest =>
    simp only [firstAddress] at h
    have hwf0 := hwf.rebase
    refine scanBank_complete sect hsz halign bank (s0 :: rest) hi hhi fuel 0 (s0 :: rest)
      s0.address s0.address hwf0 ?_ ?_ ?_ r h
    · intro h2 rest2 e
      simp only [List.cons.injEq] at e
      rw [← e.1]
      have := hwf0.2.1
      omega
    · intro _ _ h2 rest2 e
      simp only [List.cons.injEq] at e
      rw [← e.1]
    · intro s hs a hsuit
      have := (hwf0.bounds s hs).1
      have h2 := ((isLocationSuitable_iff _ _ _).1 hsuit).2.2.1
      simp only at h2
      exact ⟨by omega, hs⟩

theorem getPlacementLoop_complete (mm : MemoryModel) (memory : Memory) (sect : Section)
    (fuel : Nat) (hsz : sect.size ≠ 0) (halign : sect.AlignWF) (hi lo : Nat)
    (hhi : hi ≤ 2^16) (hwf : ∀ l ∈ memory sect.type, FreeListWF hi lo l)
    (hhi32 : (mm.bankranges sect.type).2 + 1 < 2^32) :
    ∀ (n bank : Nat) (r : Option (Nat × MemoryLocation)),
      (sect.isBankFixed = false → bank ≤ (mm.bankranges sect.type).2) →
      getPlacementLoop mm memory sect fuel n bank = .ok r →
      ∀ b, (if sect.isBankFixed then b = bank
            else bank ≤ b ∧ b ≤ (mm.bankranges sect.type).2) →
        ∀ l, (memory sect.type)[bankIndex mm sect b]? = some l →
        ∀ s ∈ l, ∀ a, isLocationSuitable sect s { address := a, bank := b } = true →
          ∃ i loc, r = some (i, loc) ∧
            (loc.bank < b ∨ (loc.bank = b ∧ loc.address ≤ a)) := by
  intro n
  induction n with
  | zero => intro bank r _ h; simp [getPlacementLoop] at h
  | succ n ih =>
    intro bank r hb h b hel l hl s hs a hsuit
    unfold getPlacementLoop at h
    split at h
    · simp at h
    · rename_i space hspace
      simp only at h
      have hspwf := hwf space (List.getElem?_mem hspace)
      -- what the scan of the current bank tells about that bank
      have hcur : ∀ r0, scanBank sect bank fuel 0 space (firstAddress space) = .ok r0 →
          b = bank → ∃ i loc, r0 = some (i, loc) ∧ loc.address ≤ a := by
        intro r0 hr0 hbb
        subst hbb
        rw [hspace] at hl
        simp only [Option.some.injEq] at hl
        subst hl
        exact scanBank_start_complete sect hsz halign b space hi lo hhi hspwf fuel r0 hr0
          s hs a hsuit
      split at h
      · simp at h
      · rename_i r0 hr0
        simp only [Except.ok.injEq] at h
        subst h
        obtain ⟨i0, loc0⟩ := r0
        obtain ⟨s0, -, -, hbank0⟩ := scanBank_sound sect bank space fuel 0 space _ i0 loc0 rfl hr0
        refine ⟨i0, loc0, rfl, ?_⟩
        by_cases hbb : b = bank
        · obtain ⟨i1, loc1, e, hle⟩ := hcur _ hr0 hbb
          simp only [Option.some.injEq, Prod.mk.injEq] at e
          right
          rw [e.2]
          refine ⟨?_, hle⟩
          rw [← e.2, hbank0, hbb]
        · left
          rw [hbank0]
          cases hf : sect.isBankFixed with
          | true => rw [hf] at hel; simp only [if_true] at hel; exact absurd hel hbb
          | false =>
            rw [hf] at hel
            simp only [Bool.false_eq_true, if_false] at hel
            omega
      · rename_i hr0
        have hnot : b ≠ bank := by
          intro hbb
          obtain ⟨i1, loc1, e, -⟩ := hcur _ hr0 hbb
          cases e
        split at h
        · rename_i hf
          rw [hf] at hel
          simp only [if_true] at hel
          exact absurd hel hnot
        · rename_i hf
          have hf' : sect.isBankFixed = false := by simpa using hf
          rw [hf'] at hel
          simp only [Bool.false_eq_true, if_false] at hel
          have hb1 := hb hf'
          have hmod : (bank + 1) % 2^32 = bank + 1 := Nat.mod_eq_of_lt (by omega)
          rw [hmod] at h
          split at h
          · omega
          · refine ih (bank + 1) r (fun _ => by omega) h b ?_ l hl s hs a hsuit
            rw [hf']
            simp only [Bool.false_eq_true, if_false]
            omega

/-! ### The classifier -/

theorem insertBySize_sorted (sect : Section) :
    ∀ l : List Section, l.Pairwise (fun a b => a.size ≥ b.size) →
      (insertBySize sect l).Pairwise (fun a b => a.size ≥ b.size) := by
  intro l
  induction l with
  | nil => intro _; simp [insertBySize]
  | cons x rest ih =>
    intro h
    rw [List.pairwise_cons] at h
    unfold insertBySize
    split
    · rename_i hgt
      rw [List.pairwise_cons]
      refine ⟨?_, ih h.2⟩
      intro y hy
      have hmem : ∀ l : List Section, ∀ y, y ∈ insertBySize sect l → y = sect ∨ y ∈ l := by
        intro l
        induction l with
        | nil => intro y hy; simp [insertBySize] at hy; exact Or.inl hy
        | cons z zs ihz =>
          intro y hy
          unfold insertBySize at hy
          split at hy
          · rcases List.mem_cons.1 hy with rfl | hy
            · right; simp
            · rcases ihz y hy with h1 | h1
              · exact Or.inl h1
              · right; simp [h1]
          · rcases List.mem_cons.1 hy with rfl | hy
            · exact Or.inl rfl
            · exact Or.inr hy
      rcases hmem rest y hy with rfl | hy
      · omega
      · exact h.1 y hy
    · rename_i hle
      rw [List.pairwise_cons]
      refine ⟨?_, List.pairwise_cons.2 h⟩
      intro y hy
      rcases List.mem_cons.1 hy with rfl | hy
      · omega
      · have := h.1 y hy
        omega

theorem categorize_sorted (sects : List Section) :
    ∀ st : State, (∀ c, (st.unassignedSections c).Pairwise (fun a b => a.size ≥ b.size)) →
      ∀ c, ((sects.foldl categorizeSection st).unassignedSections c).Pairwise
        (fun a b => a.size ≥ b.size) := by
  induction sects with
  | nil => intro st h c; exact h c
  | cons x rest ih =>
    intro st h c
    rw [List.foldl_cons]
    apply ih
    intro c1
    unfold categorizeSection
    simp only
    split
    · exact insertBySize_sorted x _ (h c1)
    · exact h c1

theorem placeSection_placed (mm : MemoryModel) (fuel : Nat) (st st1 : State) (sect : Section)
    (h : placeSection mm fuel st sect = .ok st1) :
    ∃ org bank, st1.placed = { sect with org := org, bank := bank } :: st.placed := by
  by_cases hsz : sect.size = 0
  · rw [placeSection_zero mm fuel st sect hsz] at h
    simp only [Except.ok.injEq] at h
    subst h
    exact ⟨_, _, rfl⟩
  · obtain ⟨idx, loc, -, -, -, -, hpl⟩ := placeSection_nonzero mm fuel st st1 sect hsz h
    exact ⟨_, _, hpl⟩

theorem placeBucket_log (mm : MemoryModel) (fuel : Nat) :
    ∀ (bucket : List Section) (st st1 : State), placeBucket mm fuel st bucket = .ok st1 →
      ∃ newly, st1.placed = newly.reverse ++ st.placed ∧
        List.Forall₂ (fun p s => p = { s with org := p.org, bank := p.bank }) newly bucket := by
  intro bucket
  induction bucket with
  | nil =>
    intro st st1 h
    simp only [placeBucket, Except.ok.injEq] at h
    subst h
    exact ⟨[], rfl, List.Forall₂.nil⟩
  | cons s rest ih =>
    intro st st1 h
    unfold placeBucket at h
    split at h
    · simp at h
    · rename_i st2 h2
      obtain ⟨org, bank, hp⟩ := placeSection_placed mm fuel st st2 s h2
      obtain ⟨newly, h3, h4⟩ := ih st2 st1 h
      refine ⟨{ s with org := org, bank := bank } :: newly, ?_, List.Forall₂.cons rfl h4⟩
      rw [h3, hp]
      simp

theorem insertBySize_sublist (sect : Section) :
    ∀ l : List Section, l.Sublist (insertBySize sect l) := by
  intro l
  induction l with
  | nil => simp [insertBySize]
  | cons x rest ih =>
    unfold insertBySize
    split
    · exact List.Sublist.cons₂ x ih
    · exact List.Sublist.cons sect (List.Sublist.refl _)

theorem insertBySize_before (a b : Section) (hle : a.size ≤ b.size) :
    ∀ l : List Section, a ∈ l → [b, a].Sublist (insertBySize b l) := by
  intro l
  induction l with
  | nil => intro h; cases h
  | cons x rest ih =>
    intro h
    unfold insertBySize
    split
    · rename_i hgt
      rcases List.mem_cons.1 h with rfl | h
      · omega
      · exact List.Sublist.cons x (ih h)
    · exact List.Sublist.cons₂ b (List.singleton_sublist.2 h)

theorem categorize_bucket (st : State) (x : Section) (c : Nat) :
    (categorizeSection st x).unassignedSections c =
      if c = constraintsOf x then insertBySize x (st.unassignedSections c)
      else st.unassignedSections c := rfl

theorem categorize_keeps_sublist (l : List Section) (c : Nat) (sects : List Section) :
    ∀ st : State, l.Sublist (st.unassignedSections c) →
      l.Sublist ((sects.foldl categorizeSection st).unassignedSections c) := by
  induction sects with
  | nil => intro st h; exact h
  | cons x rest ih =>
    intro st h
    rw [List.foldl_cons]
    apply ih
    rw [categorize_bucket]
    split
    · exact h.trans (insertBySize_sublist x _)
    · exact h

theorem categorize_later_first (a b : Section) (hsz : a.size = b.size)
    (hc : constraintsOf a = constraintsOf b) (sects : List Section) :
    ∀ (st : State) (j : Nat), a ∈ st.unassignedSections (constraintsOf a) →
      sects[j]? = some b →
      [b, a].Sublist ((sects.foldl categorizeSection st).unassignedSections (constraintsOf a)) := by
  induction sects with
  | nil => intro st j _ h; simp at h
  | cons x rest ih =>
    intro st j ha h
    rw [List.foldl_cons]
    cases j with
    | zero =>
      simp only [List.getElem?_cons_zero, Option.some.injEq] at h
      subst h
      apply categorize_keeps_sublist
      rw [categorize_bucket, if_pos hc]
      exact insertBySize_before a x (by omega) _ ha
    | succ j =>
      simp only [List.getElem?_cons_succ] at h
      refine ih _ j ?_ h
      rw [categorize_bucket]
      split
      · exact (insertBySize_sublist x _).subset ha
      · exact ha

theorem insertBySize_mem (sect : Section) : ∀ l : List Section, sect ∈ insertBySize sect l := by
  intro l
  induction l with
  | nil => simp [insertBySize]
  | cons x rest ih =>
    unfold insertBySize
    split
    · exact List.mem_cons_of_mem _ ih
    · exact List.mem_cons_self _ _

theorem placed_sizes (newly bucket : List Section)
    (h : List.Forall₂ (fun p s => p = { s with org := p.org, bank := p.bank }) newly bucket) :
    newly.map Section.size = bucket.map Section.size := by
  induction h with
  | nil => rfl
  | @cons p s _ _ hab _ ih =>
    have e : p.size = s.size := by rw [hab]
    simp only [List.map_cons, ih, e]

/-! ### The linker script -/

theorem applyPlacement_store (acc : SectionStore × List Diagnostic) (pl : SectionPlacement)
    (p : Nat) :
    (applyPlacement acc pl).1 p =
      if p = pl.sect then scriptOverride (acc.1 pl.sect) pl.org pl.bank else acc.1 p := rfl

theorem scriptOverride_idem (s : Section) (org bank org1 bank1 : Nat) :
    scriptOverride (scriptOverride s org1 bank1) org bank = scriptOverride s org bank := rfl

theorem foldl_applyPlacement_store (records : List SectionPlacement) (p : Nat) :
    (∃ org bank, ∀ acc : SectionStore × List Diagnostic,
      (records.foldl applyPlacement acc).1 p = scriptOverride (acc.1 p) org bank) ∨
    (∀ acc : SectionStore × List Diagnostic, (records.foldl applyPlacement acc).1 p = acc.1 p) := by
  induction records with
  | nil => right; intro acc; rfl
  | cons x rest ih =>
    rcases ih with ⟨org, bank, h⟩ | h
    · left
      refine ⟨org, bank, fun acc => ?_⟩
      rw [List.foldl_cons, h, applyPlacement_store]
      split
      · rename_i e
        rw [scriptOverride_idem, e]
      · rfl
    · by_cases e : p = x.sect
      · left
        refine ⟨x.org, x.bank, fun acc => ?_⟩
        rw [List.foldl_cons, h, applyPlacement_store, if_pos e, e]
      · right
        intro acc
        rw [List.foldl_cons, h, applyPlacement_store, if_neg e]

theorem processLinkerScript_snoc (store : SectionStore) (pre : List SectionPlacement)
    (pl : SectionPlacement) :
    processLinkerScript (some (pre ++ [pl])) store
      = applyPlacement (processLinkerScript (some pre) store) pl := by
  simp only [processLinkerScript, List.foldl_append, List.foldl_cons, List.foldl_nil]

theorem foldl_applyPlacement_other (p : Nat) :
    ∀ (post : List SectionPlacement) (acc : SectionStore × List Diagnostic),
      (∀ q ∈ post, q.sect ≠ p) → (post.foldl applyPlacement acc).1 p = acc.1 p := by
  intro post
  induction post with
  | nil => intro acc _; rfl
  | cons x rest ih =>
    intro acc h
    rw [List.foldl_cons, ih _ (fun q hq => h q (List.mem_cons_of_mem _ hq)),
      applyPlacement_store, if_neg (fun e => h x (List.mem_cons_self _ _) e.symm)]

theorem processLinkerScript_last (store : SectionStore) (pre post : List SectionPlacement)
    (pl : SectionPlacement) (hlast : ∀ q ∈ post, q.sect ≠ pl.sect) :
    (processLinkerScript (some (pre ++ pl :: post)) store).1 pl.sect
      = (processLinkerScript (some (pre ++ [pl])) store).1 pl.sect := by
  have e : pre ++ pl :: post = (pre ++ [pl]) ++ post := by simp
  rw [e]
  show (((pre ++ [pl]) ++ post).foldl applyPlacement (store, [])).1 pl.sect
    = ((pre ++ [pl]).foldl applyPlacement (store, [])).1 pl.sect
  rw [List.foldl_append, foldl_applyPlacement_other pl.sect post _ hlast]

/-! ### The example states are reachable -/

theorem stateFixed_reachable : Reachable gbModel stateFixed :=
  Reachable.place gbInit stateFixed fixedSection 10 (Reachable.init gbInit rfl rfl)
    (by decide) (by rfl)

theorem stateTwo_reachable : Reachable gbModel stateTwo :=
  Reachable.place stateFixed stateTwo tieFirst 10 stateFixed_reachable (by decide) (by rfl)

theorem stateBank_reachable : Reachable gbModel stateBank :=
  Reachable.place gbInit stateBank bankSection 10 (Reachable.init gbInit rfl rfl)
    (by decide) (by rfl)

/-! ### Wrap-around of the aligned advancement; the driver -/

theorem stateHram_reachable : Reachable gbModel stateHram :=
  Reachable.place gbInit stateHram hramFirst 10 (Reachable.init gbInit rfl rfl)
    (by decide) (by rfl)

theorem stateHram_memory : stateHram.memory 4 = [[{ address := 0xFFC0, size := 0x3F }]] := by
  decide

theorem nextAligned_arith_aligned (M ofs a : Nat)
    (hM : M ∈ [1, 2, 4, 8, 16, 32, 64, 128, 256, 512, 1024, 2048, 4096, 8192, 16384, 32768,
      65536])
    (ho : ofs ≤ M - 1) :
    ((a + 65536 - ofs) % 65536 - (a + 65536 - ofs) % 65536 % M + (M - 1 + 1 + ofs)) % 65536 % M
      = ofs := by
  simp only [List.mem_cons, List.mem_singleton, List.not_mem_nil, or_false] at hM
  rcases hM with rfl | rfl | rfl | rfl | rfl | rfl | rfl | rfl | rfl | rfl | rfl | rfl | rfl |
    rfl | rfl | rfl | rfl <;> omega

theorem nextAligned_aligned (sect : Section) (k : Nat) (hk : k ≤ 16)
    (hm : sect.alignMask = 2^k - 1) (ho : sect.alignOfs ≤ sect.alignMask) (a : Nat) :
    nextAligned sect a < 2^16 ∧ nextAligned sect a % 2^k = sect.alignOfs := by
  unfold nextAligned
  rw [hm] at ho ⊢
  dsimp only
  rw [and_not_lowMask _ k (Nat.mod_lt _ (by decide)) hk]
  exact ⟨Nat.mod_lt _ (by decide), nextAligned_arith_aligned (2^k) _ a (two_pow_mem k hk) ho⟩

theorem scanBank_spins (idx : Nat) :
    ∀ (fuel a : Nat), a % 2 = 0 → a < 65536 →
      scanBank hramAligned 0 fuel idx [{ address := 0xFFC0, size := 0x3F }] a
        = .error .outOfFuel := by
  intro fuel
  induction fuel with
  | zero => intro a _ _; rfl
  | succ fuel ih =>
    intro a hev ha
    have hns : isLocationSuitable hramAligned { address := 0xFFC0, size := 0x3F }
        { address := a, bank := 0 } = false := by
      rw [Bool.eq_false_iff]
      intro hc
      rw [isLocationSuitable_iff] at hc
      have h1 := hc.2.2.1
      have h2 := hc.2.2.2
      simp only [hramAligned] at h1 h2
      omega
    have hnext : nextAligned hramAligned a = (a + 2) % 65536 := by
      unfold nextAligned
      simp only [hramAligned]
      have := and_not_lowMask ((a + 2^16 - 0) % 2^16) 1 (Nat.mod_lt _ (by decide)) (by decide)
      norm_num at this ⊢
      rw [this]
      omega
    unfold scanBank
    rw [hns]
    simp only [Bool.false_eq_true, if_false]
    have hskip : skipSpaces (nextAligned hramAligned a) idx
        [{ address := 0xFFC0, size := 0x3F }] = (idx, [{ address := 0xFFC0, size := 0x3F }]) := by
      unfold skipSpaces
      rw [if_neg]
      rw [hnext]
      simp only
      omega
    have h1 : hramAligned.isAddressFixed = false := rfl
    have h2 : hramAligned.isAlignFixed = true := rfl
    simp only [h1, h2, Bool.false_eq_true, if_false, if_true, hskip]
    apply ih
    · rw [hnext]; omega
    · rw [hnext]; omega

theorem constraintsOf_mem (s : Section) : constraintsOf s ∈ [0, 1, 2, 4, 5, 6] := by
  unfold constraintsOf
  cases s.isBankFixed <;> cases s.isAddressFixed <;> cases s.isAlignFixed <;> decide

theorem insertBySize_perm (x : Section) : ∀ l : List Section, (insertBySize x l).Perm (x :: l) := by
  intro l
  induction l with
  | nil => exact List.Perm.refl _
  | cons y rest ih =>
    unfold insertBySize
    split
    · exact (List.Perm.cons y ih).trans (List.Perm.swap x y rest)
    · exact List.Perm.refl _

theorem bucketsConcat_congr (st st1 : State) (cs : List Nat)
    (h : ∀ c ∈ cs, st1.unassignedSections c = st.unassignedSections c) :
    bucketsConcat st1 cs = bucketsConcat st cs := by
  induction cs with
  | nil => rfl
  | cons c cs ih =>
    simp only [bucketsConcat]
    rw [h c (List.mem_cons_self _ _), ih (fun c1 hc1 => h c1 (List.mem_cons_of_mem _ hc1))]

theorem bucketsConcat_categorize (st : State) (x : Section) :
    ∀ cs : List Nat, cs.Nodup → constraintsOf x ∈ cs →
      (bucketsConcat (categorizeSection st x) cs).Perm (x :: bucketsConcat st cs) := by
  intro cs
  induction cs with
  | nil => intro _ h; cases h
  | cons c cs ih =>
    intro hnd hmem
    rw [List.nodup_cons] at hnd
    simp only [bucketsConcat, categorize_bucket]
    by_cases e : c = constraintsOf x
    · rw [if_pos e]
      have hrest : bucketsConcat (categorizeSection st x) cs = bucketsConcat st cs := by
        apply bucketsConcat_congr
        intro c1 hc1
        rw [categorize_bucket, if_neg]
        intro e1
        rw [e1] at hc1
        rw [e] at hnd
        exact hnd.1 hc1
      rw [hrest]
      exact (insertBySize_perm x _).append_right _
    · rw [if_neg e]
      have hmem1 : constraintsOf x ∈ cs := by
        rcases List.mem_cons.1 hmem with h | h
        · exact absurd h.symm e
        · exact h
      exact ((ih hnd.2 hmem1).append_left _).trans List.perm_middle

theorem bucketsConcat_fold (cs : List Nat) (hnd : cs.Nodup)
    (hcs : ∀ c ∈ [0, 1, 2, 4, 5, 6], c ∈ cs) (sects : List Section) :
    ∀ st : State, (bucketsConcat (sects.foldl categorizeSection st) cs).Perm
      (sects ++ bucketsConcat st cs) := by
  induction sects with
  | nil => intro st; exact List.Perm.refl _
  | cons x rest ih =>
    intro st
    rw [List.foldl_cons]
    refine (ih (categorizeSection st x)).trans ?_
    refine ((bucketsConcat_categorize st x cs hnd (hcs _ (constraintsOf_mem x))).append_left
      rest).trans ?_
    exact List.perm_middle

theorem bucketsConcat_empty (mm : MemoryModel) (cs : List Nat) :
    bucketsConcat (emptyState mm) cs = [] := by
  induction cs with
  | nil => rfl
  | cons c cs ih => simp only [bucketsConcat, ih]; rfl

theorem insertBySize_mem_or (x : Section) :
    ∀ (l : List Section) (y : Section), y ∈ insertBySize x l → y = x ∨ y ∈ l := by
  intro l
  induction l with
  | nil => intro y hy; simp [insertBySize] at hy; exact Or.inl hy
  | cons z zs ih =>
    intro y hy
    unfold insertBySize at hy
    split at hy
    · rcases List.mem_cons.1 hy with rfl | hy
      · right; exact List.mem_cons_self _ _
      · rcases ih y hy with h1 | h1
        · exact Or.inl h1
        · exact Or.inr (List.mem_cons_of_mem _ h1)
    · rcases List.mem_cons.1 hy with rfl | hy
      · exact Or.inl rfl
      · exact Or.inr hy

theorem categorize_bucket_members (sects : List Section) :
    ∀ st : State, (∀ c, ∀ s ∈ st.unassignedSections c, constraintsOf s = c) →
      ∀ c, ∀ s ∈ (sects.foldl categorizeSection st).unassignedSections c,
        constraintsOf s = c := by
  induction sects with
  | nil => intro st h; exact h
  | cons x rest ih =>
    intro st h
    rw [List.foldl_cons]
    apply ih
    intro c s hs
    rw [categorize_bucket] at hs
    split at hs
    · rename_i e
      rcases insertBySize_mem_or x _ s hs with rfl | h1
      · exact e.symm
      · exact h c s h1
    · exact h c s hs

theorem categorize_counter (sects : List Section) :
    ∀ st : State, (sects.foldl categorizeSection st).nbSectionsToAssign =
      (st.nbSectionsToAssign + sects.length) % 2^64 ∨ 2^64 ≤ st.nbSectionsToAssign := by
  induction sects with
  | nil =>
    intro st
    by_cases h : st.nbSectionsToAssign < 2^64
    · left; simp only [List.foldl_nil, List.length_nil, Nat.add_zero]
      exact (Nat.mod_eq_of_lt h).symm
    · right; omega
  | cons x rest ih =>
    intro st
    by_cases h : st.nbSectionsToAssign < 2^64
    · left
      rw [List.foldl_cons]
      rcases ih (categorizeSection st x) with h1 | h1
      · rw [h1]
        show (incr64 st.nbSectionsToAssign + rest.length) % 2^64 = _
        unfold incr64
        simp only [List.length_cons]
        omega
      · exfalso
        have : (categorizeSection st x).nbSectionsToAssign = incr64 st.nbSectionsToAssign := rfl
        rw [this] at h1
        unfold incr64 at h1
        omega
    · right; omega

theorem decr64_pos (n : Nat) (h0 : n ≠ 0) (h : n < 2^64) : decr64 n = n - 1 := by
  unfold decr64
  omega

theorem placeSection_counter (mm : MemoryModel) (fuel : Nat) (st st1 : State) (sect : Section)
    (h : placeSection mm fuel st sect = .ok st1) :
    st1.nbSectionsToAssign = decr64 st.nbSectionsToAssign ∧
    ∀ c, st1.unassignedSections c = st.unassignedSections c := by
  by_cases hsz : sect.size = 0
  · rw [placeSection_zero mm fuel st sect hsz] at h
    simp only [Except.ok.injEq] at h
    subst h
    exact ⟨rfl, fun _ => rfl⟩
  · obtain ⟨idx, loc, -, -, h1, h2, -⟩ := placeSection_nonzero mm fuel st st1 sect hsz h
    exact ⟨h1, h2⟩

theorem placeBucket_counter (mm : MemoryModel) (fuel : Nat) :
    ∀ (bucket : List Section) (st st1 : State), placeBucket mm fuel st bucket = .ok st1 →
      bucket.length ≤ st.nbSectionsToAssign → st.nbSectionsToAssign < 2^64 →
      st1.nbSectionsToAssign = st.nbSectionsToAssign - bucket.length ∧
      ∀ c, st1.unassignedSections c = st.unassignedSections c := by
  intro bucket
  induction bucket with
  | nil =>
    intro st st1 h _ _
    simp only [placeBucket, Except.ok.injEq] at h
    subst h
    exact ⟨by simp, fun _ => rfl⟩
  | cons s rest ih =>
    intro st st1 h hle hlt
    unfold placeBucket at h
    split at h
    · simp at h
    · rename_i st2 h2
      obtain ⟨hc, hb⟩ := placeSection_counter mm fuel st st2 s h2
      simp only [List.length_cons] at hle
      have hd := decr64_pos st.nbSectionsToAssign (by omega) hlt
      rw [hd] at hc
      obtain ⟨hc1, hb1⟩ := ih st2 st1 h (by omega) (by omega)
      refine ⟨?_, fun c => by rw [hb1 c, hb c]⟩
      simp only [List.length_cons]
      omega

theorem bucketsConcat_length_zero (st : State) :
    ∀ cs : List Nat, (bucketsConcat st cs).length = 0 → bucketsConcat st cs = [] := by
  intro cs h
  exact List.length_eq_zero.1 h

theorem forall₂_placed_append {l1 l2 m1 m2 : List Section}
    (h1 : List.Forall₂ (fun p s => p = { s with org := p.org, bank := p.bank }) l1 m1)
    (h2 : List.Forall₂ (fun p s => p = { s with org := p.org, bank := p.bank }) l2 m2) :
    List.Forall₂ (fun p s => p = { s with org := p.org, bank := p.bank }) (l1 ++ l2)
      (m1 ++ m2) := by
  induction h1 with
  | nil => exact h2
  | cons hab _ ih => exact List.Forall₂.cons hab ih

theorem assignBuckets_places_all (mm : MemoryModel) (fuel : Nat) :
    ∀ (cs : List Nat) (st : State) (r : Except AssignError State),
      st.nbSectionsToAssign = (bucketsConcat st cs).length →
      st.nbSectionsToAssign ≠ 0 → st.nbSectionsToAssign < 2^64 →
      assignBuckets mm fuel cs st = r → (∀ e, r ≠ .error (.place e)) →
      ∃ st1, r = .ok st1 ∧ st1.nbSectionsToAssign = 0 ∧
        ∃ newly, st1.placed = newly.reverse ++ st.placed ∧
          List.Forall₂ (fun p s => p = { s with org := p.org, bank := p.bank }) newly
            (bucketsConcat st cs) := by
  intro cs
  induction cs with
  | nil =>
    intro st r hnb h0 _ _ _
    simp only [bucketsConcat, List.length_nil] at hnb
    exact absurd hnb h0
  | cons c cs ih =>
    intro st r hnb h0 hlt hr hne
    unfold assignBuckets at hr
    simp only [bucketsConcat, List.length_append] at hnb
    split at hr
    · rename_i e _
      exact absurd hr.symm (hne e)
    · rename_i st1 h1
      obtain ⟨hc, hb⟩ := placeBucket_counter mm fuel _ st st1 h1 (by omega) hlt
      obtain ⟨newly, hp, hf⟩ := placeBucket_log mm fuel _ st st1 h1
      have hcongr : bucketsConcat st1 cs = bucketsConcat st cs :=
        bucketsConcat_congr st st1 cs (fun c1 _ => hb c1)
      split at hr
      · rename_i hz
        refine ⟨st1, hr.symm, hz, newly, hp, ?_⟩
        have hrest : bucketsConcat st cs = [] := List.length_eq_zero.1 (by omega)
        simp only [bucketsConcat, hrest, List.append_nil]
        exact hf
      · rename_i hnz
        obtain ⟨st2, hr2, hz2, newly2, hp2, hf2⟩ :=
          ih st1 r (by rw [hcongr]; omega) hnz (by omega) hr hne
        refine ⟨st2, hr2, hz2, newly ++ newly2, ?_, ?_⟩
        · rw [hp2, hp, List.reverse_append, List.append_assoc]
        · rw [hcongr] at hf2
          simp only [bucketsConcat]
          exact forall₂_placed_append hf hf2

theorem assign_unfold (mm : MemoryModel) (fuel : Nat)
    (script : Option (List SectionPlacement)) (overlay : Bool) (store : SectionStore)
    (all : List Nat) :
    assign_AssignSections mm fuel script overlay store all =
      match placeBucket mm fuel (categorized mm (scriptedSections script store all))
          ((categorized mm (scriptedSections script store all)).unassignedSections 6) with
      | .error e => .error (.place e)
      | .ok st2 =>
        if st2.nbSectionsToAssign = 0 then .ok (st2, (processLinkerScript script store).2)
        else if overlay then .error .overlay
        else
          match assignBuckets mm fuel [5, 4, 3, 2, 1, 0] st2 with
          | .error e => .error e
          | .ok st3 => .ok (st3, (processLinkerScript script store).2) := rfl

/-- What holds of the driver.  Each categorized section has a constraint mask
among 0, 1, 2, 4, 5, 6 and sits in the bucket of its mask, so that buckets 3
and 7 are empty and the buckets together hold every section once;
`nbSectionsToAssign` counts the categorized sections and every successful
`placeSection` decrements it; and when no overlay is configured and no call of
`placeSection` fails to return (neither `errx` nor an endless search),
`assign_AssignSections` returns, with the counter at 0, after handing to
`out_AddSection` exactly the sections of bucket 6, then of buckets 5 down to 0,
in that order. -/
theorem assign_returns_if_placements_return (mm : MemoryModel) (fuel : Nat)
    (script : Option (List SectionPlacement)) (store : SectionStore) (all : List Nat)
    (hlen : all.length < 2^64) :
    (∀ s ∈ scriptedSections script store all, constraintsOf s ∈ [0, 1, 2, 4, 5, 6]) ∧
    (∀ c, ∀ s ∈ (categorized mm (scriptedSections script store all)).unassignedSections c,
      constraintsOf s = c) ∧
    (categorized mm (scriptedSections script store all)).unassignedSections 3 = [] ∧
    (categorized mm (scriptedSections script store all)).unassignedSections 7 = [] ∧
    (bucketsConcat (categorized mm (scriptedSections script store all))
      [6, 5, 4, 3, 2, 1, 0]).Perm (scriptedSections script store all) ∧
    (categorized mm (scriptedSections script store all)).nbSectionsToAssign = all.length ∧
    (∀ (st st1 : State) (sect : Section), placeSection mm fuel st sect = .ok st1 →
      st1.nbSectionsToAssign = decr64 st.nbSectionsToAssign) ∧
    (∀ r, assign_AssignSections mm fuel script false store all = r →
      (∀ e, r ≠ .error (.place e)) →
      ∃ st diags, r = .ok (st, diags) ∧ st.nbSectionsToAssign = 0 ∧
        ∃ newly, st.placed = newly.reverse ∧
          List.Forall₂ (fun p s => p = { s with org := p.org, bank := p.bank }) newly
            (bucketsConcat (categorized mm (scriptedSections script store all))
              [6, 5, 4, 3, 2, 1, 0])) := by
  have hmembers := categorize_bucket_members (scriptedSections script store all)
    (emptyState mm) (fun c s hs => by cases hs)
  have hperm : (bucketsConcat (categorized mm (scriptedSections script store all))
      [6, 5, 4, 3, 2, 1, 0]).Perm (scriptedSections script store all) := by
    have := bucketsConcat_fold [6, 5, 4, 3, 2, 1, 0] (by decide) (by decide)
      (scriptedSections script store all) (emptyState mm)
    rw [bucketsConcat_empty, List.append_nil] at this
    exact this
  have hempty : ∀ c, c ∉ [0, 1, 2, 4, 5, 6] →
      (categorized mm (scriptedSections script store all)).unassignedSections c = [] := by
    intro c hc
    apply List.eq_nil_iff_forall_not_mem.2
    intro s hs
    have := hmembers c s hs
    rw [← this] at hc
    exact hc (constraintsOf_mem s)
  have hslen : (scriptedSections script store all).length = all.length := by
    unfold scriptedSections; simp
  have hnb : (categorized mm (scriptedSections script store all)).nbSectionsToAssign
      = all.length := by
    rcases categorize_counter (scriptedSections script store all) (emptyState mm) with h | h
    · unfold categorized
      rw [h, hslen]
      show (0 + all.length) % 2^64 = all.length
      omega
    · exfalso
      have : (emptyState mm).nbSectionsToAssign = 0 := rfl
      omega
  refine ⟨fun s _ => constraintsOf_mem s, hmembers, hempty 3 (by decide), hempty 7 (by decide),
    hperm, hnb, fun st st1 sect h => (placeSection_counter mm fuel st st1 sect h).1, ?_⟩
  intro r hr hne
  rw [assign_unfold] at hr
  have htotal : (bucketsConcat (categorized mm (scriptedSections script store all))
      [6, 5, 4, 3, 2, 1, 0]).length = all.length := by
    rw [hperm.length_eq, hslen]
  simp only [bucketsConcat, List.length_append] at htotal
  split at hr
  · rename_i e _
    exact absurd hr.symm (hne e)
  · rename_i st2 h2
    obtain ⟨hc, hb⟩ := placeBucket_counter mm fuel _ _ st2 h2 (by rw [hnb]; omega)
      (by rw [hnb]; exact hlen)
    obtain ⟨newly, hp, hf⟩ := placeBucket_log mm fuel _ _ st2 h2
    have hp0 : (categorized mm (scriptedSections script store all)).placed = [] := by
      unfold categorized
      generalize scriptedSections script store all = sects
      have : ∀ (l : List Section) (st : State),
          (l.foldl categorizeSection st).placed = st.placed := by
        intro l
        induction l with
        | nil => intro st; rfl
        | cons x rest ih => intro st; rw [List.foldl_cons, ih]; rfl
      rw [this]; rfl
    rw [hp0, List.append_nil] at hp
    have hcongr : bucketsConcat st2 [5, 4, 3, 2, 1, 0] =
        bucketsConcat (categorized mm (scriptedSections script store all))
          [5, 4, 3, 2, 1, 0] :=
      bucketsConcat_congr _ st2 _ (fun c1 _ => hb c1)
    split at hr
    · rename_i hz
      refine ⟨st2, _, hr.symm, hz, newly, hp, ?_⟩
      have hrest : bucketsConcat (categorized mm (scriptedSections script store all))
          [5, 4, 3, 2, 1, 0] = [] := by
        apply List.length_eq_zero.1
        simp only [bucketsConcat, List.length_append]
        omega
      have : bucketsConcat (categorized mm (scriptedSections script store all))
          [6, 5, 4, 3, 2, 1, 0] =
          (categorized mm (scriptedSections script store all)).unassignedSections 6 ++
            bucketsConcat (categorized mm (scriptedSections script store all))
              [5, 4, 3, 2, 1, 0] := rfl
      rw [this, hrest, List.append_nil]
      exact hf
    · rename_i hnz
      simp only [Bool.false_eq_true, if_false] at hr
      have hstep := assignBuckets_places_all mm fuel [5, 4, 3, 2, 1, 0] st2
        (assignBuckets mm fuel [5, 4, 3, 2, 1, 0] st2)
        (by rw [hcongr]; simp only [bucketsConcat, List.length_append]; omega)
        hnz (by omega) rfl
      cases hab : assignBuckets mm fuel [5, 4, 3, 2, 1, 0] st2 with
      | error e =>
        rw [hab] at hr
        simp only at hr
        cases e with
        | place e1 => exact absurd hr.symm (hne e1)
        | overlay =>
          obtain ⟨st3, h3, -⟩ := hstep (by rw [hab]; intro e h; cases h)
          rw [hab] at h3; cases h3
        | unreachable =>
          obtain ⟨st3, h3, -⟩ := hstep (by rw [hab]; intro e h; cases h)
          rw [hab] at h3; cases h3
      | ok st3 =>
        rw [hab] at hr
        simp only at hr
        obtain ⟨st3', h3, hz3, newly2, hp2, hf2⟩ := hstep (by rw [hab]; intro e h; cases h)
        rw [hab] at h3
        simp only [Except.ok.injEq] at h3
        subst h3
        refine ⟨st3, _, hr.symm, hz3, newly ++ newly2, ?_, ?_⟩
        · rw [hp2, hp, List.reverse_append]
        · rw [hcongr] at hf2
          exact forall₂_placed_append hf hf2

/-- Three ROM0 sections, no linker script, no overlay: the driver returns. -/
theorem assign_returns_if_placements_return_example :
    ∃ st diags, assign_AssignSections gbModel 10 none false exampleStore [0, 1, 2] =
        .ok (st, diags) ∧ st.nbSectionsToAssign = 0 ∧
      ∃ newly, st.placed = newly.reverse ∧
        List.Forall₂ (fun p s => p = { s with org := p.org, bank := p.bank }) newly
          (bucketsConcat (categorized gbModel (scriptedSections none exampleStore [0, 1, 2]))
            [6, 5, 4, 3, 2, 1, 0]) :=
  (assign_returns_if_placements_return gbModel 10 none exampleStore [0, 1, 2]
    (by decide)).2.2.2.2.2.2.2 _ rfl
    (fun e h => by
      have h1 : isPlaceError
          (assign_AssignSections gbModel 10 none false exampleStore [0, 1, 2]) = false := by
        rfl
      rw [h] at h1
      cases h1)

/-! ### A run of the driver that does not return -/

theorem getPlacement_spins (memory : Memory)
    (hmem : memory 4 = [[{ address := 0xFFC0, size := 0x3F }]]) (fuel : Nat) :
    getPlacement gbModel memory hramAligned fuel = .error .outOfFuel := by
  unfold getPlacement
  have hbk : (if hramAligned.isBankFixed then hramAligned.bank
      else (gbModel.bankranges hramAligned.type).1) = 0 := by decide
  rw [hbk]
  cases fuel with
  | zero => rfl
  | succ n =>
    unfold getPlacementLoop
    have hb : bankIndex gbModel hramAligned 0 = 0 := by decide
    have ht : hramAligned.type = 4 := rfl
    rw [hb, ht, hmem]
    simp only [List.getElem?_cons_zero, firstAddress]
    rw [scanBank_spins 0 (n + 1) 0xFFC0 (by decide) (by decide)]

theorem getPlacement_hram_first (memory : Memory)
    (hmem : memory 4 = [[{ address := 0xFF80, size := 0x7F }]]) (n : Nat) :
    getPlacement gbModel memory hramAligned (n + 1)
      = .ok (some (0, { address := 0xFF80, bank := 0 })) := by
  unfold getPlacement
  have hbk : (if hramAligned.isBankFixed then hramAligned.bank
      else (gbModel.bankranges hramAligned.type).1) = 0 := by decide
  rw [hbk]
  unfold getPlacementLoop
  have hb : bankIndex gbModel hramAligned 0 = 0 := by decide
  have ht : hramAligned.type = 4 := rfl
  rw [hb, ht, hmem]
  simp only [List.getElem?_cons_zero, firstAddress]
  unfold scanBank
  have hs : isLocationSuitable hramAligned { address := 0xFF80, size := 0x7F }
      { address := 0xFF80, bank := 0 } = true := by decide
  rw [hs]
  rfl

theorem hramPending_memory :
    hramPending.memory 4 = [[{ address := 0xFF80, size := 0x7F }]] := by decide

theorem hramHalf_memory :
    hramHalf.memory 4 = [[{ address := 0xFFC0, size := 0x3F }]] := by decide

theorem placeSection_hram_first (n : Nat) :
    placeSection gbModel (n + 1) hramPending hramAligned = .ok hramHalf := by
  have h1 := getPlacement_hram_first hramPending.memory hramPending_memory n
  have h0 := getPlacement_hram_first hramPending.memory hramPending_memory 0
  have e : placeSection gbModel (n + 1) hramPending hramAligned
      = placeSection gbModel 1 hramPending hramAligned := by
    unfold placeSection
    rw [h1, h0]
  rw [e]
  rfl

theorem placeSection_hram_second (fuel : Nat) :
    placeSection gbModel fuel hramHalf hramAligned = .error (.search .outOfFuel) := by
  unfold placeSection
  rw [if_neg (by decide), getPlacement_spins hramHalf.memory hramHalf_memory fuel]

theorem assignBuckets_skip (mm : MemoryModel) (fuel c : Nat) (cs : List Nat) (st : State)
    (hc : st.unassignedSections c = []) (hn : st.nbSectionsToAssign ≠ 0) :
    assignBuckets mm fuel (c :: cs) st = assignBuckets mm fuel cs st := by
  rw [assignBuckets, hc]
  simp only [placeBucket, hn, if_false]

/-! ### The hypothesis on the alignment mask -/

/-- The hypothesis on the alignment mask is needed for the completeness of the
search: with the mask 2, the advancement from address 0 goes to 3, 4, 7, 8 and
passes over address 5, the only suitable one, so that `getPlacement` returns
`NULL` on a well-formed map. -/
theorem getPlacement_null_needs_low_bit_mask :
    MemoryWF gbModel gapMemory ∧ oddMask.size ≠ 0 ∧ ¬ oddMask.AlignWF ∧
    getPlacement gbModel gapMemory oddMask 10 = .ok none ∧
    isLocationSuitable oddMask { address := 5, size := 3 } { address := 5, bank := 0 }
      = true := by
  refine ⟨?_, by decide, ?_, by rfl, by decide⟩
  · intro t
    by_cases ht : t = 3
    · subst ht
      refine ⟨by decide, ?_⟩
      intro l hl
      have : l = [{ address := 0, size := 2 }, { address := 5, size := 3 }] := by
        simpa [gapMemory] using hl
      subst this
      exact ⟨by decide, by decide, by decide, by decide, by decide, by decide, trivial⟩
    · have h := initFreeSpace_wf gbModel gbModel_wf t
      simp only [gapMemory, if_neg ht]
      exact h
  · intro h
    obtain ⟨k, hk, hm, -⟩ := h rfl
    have hm2 : 2 ^ k = 3 := by
      have hpos : 0 < 2 ^ k := Nat.pow_pos (by decide)
      simp only [oddMask] at hm
      omega
    interval_cases k <;> simp at hm2

end Rgblink

namespace Rgbasm

/-! ### The character maps -/

theorem findEntry_eq_find (slots : List Entry) (source : List Nat) :
    ∀ (n i : Nat), i + n ≤ slots.length →
      findEntry slots source n i
        = .ok (((slots.drop i).take n).find?
            (fun e => decide (source.take e.input.length = e.input))) := by
  intro n
  induction n with
  | zero => intro i _; simp [findEntry]
  | succ n ih =>
    intro i h
    have hi : i < slots.length := by omega
    have hd : slots.drop i = slots[i] :: slots.drop (i + 1) := List.drop_eq_getElem_cons hi
    rw [findEntry, List.getElem?_eq_getElem hi]
    simp only [hd, List.take_succ_cons, List.find?_cons]
    by_cases hp : source.take slots[i].input.length = slots[i].input
    · simp [hp]
    · simp only [hp, if_false, decide_False]
      exact ih (i + 1) (by omega)

/-- The scan of lines 150-160 returns the first entry of the table whose input
matches the bytes at the current position. -/
theorem findEntry_table (cm : Charmap) (source : List Nat) (h : cm.count ≤ cm.slots.length) :
    findEntry cm.slots source cm.count 0
      = .ok (cm.table.find? (fun e => decide (source.take e.input.length = e.input))) := by
  rw [findEntry_eq_find _ _ _ _ (by omega)]
  simp [Charmap.table]

theorem take_eq_iff_starts (s after input : List Nat) (hin : 0 ∉ input) :
    (s ++ 0 :: after).take input.length = input ↔ input <+: s := by
  constructor
  · intro h
    by_cases hle : input.length ≤ s.length
    · rw [List.take_append_of_le_length hle] at h
      rw [← h]
      exact List.take_prefix _ _
    · exfalso
      apply hin
      rw [← h, List.take_append_eq_append_take]
      obtain ⟨k, hk⟩ : ∃ k, input.length - s.length = k + 1 := ⟨input.length - s.length - 1, by omega⟩
      rw [hk]
      simp
  · rintro ⟨t, rfl⟩
    rw [List.append_assoc]
    exact List.take_left _ _

theorem takeWhile_nonzero (l : List Nat) (hl : 0 ∉ l) :
    l.takeWhile (fun c => decide (c ≠ 0)) = l := by
  induction l with
  | nil => rfl
  | cons c rest ih =>
    have hc : c ≠ 0 := fun h => hl (by simp [h])
    have hr : 0 ∉ rest := fun h => hl (by simp [h])
    rw [List.takeWhile_cons, ih hr]
    simp [hc]

theorem takeWhile_append_zero (l r : List Nat) (hl : 0 ∉ l) :
    (l ++ 0 :: r).takeWhile (fun c => decide (c ≠ 0)) = l := by
  induction l with
  | nil => simp [List.takeWhile_cons]
  | cons c rest ih =>
    have hc : c ≠ 0 := fun h => hl (by simp [h])
    have hr : 0 ∉ rest := fun h => hl (by simp [h])
    rw [List.cons_append, List.takeWhile_cons, ih hr]
    simp [hc]

theorem takeWhile_take_string (s after : List Nat) (n : Nat) (hnul : 0 ∉ s) :
    ((s ++ 0 :: after).take n).takeWhile (fun c => decide (c ≠ 0)) = s.take n := by
  by_cases hle : n ≤ s.length
  · rw [List.take_append_of_le_length hle]
    exact takeWhile_nonzero _ (fun h => hnul (List.mem_of_mem_take h))
  · rw [List.take_append_eq_append_take]
    obtain ⟨k, hk⟩ : ∃ k, n - s.length = k + 1 := ⟨n - s.length - 1, by omega⟩
    rw [hk, List.take_of_length_le (by omega), List.take_succ_cons]
    exact takeWhile_append_zero _ _ hnul

theorem utf8Size_pos (first : Nat) : 1 ≤ utf8Size first := by
  unfold utf8Size; split_ifs <;> omega

/-- In front of a non-empty string the UTF-8 path emits the bytes of the string that
lie within the announced codepoint and advances by the announced length. -/
theorem emitted_utf8 (s after : List Nat) (hs : s ≠ []) (hnul : 0 ∉ s) :
    emitted (readUTF8Char (s ++ 0 :: after)).1 = s.take (utf8Size (s.headD 0))
    ∧ (readUTF8Char (s ++ 0 :: after)).2 = utf8Size (s.headD 0) := by
  obtain ⟨c, rest, rfl⟩ := List.exists_cons_of_ne_nil hs
  have hc : c ≠ 0 := fun h => hnul (by simp [h])
  obtain ⟨k, hk⟩ : ∃ k, utf8Size c = k + 1 := ⟨utf8Size c - 1, by have := utf8Size_pos c; omega⟩
  refine ⟨?_, by simp [readUTF8Char]⟩
  simp only [readUTF8Char, strncpy, List.cons_append, List.headD_cons]
  rw [← List.cons_append, takeWhile_take_string _ _ _ hnul]
  have hmem : 0 ∉ (c :: rest).take (utf8Size c) := fun h => hnul (List.mem_of_mem_take h)
  have hz : ∀ m, List.replicate m 0 ++ [0] = 0 :: List.replicate m 0 := by
    intro m
    induction m with
    | zero => rfl
    | succ m ih => rw [List.replicate_succ, List.cons_append, ih]
  rw [List.append_assoc, hz]
  unfold emitted
  have hh : (List.take (utf8Size c) (c :: rest) ++ 0 :: List.replicate
      (utf8Size c - (List.take (utf8Size c) (c :: rest)).length) 0).headD 0 = c := by
    rw [hk]; simp
  rw [hh, if_neg hc]
  exact takeWhile_append_zero _ _ hmem

theorem convertLoop_terminator (cm : Charmap) (capacity fuel : Nat) (after buffer : List Nat) :
    convertLoop cm capacity fuel (0 :: after) buffer = .ok buffer := by
  unfold convertLoop; simp

theorem convertLoop_step (cm : Charmap) (capacity fuel : Nat) (source buffer bytes : List Nat)
    (j : Nat) (h0 : source.headD 0 ≠ 0) (hstep : convertStep cm source = .ok (bytes, j))
    (hfit : buffer.length + bytes.length ≤ capacity) :
    convertLoop cm capacity (fuel + 1) source buffer
      = convertLoop cm capacity fuel (source.drop j) (buffer ++ bytes) := by
  cases source with
  | nil => simp at h0
  | cons c rest =>
    have hc : c ≠ 0 := by simpa using h0
    rw [convertLoop]
    simp only [hc, if_false, hstep, hfit, if_true]

theorem getElem?_append_cons (pre : List Entry) (e : Entry) (tail : List Entry) :
    (pre ++ e :: tail)[pre.length]? = some e := by
  rw [List.getElem?_append_right (Nat.le_refl _)]
  simp

theorem set_append_cons (pre : List Entry) (e new : Entry) (tail : List Entry) :
    (pre ++ e :: tail).set pre.length new = pre ++ new :: tail := by
  simp

/-- The search loop of lines 87-99 runs to the end and leaves the temporaries alone
when no stored entry is strictly shorter than the new input. -/
theorem firstLoop_none_shorter (inputLength : Nat) (new temp1 : Entry) (tail : List Entry) :
    ∀ (mid done : List Entry), (∀ p ∈ mid, inputLength ≤ p.input.length) →
      firstLoop inputLength new mid.length done.length (done ++ mid ++ tail) temp1
        = .ok (done.length + mid.length, done ++ mid ++ tail, temp1) := by
  intro mid
  induction mid with
  | nil => intro done _; simp [firstLoop]
  | cons p mid ih =>
    intro done h
    have hp : ¬ inputLength > p.input.length := by
      have := h p (by simp); omega
    rw [List.length_cons, firstLoop]
    have hget : (done ++ p :: mid ++ tail)[done.length]? = some p := by
      rw [List.append_assoc, List.cons_append]; exact getElem?_append_cons _ _ _
    rw [hget]
    simp only [hp, if_false]
    have := ih (done ++ [p]) (fun q hq => h q (by simp [hq]))
    simp only [List.length_append, List.length_singleton, List.append_assoc,
      List.singleton_append, List.cons_append, List.nil_append] at this ⊢
    rw [this, Nat.add_assoc, Nat.add_comm 1]

/-- The search loop of lines 87-99 replaces the first strictly shorter entry by the
new one and keeps the replaced entry in the temporaries. -/
theorem firstLoop_finds_shorter (inputLength : Nat) (new temp1 e : Entry) (tail : List Entry)
    (he : e.input.length < inputLength) :
    ∀ (pre done : List Entry) (n : Nat), (∀ p ∈ pre, inputLength ≤ p.input.length) →
      pre.length + 1 ≤ n →
      firstLoop inputLength new n done.length (done ++ pre ++ e :: tail) temp1
        = .ok (done.length + pre.length + 1, done ++ pre ++ new :: tail, e) := by
  intro pre
  induction pre with
  | nil =>
    intro done n _ hn
    obtain ⟨m, rfl⟩ : ∃ m, n = m + 1 := ⟨n - 1, by simp at hn; omega⟩
    rw [firstLoop]
    simp only [List.append_nil]
    rw [getElem?_append_cons]
    simp only [gt_iff_lt, he, if_true, set_append_cons, List.length_nil, Nat.add_zero]
  | cons p pre ih =>
    intro done n h hn
    obtain ⟨m, rfl⟩ : ∃ m, n = m + 1 := ⟨n - 1, by simp at hn; omega⟩
    have hp : ¬ inputLength > p.input.length := by
      have := h p (by simp); omega
    rw [firstLoop]
    have hget : (done ++ p :: pre ++ e :: tail)[done.length]? = some p := by
      rw [List.append_assoc, List.cons_append]; exact getElem?_append_cons _ _ _
    rw [hget]
    simp only [hp, if_false]
    have := ih (done ++ [p]) m (fun q hq => h q (by simp [hq])) (by simp at hn; omega)
    simp only [List.length_append, List.length_singleton, List.append_assoc,
      List.singleton_append, List.cons_append, List.length_cons, List.nil_append,
      List.length_nil, Nat.zero_add] at this ⊢
    rw [this, Nat.add_assoc done.length, Nat.add_comm 1]

/-- The loop of lines 100-109 moves every remaining entry one slot to the right. -/
theorem shiftLoop_shifts (tail : List Entry) :
    ∀ (mid done : List Entry) (temp1 : Entry),
      shiftLoop mid.length done.length (done ++ mid ++ tail) temp1
        = .ok (done ++ (temp1 :: mid).dropLast ++ tail, mid.getLastD temp1) := by
  intro mid
  induction mid with
  | nil => intro done temp1; simp [shiftLoop]
  | cons p mid ih =>
    intro done temp1
    rw [List.length_cons, shiftLoop]
    have hget : (done ++ p :: mid ++ tail)[done.length]? = some p := by
      rw [List.append_assoc, List.cons_append]; exact getElem?_append_cons _ _ _
    rw [hget]
    have hset : (done ++ p :: mid ++ tail).set done.length temp1
        = (done ++ [temp1]) ++ mid ++ tail := by
      rw [List.append_assoc, List.cons_append, set_append_cons]; simp
    simp only [hset]
    have := ih (done ++ [temp1]) p
    simp only [List.length_append, List.length_singleton] at this
    rw [this]
    cases mid with
    | nil => simp
    | cons q mid => simp [List.getLast?_eq_getLast _ (List.cons_ne_nil q mid)]

theorem charmap_Add_guard (limits : Limits) (count : Nat) (input : List Nat)
    (hcount : count ≤ limits.MAXCHARMAPS) (hlen : input.length ≤ limits.CHARMAPLENGTH) :
    (decide (count > limits.MAXCHARMAPS) || decide (input.length > limits.CHARMAPLENGTH)) = false := by
  simp; omega

/-- When some stored entry is strictly shorter than an input of length above 1,
`charmap_Add` inserts the new entry in front of the first such entry and keeps all
the others in order. -/
theorem charmap_Add_inserts (limits : Limits) (temp e x : Entry) (pre post rest : List Entry)
    (input : List Nat) (output : Nat)
    (hcount : pre.length + 1 + post.length ≤ limits.MAXCHARMAPS)
    (hlen : input.length ≤ limits.CHARMAPLENGTH) (h2 : 1 < input.length)
    (hpre : ∀ p ∈ pre, input.length ≤ p.input.length)
    (he : e.input.length < input.length) :
    charmap_Add limits temp ⟨pre.length + 1 + post.length, pre ++ e :: post ++ x :: rest⟩
        input output
      = .ok (((pre.length + 1 + post.length : Nat) : Int) + 1,
          ⟨pre.length + 1 + post.length + 1, pre ++ ⟨input, output⟩ :: e :: post ++ rest⟩) := by
  unfold charmap_Add
  simp only [charmap_Add_guard limits _ input hcount hlen, Bool.false_eq_true, if_false,
    gt_iff_lt, h2, if_true]
  have h1 := firstLoop_finds_shorter input.length ⟨input, output⟩ temp e (post ++ x :: rest) he
    pre [] (pre.length + 1 + post.length) hpre (by omega)
  simp only [List.nil_append, List.length_nil, Nat.zero_add] at h1
  rw [List.append_assoc, List.cons_append, h1]
  simp only
  have h3 := shiftLoop_shifts (x :: rest) post (pre ++ [⟨input, output⟩]) e
  simp only [List.length_append, List.length_singleton, List.append_assoc,
    List.singleton_append, List.cons_append, List.nil_append] at h3
  have h4 : pre.length + 1 + post.length - (pre.length + 1) = post.length := by omega
  rw [h4, h3]
  simp only
  have h5 : pre ++ { input := input, output := output } :: ((e :: post).dropLast ++ x :: rest)
      = (pre ++ { input := input, output := output } :: (e :: post).dropLast) ++ x :: rest := by
    simp
  have h6 : (pre ++ { input := input, output := output } :: (e :: post).dropLast).length
      = pre.length + 1 + post.length := by
    simp; omega
  rw [h5, if_pos (by rw [List.length_append, h6]; simp), ← h6, set_append_cons]
  have h7 : (e :: post).dropLast ++ [post.getLastD e] = e :: post := by
    cases post with
    | nil => simp
    | cons q post =>
      have := List.dropLast_append_getLast (List.cons_ne_nil e (q :: post))
      simpa [List.getLast?_eq_getLast _ (List.cons_ne_nil q post)] using this
  have h8 : (pre ++ { input := input, output := output } :: (e :: post).dropLast)
      ++ post.getLastD e :: rest
      = pre ++ { input := input, output := output } :: e :: post ++ rest := by
    rw [← h7]; simp
  rw [h8, h6]

/-- When no stored entry is strictly shorter than an input of length above 1 (so
also on the empty table), `charmap_Add` appends the contents of the temporaries in
place of the new entry. -/
theorem charmap_Add_appends_temporaries (limits : Limits) (temp x : Entry)
    (table rest : List Entry) (input : List Nat) (output : Nat)
    (hcount : table.length ≤ limits.MAXCHARMAPS)
    (hlen : input.length ≤ limits.CHARMAPLENGTH) (h2 : 1 < input.length)
    (hall : ∀ p ∈ table, input.length ≤ p.input.length) :
    charmap_Add limits temp ⟨table.length, table ++ x :: rest⟩ input output
      = .ok (((table.length : Nat) : Int) + 1, ⟨table.length + 1, table ++ temp :: rest⟩) := by
  unfold charmap_Add
  simp only [charmap_Add_guard limits _ input hcount hlen, Bool.false_eq_true, if_false,
    gt_iff_lt, h2, if_true]
  have h1 := firstLoop_none_shorter input.length ⟨input, output⟩ temp (x :: rest) table [] hall
  simp only [List.nil_append, List.length_nil, Nat.zero_add] at h1
  rw [h1]
  simp only [Nat.sub_self, shiftLoop]
  rw [if_pos (by simp), set_append_cons]

/-- With an input of length at most 1 and a non-empty table, `charmap_Add` overwrites
the last entry of the table; the slot after it becomes part of the table unchanged. -/
theorem charmap_Add_short_overwrites (limits : Limits) (temp last : Entry)
    (pre rest : List Entry) (input : List Nat) (output : Nat)
    (hcount : pre.length + 1 ≤ limits.MAXCHARMAPS)
    (hlen : input.length ≤ limits.CHARMAPLENGTH) (h1 : input.length ≤ 1) :
    charmap_Add limits temp ⟨pre.length + 1, pre ++ last :: rest⟩ input output
      = .ok (((pre.length + 1 : Nat) : Int) + 1,
          ⟨pre.length + 1 + 1, pre ++ ⟨input, output⟩ :: rest⟩) := by
  unfold charmap_Add
  have h2 : ¬ input.length > 1 := by omega
  simp only [charmap_Add_guard limits _ input hcount hlen, Bool.false_eq_true, if_false, h2]
  rw [if_pos (by simp), Nat.add_sub_cancel, set_append_cons]

/-- With an input of length at most 1 and the empty table, `charmap_Add` writes at
index -1. -/
theorem charmap_Add_short_empty (limits : Limits) (temp : Entry) (slots : List Entry)
    (input : List Nat) (output : Nat)
    (hlen : input.length ≤ limits.CHARMAPLENGTH) (h1 : input.length ≤ 1) :
    charmap_Add limits temp ⟨0, slots⟩ input output = .error .outOfBounds := by
  unfold charmap_Add
  have h2 : ¬ input.length > 1 := by omega
  simp only [charmap_Add_guard limits 0 input (Nat.zero_le _) hlen, Bool.false_eq_true, if_false,
    h2]
  rw [if_neg (by simp)]

theorem strlen_string (s after : List Nat) (hnul : 0 ∉ s) :
    strlen (s ++ 0 :: after) = some s.length := by
  induction s with
  | nil => simp [strlen]
  | cons c rest ih =>
    have hc : c ≠ 0 := fun h => hnul (by simp [h])
    have hr : 0 ∉ rest := fun h => hnul (by simp [h])
    simp [strlen, hc, ih hr]

theorem convertLoop_empty_table (slots : List Entry) (after : List Nat) (capacity : Nat) :
    ∀ (fuel : Nat) (s : List Nat) (loopFuel : Nat) (buffer : List Nat),
      utf8CompleteAux fuel s = true → 0 ∉ s → s.length ≤ loopFuel →
      buffer.length + s.length ≤ capacity →
      convertLoop ⟨0, slots⟩ capacity loopFuel (s ++ 0 :: after) buffer = .ok (buffer ++ s) := by
  intro fuel
  induction fuel with
  | zero =>
    intro s loopFuel buffer hc _ _ _
    cases s with
    | nil => simp [convertLoop_terminator]
    | cons c rest => simp [utf8CompleteAux] at hc
  | succ fuel ih =>
    intro s loopFuel buffer hc hnul hfuel hcap
    cases s with
    | nil => simp [convertLoop_terminator]
    | cons c rest =>
      simp only [utf8CompleteAux, Bool.and_eq_true, decide_eq_true_eq] at hc
      obtain ⟨hfit, hrest⟩ := hc
      obtain ⟨m, rfl⟩ : ∃ m, loopFuel = m + 1 := ⟨loopFuel - 1, by simp at hfuel; omega⟩
      have hne : c :: rest ≠ [] := List.cons_ne_nil _ _
      have hstep : convertStep ⟨0, slots⟩ ((c :: rest) ++ 0 :: after)
          = .ok ((c :: rest).take (utf8Size c), utf8Size c) := by
        unfold convertStep
        simp only [findEntry]
        have := emitted_utf8 (c :: rest) after hne hnul
        simp only [List.headD_cons] at this
        rw [this.1, this.2]
      have hcneq : ((c :: rest) ++ 0 :: after).headD 0 ≠ 0 := by
        have hc0 : c ≠ 0 := fun h => hnul (by simp [h])
        simpa using hc0
      have hpos := utf8Size_pos c
      have hlt : (List.take (utf8Size c) (c :: rest)).length = utf8Size c := by
        rw [List.length_take]; omega
      rw [convertLoop_step _ _ _ _ _ _ _ hcneq hstep (by rw [hlt]; omega),
        List.drop_append_of_le_length hfit]
      have hdl : ((c :: rest).drop (utf8Size c)).length = (c :: rest).length - utf8Size c :=
        List.length_drop _ _
      rw [ih _ m _ hrest (fun h => hnul (List.mem_of_mem_drop h))
        (by rw [hdl]; simp at hfuel ⊢; omega)
        (by rw [List.length_append, hlt, hdl]; omega)]
      rw [List.append_assoc, List.take_append_drop]

/-- With the empty table, a string none of whose UTF-8 sequences is cut short is
converted to itself. -/
theorem charmap_Convert_empty_table_complete (slots : List Entry) (s after : List Nat)
    (hnul : 0 ∉ s) (hcomplete : utf8Complete s = true) :
    charmap_Convert ⟨0, slots⟩ (s ++ 0 :: after) = .ok s := by
  unfold charmap_Convert
  rw [strlen_string s after hnul]
  simp only
  have := convertLoop_empty_table slots after s.length s.length s (s ++ 0 :: after).length []
    hcomplete hnul (by simp) (by simp)
  simpa using this

/-- A call of `charmap_Add` that returns either returns -1 and changes nothing, or
returns the old count plus one, which is the new count; the count never exceeds
`MAXCHARMAPS + 1`. -/
theorem charmap_Add_count_bound (limits : Limits) (temp : Entry) (cm cm1 : Charmap)
    (input : List Nat) (output : Nat) (r : Int)
    (hcount : cm.count ≤ limits.MAXCHARMAPS + 1)
    (hadd : charmap_Add limits temp cm input output = .ok (r, cm1)) :
    cm1.count ≤ limits.MAXCHARMAPS + 1
    ∧ (r = -1 ∧ cm1 = cm ∨ r = (cm.count : Int) + 1 ∧ cm1.count = cm.count + 1) := by
  unfold charmap_Add at hadd
  by_cases hg : (decide (cm.count > limits.MAXCHARMAPS)
      || decide (input.length > limits.CHARMAPLENGTH)) = true
  · rw [if_pos hg] at hadd
    injection hadd with hadd
    injection hadd with h1 h2
    subst h1 h2
    exact ⟨hcount, Or.inl ⟨rfl, rfl⟩⟩
  · rw [if_neg hg] at hadd
    have hle : cm.count ≤ limits.MAXCHARMAPS := by
      simp at hg; omega
    have key : r = (cm.count : Int) + 1 ∧ cm1.count = cm.count + 1 := by
      simp only at hadd
      split at hadd
      · split at hadd
        · cases hadd
        · split at hadd
          · cases hadd
          · split at hadd
            · injection hadd with hadd
              injection hadd with h1 h2
              subst h1 h2
              exact ⟨rfl, rfl⟩
            · cases hadd
      · split at hadd
        · injection hadd with hadd
          injection hadd with h1 h2
          subst h1 h2
          exact ⟨rfl, rfl⟩
        · cases hadd
    exact ⟨by omega, Or.inr key⟩

theorem utf8Size_cases (c : Nat) :
    (0xFC ≤ c → utf8Size c = 6) ∧ (0xF8 ≤ c → c < 0xFC → utf8Size c = 5) ∧
    (0xF0 ≤ c → c < 0xF8 → utf8Size c = 4) ∧ (0xE0 ≤ c → c < 0xF0 → utf8Size c = 3) ∧
    (0xC0 ≤ c → c < 0xE0 → utf8Size c = 2) ∧ (c < 0xC0 → utf8Size c = 1) := by
  unfold utf8Size
  refine ⟨?_, ?_, ?_, ?_, ?_, ?_⟩ <;> intros <;> split_ifs <;> omega

/-- One step of the conversion in front of a non-empty remaining string `s`, with
the length of the codepoint written as `utf8Size`, and the equations of the loop. -/
theorem convertStep_match_or_utf8 (cm : Charmap) (s after : List Nat)
    (hcount : cm.count ≤ cm.slots.length)
    (hentries : ∀ e ∈ cm.table, e.input ≠ [] ∧ 0 ∉ e.input)
    (hsorted : SortedByLength cm.table)
    (hs : s ≠ []) (hnul : 0 ∉ s) :
    ((∃ e ∈ cm.table, e.input <+: s) →
      ∃ e ∈ cm.table, e.input <+: s
        ∧ (∀ e1 ∈ cm.table, e1.input <+: s → e1.input.length ≤ e.input.length)
        ∧ convertStep cm (s ++ 0 :: after) = .ok ([e.output], e.input.length))
    ∧ ((∀ e ∈ cm.table, ¬ e.input <+: s) →
      convertStep cm (s ++ 0 :: after)
        = .ok (s.take (utf8Size (s.headD 0)), utf8Size (s.headD 0)))
    ∧ (∀ (capacity fuel : Nat) (buffer bytes : List Nat) (j : Nat),
        convertStep cm (s ++ 0 :: after) = .ok (bytes, j) →
        buffer.length + bytes.length ≤ capacity →
        convertLoop cm capacity (fuel + 1) (s ++ 0 :: after) buffer
          = convertLoop cm capacity fuel ((s ++ 0 :: after).drop j) (buffer ++ bytes))
    ∧ (∀ (capacity fuel : Nat) (buffer : List Nat),
        convertLoop cm capacity fuel (0 :: after) buffer = .ok buffer) := by
  have hfind := findEntry_table cm (s ++ 0 :: after) hcount
  have hhead : (s ++ 0 :: after).headD 0 ≠ 0 := by
    obtain ⟨c, rest, rfl⟩ := List.exists_cons_of_ne_nil hs
    have hc : c ≠ 0 := fun h => hnul (by simp [h])
    simpa using hc
  refine ⟨?_, ?_, ?_, ?_⟩
  · rintro ⟨e0, he0, hp0⟩
    cases hf : cm.table.find? (fun e => decide ((s ++ 0 :: after).take e.input.length = e.input)) with
    | none =>
      exfalso
      rw [List.find?_eq_none] at hf
      have := hf e0 he0
      simp only [decide_eq_true_eq] at this
      exact this ((take_eq_iff_starts s after e0.input (hentries e0 he0).2).2 hp0)
    | some e =>
      have hf0 := hf
      rw [List.find?_eq_some] at hf
      obtain ⟨hpe, as, bs, htab, has⟩ := hf
      simp only [decide_eq_true_eq] at hpe
      have hmem : e ∈ cm.table := by rw [htab]; simp
      have hpre : e.input <+: s := (take_eq_iff_starts s after e.input (hentries e hmem).2).1 hpe
      refine ⟨e, hmem, hpre, ?_, ?_⟩
      · intro e1 he1 hp1
        rw [htab] at he1
        rcases List.mem_append.1 he1 with h1 | h1
        · exfalso
          have := has e1 h1
          simp only [Bool.not_eq_true', decide_eq_false_iff_not] at this
          have hm1 : e1 ∈ cm.table := by rw [htab]; exact List.mem_append_left _ h1
          exact this ((take_eq_iff_starts s after e1.input (hentries e1 hm1).2).2 hp1)
        · rcases List.mem_cons.1 h1 with h2 | h2
          · rw [h2]
          · have hsort := hsorted
            unfold SortedByLength at hsort
            rw [htab, List.pairwise_append] at hsort
            exact (List.pairwise_cons.1 hsort.2.1).1 e1 h2
      · have hlen : e.input.length ≠ 0 := by
          intro h
          exact (hentries e hmem).1 (List.length_eq_zero.1 h)
        unfold convertStep
        rw [hfind, hf0]
        simp only [hlen, ne_eq, not_false_eq_true, if_true]
        by_cases ho : e.output = 0
        · simp [emitted, ho]
        · simp [emitted, ho, List.takeWhile_cons]
  · intro hno
    have hf : cm.table.find? (fun e => decide ((s ++ 0 :: after).take e.input.length = e.input))
        = none := by
      rw [List.find?_eq_none]
      intro e he
      simp only [decide_eq_true_eq]
      intro h
      exact hno e he ((take_eq_iff_starts s after e.input (hentries e he).2).1 h)
    unfold convertStep
    rw [hfind, hf]
    simp only
    rw [(emitted_utf8 s after hs hnul).1, (emitted_utf8 s after hs hnul).2]
  · intro capacity fuel buffer bytes j hstep hfit
    exact convertLoop_step cm capacity fuel _ buffer bytes j hhead hstep hfit
  · intro capacity fuel buffer
    exact convertLoop_terminator cm capacity fuel after buffer

end Rgbasm

namespace Rgblink

/-! ## The claims -/

/-- C1: when `placeSection` places a section of non-zero size in a state
reached from `initFreeSpace` (the bank of a bank-fixed section lying in the
bank range of its region), the `(bank, org)` it assigns satisfies
`startaddr ≤ org`, `org + size ≤ endaddr + 1`, `bank` in the bank range,
`(org - alignOfs) & alignMask == 0` for an align-fixed section, `org` is the
requested one for an address-fixed section and `bank` the requested one for a
bank-fixed section. -/
theorem placeSection_assignment_valid (mm : MemoryModel) (hmm : mm.WF) (st st1 : State)
    (sect : Section) (fuel : Nat) (hst : Reachable mm st) (hsz : sect.size ≠ 0)
    (hbank : sect.isBankFixed = true →
      (mm.bankranges sect.type).1 ≤ sect.bank ∧ sect.bank ≤ (mm.bankranges sect.type).2)
    (h : placeSection mm fuel st sect = .ok st1) :
    ∃ org bank, st1.placed = { sect with org := org, bank := bank } :: st.placed ∧
      mm.startaddr sect.type ≤ org ∧
      org + sect.size ≤ endaddr mm sect.type + 1 ∧
      (mm.bankranges sect.type).1 ≤ bank ∧ bank ≤ (mm.bankranges sect.type).2 ∧
      (sect.isAlignFixed = true → alignResidue sect org = 0) ∧
      (sect.isAddressFixed = true → org = sect.org) ∧
      (sect.isBankFixed = true → bank = sect.bank) := by
  have hinv := hst.inv mm hmm
  obtain ⟨idx, loc, hg, -, -, -, hpl⟩ := placeSection_nonzero mm fuel st st1 sect hsz h
  have hne := getPlacement_lookup mm st.memory sect fuel _ hg
  have ht : sect.type < mm.nbTypes := by
    by_contra hc
    have := (hinv.wf sect.type).1
    rw [if_neg hc] at this
    exact hne (List.length_eq_zero.1 this)
  obtain ⟨hmax, hhi, hlo, hhi32⟩ := hmm sect.type ht
  obtain ⟨l, s, hl, hs, hsuit, hfix, hnfix⟩ :=
    getPlacement_sound mm st.memory sect fuel hhi32 hlo idx loc hg
  rw [isLocationSuitable_iff] at hsuit
  obtain ⟨hS1, hS2, ha, hb⟩ := hsuit
  have hlwf := (hinv.wf sect.type).2 l (List.getElem?_mem hl)
  have hsb := hlwf.bounds s (List.getElem?_mem hs)
  refine ⟨loc.address, loc.bank, hpl, by omega, ?_, ?_, ?_, hS2, fun hf => (hS1 hf).symm, hfix⟩
  · unfold endaddr; omega
  · cases hf : sect.isBankFixed with
    | false => exact (hnfix hf).1
    | true => rw [hfix hf]; exact (hbank hf).1
  · cases hf : sect.isBankFixed with
    | false => exact (hnfix hf).2
    | true => rw [hfix hf]; exact (hbank hf).2

/-- Witness of C1: the aligned ROM0 section placed in the initial state. -/
theorem placeSection_assignment_valid_witness :
    ∃ org bank,
      (stateOf (placeSection gbModel 10 gbInit alignedSection) gbInit).placed =
        { alignedSection with org := org, bank := bank } :: gbInit.placed ∧
      gbModel.startaddr 3 ≤ org ∧ org + 0x10 ≤ endaddr gbModel 3 + 1 ∧
      (gbModel.bankranges 3).1 ≤ bank ∧ bank ≤ (gbModel.bankranges 3).2 ∧
      (alignedSection.isAlignFixed = true → alignResidue alignedSection org = 0) ∧
      (alignedSection.isAddressFixed = true → org = alignedSection.org) ∧
      (alignedSection.isBankFixed = true → bank = alignedSection.bank) :=
  placeSection_assignment_valid gbModel gbModel_wf gbInit
    (stateOf (placeSection gbModel 10 gbInit alignedSection) gbInit) alignedSection 10
    (Reachable.init gbInit rfl rfl) (by decide) (by decide) (by rfl)

/-- C2: in every state reached from `initFreeSpace` by successful calls to
`placeSection`, two distinct placed sections of non-zero size with the same
type and the same bank occupy disjoint intervals `[org, org + size)`. -/
theorem placed_sections_disjoint (mm : MemoryModel) (hmm : mm.WF) (st : State)
    (hst : Reachable mm st) (i j : Nat) (a b : Section) (hij : i ≠ j)
    (ha : st.placed[i]? = some a) (hb : st.placed[j]? = some b)
    (haz : a.size ≠ 0) (hbz : b.size ≠ 0) (ht : a.type = b.type) (hk : a.bank = b.bank) :
    a.org + a.size ≤ b.org ∨ b.org + b.size ≤ a.org := by
  have hp := (hst.inv mm hmm).placed_disjoint
  rw [List.pairwise_iff_getElem] at hp
  obtain ⟨hi, rfl⟩ := List.getElem?_eq_some.1 ha
  obtain ⟨hj, rfl⟩ := List.getElem?_eq_some.1 hb
  rcases Nat.lt_or_gt_of_ne hij with hlt | hgt
  · exact hp i j hi hj hlt haz hbz ht hk
  · have := hp j i hj hi hgt hbz haz ht.symm hk.symm
    unfold Section.Disjoint at this
    omega

/-- Witness of C2: the two sections placed in ROM0 bank 0 of `stateTwo`. -/
theorem placed_sections_disjoint_witness :
    ({ tieFirst with org := 0, bank := 0 } : Section).org +
        ({ tieFirst with org := 0, bank := 0 } : Section).size ≤ fixedSection.org ∨
      fixedSection.org + fixedSection.size ≤
        ({ tieFirst with org := 0, bank := 0 } : Section).org :=
  placed_sections_disjoint gbModel gbModel_wf stateTwo stateTwo_reachable 0 1
    { tieFirst with org := 0, bank := 0 } fixedSection (by decide) (by rfl) (by rfl)
    (by decide) (by decide) rfl rfl

/-- C3: in every state reached from `initFreeSpace` by successful calls to
`placeSection`, every free list has intervals of non-zero size, strictly
increasing in address, pairwise disjoint, and no interval ends where the next
one starts. -/
theorem free_lists_well_formed (mm : MemoryModel) (hmm : mm.WF) (st : State)
    (hst : Reachable mm st) (t : Nat) (l : List FreeSpace) (hl : l ∈ st.memory t) :
    (∀ s ∈ l, s.size ≠ 0) ∧
    l.Pairwise (fun a b => a.address < b.address) ∧
    l.Pairwise (fun a b => a.address + a.size ≤ b.address) ∧
    l.Chain' (fun a b => a.address + a.size ≠ b.address) := by
  have hwf := ((hst.inv mm hmm).wf t).2 l hl
  have hp := hwf.pairwise
  refine ⟨fun s hs => ?_, hp.imp ?_, hp.imp ?_, (hp.imp ?_).chain'⟩
  · have := (hwf.bounds s hs).2.1; omega
  · intro a b h; omega
  · intro a b h; omega
  · intro a b h; omega

/-- Witness of C3: the free list of ROM0 bank 0 in `stateTwo`. -/
theorem free_lists_well_formed_witness :
    (∀ s ∈ [({ address := 0x100, size := 0xF00 } : FreeSpace),
        { address := 0x1100, size := 0x2F00 }], s.size ≠ 0) ∧
    [({ address := 0x100, size := 0xF00 } : FreeSpace),
      { address := 0x1100, size := 0x2F00 }].Pairwise (fun a b => a.address < b.address) ∧
    [({ address := 0x100, size := 0xF00 } : FreeSpace),
      { address := 0x1100, size := 0x2F00 }].Pairwise
        (fun a b => a.address + a.size ≤ b.address) ∧
    [({ address := 0x100, size := 0xF00 } : FreeSpace),
      { address := 0x1100, size := 0x2F00 }].Chain'
        (fun a b => a.address + a.size ≠ b.address) :=
  free_lists_well_formed gbModel gbModel_wf stateTwo stateTwo_reachable 3
    [{ address := 0x100, size := 0xF00 }, { address := 0x1100, size := 0x2F00 }] (by decide)

/-- C4: in every state reached from `initFreeSpace` by successful calls to
`placeSection`, for every bank of every type the sizes of the free intervals
of the bank and the sizes of the sections placed in the bank add up to
`maxsize[type]`. -/
theorem free_plus_placed_eq_maxsize (mm : MemoryModel) (hmm : mm.WF) (st : State)
    (hst : Reachable mm st) (t i : Nat) (ht : t < mm.nbTypes) (hi : i < nbbanks mm t) :
    ∃ l, (st.memory t)[i]? = some l ∧
      freeSize l + placedSize st.placed t ((mm.bankranges t).1 + i) = mm.maxsize t := by
  have hinv := hst.inv mm hmm
  have hlen := (hinv.wf t).1
  rw [if_pos ht] at hlen
  have hi' : i < (st.memory t).length := by omega
  exact ⟨(st.memory t)[i], List.getElem?_eq_getElem hi', hinv.sum t i _ (List.getElem?_eq_getElem hi')⟩

/-- Witness of C4: ROM0 bank 0 in `stateTwo`. -/
theorem free_plus_placed_eq_maxsize_witness :
    ∃ l, (stateTwo.memory 3)[0]? = some l ∧
      freeSize l + placedSize stateTwo.placed 3 ((gbModel.bankranges 3).1 + 0) =
        gbModel.maxsize 3 :=
  free_plus_placed_eq_maxsize gbModel gbModel_wf stateTwo stateTwo_reachable 3 0
    (by decide) (by decide)

/-- C5 (first fit): when `getPlacement` returns a free interval with location
`(bank, address)` for a section of non-zero size in a well-formed free-space
map, no eligible bank with a smaller number has a suitable location, no
smaller address of the returned bank is suitable in any of its free intervals,
and for an unconstrained section the address is the start of the first free
interval of that bank whose size is at least the size of the section. -/
theorem getPlacement_first_fit (mm : MemoryModel) (hmm : mm.WF) (memory : Memory)
    (hmem : MemoryWF mm memory) (sect : Section) (hsz : sect.size ≠ 0)
    (halign : sect.AlignWF) (fuel i : Nat) (loc : MemoryLocation)
    (h : getPlacement mm memory sect fuel = .ok (some (i, loc))) :
    (∀ b, eligibleBank mm sect b → b < loc.bank →
      ∀ l, (memory sect.type)[bankIndex mm sect b]? = some l →
      ∀ s ∈ l, ∀ a, isLocationSuitable sect s { address := a, bank := b } = false) ∧
    (∀ l, (memory sect.type)[bankIndex mm sect loc.bank]? = some l →
      ∀ s ∈ l, ∀ a, a < loc.address →
        isLocationSuitable sect s { address := a, bank := loc.bank } = false) ∧
    (sect.isAddressFixed = false → sect.isAlignFixed = false →
      ∃ l s, (memory sect.type)[bankIndex mm sect loc.bank]? = some l ∧ l[i]? = some s ∧
        loc.address = s.address ∧ sect.size ≤ s.size ∧
        ∀ j s1, j < i → l[j]? = some s1 → s1.size < sect.size) := by
  have hne := getPlacement_lookup mm memory sect fuel _ h
  have ht : sect.type < mm.nbTypes := by
    by_contra hc
    have := (hmem sect.type).1
    rw [if_neg hc] at this
    exact hne (List.length_eq_zero.1 this)
  obtain ⟨hmax, hhi, hlo, hhi32⟩ := hmm sect.type ht
  obtain ⟨l, s, hl, hs, hsuit, hfix, hnfix⟩ :=
    getPlacement_sound mm memory sect fuel hhi32 hlo i loc h
  have hcomp := getPlacementLoop_complete mm memory sect fuel hsz halign _ _ hhi
    (hmem sect.type).2 hhi32 fuel _ (some (i, loc))
    (fun hf => by simp only [hf, Bool.false_eq_true, if_false]; exact hlo) h
  have hel : eligibleBank mm sect loc.bank := by
    unfold eligibleBank
    cases hf : sect.isBankFixed with
    | true => simp only [if_true]; exact hfix hf
    | false => simp only [Bool.false_eq_true, if_false]; exact hnfix hf
  have hel' : ∀ b, eligibleBank mm sect b →
      (if sect.isBankFixed then
        b = (if sect.isBankFixed then sect.bank else (mm.bankranges sect.type).1)
       else (if sect.isBankFixed then sect.bank else (mm.bankranges sect.type).1) ≤ b ∧
        b ≤ (mm.bankranges sect.type).2) := by
    intro b hb
    unfold eligibleBank at hb
    cases hf : sect.isBankFixed with
    | true => rw [hf] at hb; simpa using hb
    | false => rw [hf] at hb; simpa using hb
  -- the returned location is the least suitable one of its bank
  have hleast : ∀ l1, (memory sect.type)[bankIndex mm sect loc.bank]? = some l1 →
      ∀ s1 ∈ l1, ∀ a, isLocationSuitable sect s1 { address := a, bank := loc.bank } = true →
        loc.address ≤ a := by
    intro l1 hl1 s1 hs1 a ha
    obtain ⟨i1, loc1, e, hor⟩ := hcomp loc.bank (hel' _ hel) l1 hl1 s1 hs1 a ha
    simp only [Option.some.injEq, Prod.mk.injEq] at e
    rw [← e.2] at hor
    omega
  refine ⟨?_, ?_, ?_⟩
  · intro b hb hlt l1 hl1 s1 hs1 a
    by_contra hc
    have hc' : isLocationSuitable sect s1 { address := a, bank := b } = true := by
      simpa using hc
    obtain ⟨i1, loc1, e, hor⟩ := hcomp b (hel' b hb) l1 hl1 s1 hs1 a hc'
    simp only [Option.some.injEq, Prod.mk.injEq] at e
    rw [← e.2] at hor
    omega
  · intro l1 hl1 s1 hs1 a ha
    by_contra hc
    have hc' : isLocationSuitable sect s1 { address := a, bank := loc.bank } = true := by
      simpa using hc
    have := hleast l1 hl1 s1 hs1 a hc'
    omega
  · intro hnaf hnal
    have hS := (isLocationSuitable_iff _ _ _).1 hsuit
    have hlwf := (hmem sect.type).2 l (List.getElem?_mem hl)
    have hsuit_start : ∀ s1 : FreeSpace, sect.size ≤ s1.size →
        isLocationSuitable sect s1 { address := s1.address, bank := loc.bank } = true := by
      intro s1 h1
      rw [isLocationSuitable_iff]
      refine ⟨fun hc => ?_, fun hc => ?_, le_refl _, ?_⟩
      · rw [hnaf] at hc; cases hc
      · rw [hnal] at hc; cases hc
      · simp only; omega
    have hsz_s : sect.size ≤ s.size := by omega
    have haddr : loc.address = s.address := by
      have := hleast l hl s (List.getElem?_mem hs) s.address (hsuit_start s hsz_s)
      omega
    refine ⟨l, s, hl, hs, haddr, hsz_s, ?_⟩
    intro j s1 hj hs1
    by_contra hc
    have h1 := hleast l hl s1 (List.getElem?_mem hs1) s1.address (hsuit_start s1 (by omega))
    have hp := hlwf.pairwise
    rw [List.pairwise_iff_getElem] at hp
    obtain ⟨hjl, rfl⟩ := List.getElem?_eq_some.1 hs1
    obtain ⟨hil, rfl⟩ := List.getElem?_eq_some.1 hs
    have := hp j i hjl hil hj
    omega

/-- Witness of C5: with ROMX bank 1 full, the aligned section goes to bank 2 at
the first aligned address. -/
theorem getPlacement_first_fit_witness :
    (∀ b, eligibleBank gbModel alignedRomx b → b < 2 →
      ∀ l, (stateBank.memory 2)[bankIndex gbModel alignedRomx b]? = some l →
      ∀ s ∈ l, ∀ a, isLocationSuitable alignedRomx s { address := a, bank := b } = false) ∧
    (∀ l, (stateBank.memory 2)[bankIndex gbModel alignedRomx 2]? = some l →
      ∀ s ∈ l, ∀ a, a < 0x4003 →
        isLocationSuitable alignedRomx s { address := a, bank := 2 } = false) ∧
    (alignedRomx.isAddressFixed = false → alignedRomx.isAlignFixed = false →
      ∃ l s, (stateBank.memory 2)[bankIndex gbModel alignedRomx 2]? = some l ∧
        l[0]? = some s ∧ 0x4003 = s.address ∧ alignedRomx.size ≤ s.size ∧
        ∀ j s1, j < 0 → l[j]? = some s1 → s1.size < alignedRomx.size) :=
  getPlacement_first_fit gbModel gbModel_wf stateBank.memory
    (stateBank_reachable.inv gbModel gbModel_wf).wf alignedRomx (by decide)
    (fun _ => ⟨8, by decide, by decide, by decide⟩) 10 0 { address := 0x4003, bank := 2 }
    (by rfl)

/-- C6: after any sequence of `categorizeSection` calls on empty buckets, every
bucket list is ordered by non-increasing size; and the loop that places a
bucket hands its sections to `out_AddSection` in list order, hence in
non-increasing size order. -/
theorem buckets_sorted_by_size (st : State) (hempty : ∀ c, st.unassignedSections c = [])
    (sects : List Section) (c : Nat) :
    ((sects.foldl categorizeSection st).unassignedSections c).Pairwise
      (fun a b => a.size ≥ b.size) ∧
    ∀ (mm : MemoryModel) (fuel : Nat) (st1 st2 : State),
      placeBucket mm fuel st1 ((sects.foldl categorizeSection st).unassignedSections c)
        = .ok st2 →
      ∃ newly, st2.placed = newly.reverse ++ st1.placed ∧
        List.Forall₂ (fun p s => p = { s with org := p.org, bank := p.bank }) newly
          ((sects.foldl categorizeSection st).unassignedSections c) ∧
        newly.Pairwise (fun a b => a.size ≥ b.size) := by
  have hs := categorize_sorted sects st
    (fun c1 => by rw [hempty c1]; exact List.Pairwise.nil) c
  refine ⟨hs, ?_⟩
  intro mm fuel st1 st2 h
  obtain ⟨newly, h1, h2⟩ := placeBucket_log mm fuel _ st1 st2 h
  refine ⟨newly, h1, h2, ?_⟩
  have hmap := placed_sizes _ _ h2
  have hs' := (List.pairwise_map (f := Section.size) (R := fun x y => x ≥ y)).2 hs
  rw [← hmap] at hs'
  exact (List.pairwise_map (f := Section.size) (R := fun x y => x ≥ y)).1 hs'

/-- Witness of C6: three sections categorized on empty buckets. -/
theorem buckets_sorted_by_size_witness :
    (([tieFirst, offsetSection, tieSecond].foldl categorizeSection
        (emptyState gbModel)).unassignedSections 0).Pairwise (fun a b => a.size ≥ b.size) ∧
    ∀ (mm : MemoryModel) (fuel : Nat) (st1 st2 : State),
      placeBucket mm fuel st1 (([tieFirst, offsetSection, tieSecond].foldl categorizeSection
        (emptyState gbModel)).unassignedSections 0) = .ok st2 →
      ∃ newly, st2.placed = newly.reverse ++ st1.placed ∧
        List.Forall₂ (fun p s => p = { s with org := p.org, bank := p.bank }) newly
          (([tieFirst, offsetSection, tieSecond].foldl categorizeSection
            (emptyState gbModel)).unassignedSections 0) ∧
        newly.Pairwise (fun a b => a.size ≥ b.size) :=
  buckets_sorted_by_size (emptyState gbModel) (fun _ => rfl)
    [tieFirst, offsetSection, tieSecond] 0

/-- C7, as stated, fails: of two sections of equal size that fall in the same
bucket, the one categorized first ends up later in the bucket list. -/
theorem ties_first_comes_earlier_counterexample :
    tieFirst.size = tieSecond.size ∧ constraintsOf tieFirst = constraintsOf tieSecond ∧
    ([tieFirst, tieSecond].foldl categorizeSection (emptyState gbModel)).unassignedSections
      (constraintsOf tieFirst) = [tieSecond, tieFirst] ∧
    ¬ [tieFirst, tieSecond].Sublist
      (([tieFirst, tieSecond].foldl categorizeSection (emptyState gbModel)).unassignedSections
        (constraintsOf tieFirst)) := by
  decide

/-- C7, amended: of two sections of equal size that fall in the same bucket,
the one passed to `categorizeSection` later comes earlier in the bucket list
(and is therefore placed first). -/
theorem ties_later_comes_earlier (st : State) (sects : List Section) (i j : Nat)
    (a b : Section) (hij : i < j) (ha : sects[i]? = some a) (hb : sects[j]? = some b)
    (hsz : a.size = b.size) (hc : constraintsOf a = constraintsOf b) :
    [b, a].Sublist
      ((sects.foldl categorizeSection st).unassignedSections (constraintsOf a)) := by
  induction sects generalizing st i j with
  | nil => simp at ha
  | cons x rest ih =>
    rw [List.foldl_cons]
    cases j with
    | zero => omega
    | succ j =>
      simp only [List.getElem?_cons_succ] at hb
      cases i with
      | zero =>
        simp only [List.getElem?_cons_zero, Option.some.injEq] at ha
        subst ha
        refine categorize_later_first x b hsz hc rest _ j ?_ hb
        rw [categorize_bucket, if_pos rfl]
        exact insertBySize_mem x _
      | succ i =>
        simp only [List.getElem?_cons_succ] at ha
        exact ih _ i j (by omega) ha hb

/-- Witness of the amended C7: `tieSecond`, categorized after `tieFirst`, comes first. -/
theorem ties_later_comes_earlier_witness :
    [tieSecond, tieFirst].Sublist
      (([tieFirst, offsetSection, tieSecond].foldl categorizeSection
        (emptyState gbModel)).unassignedSections (constraintsOf tieFirst)) :=
  ties_later_comes_earlier (emptyState gbModel) [tieFirst, offsetSection, tieSecond] 0 2
    tieFirst tieSecond (by decide) rfl rfl rfl rfl

/-- C8 (the script wins): whatever the store and the records handled before,
right after `processLinkerScript` handles the record `pl` the section it names is
address-fixed at the record's `org`, bank-fixed at the record's `bank` and not
align-fixed, its other fields and all the other sections being as before the
record; the same holds at the end of the script when no later record names the
section; and running the same script a second time leaves every section as the
first run left it. -/
theorem script_wins_and_is_idempotent (store : SectionStore)
    (pre post : List SectionPlacement) (pl : SectionPlacement)
    (hlast : ∀ q ∈ post, q.sect ≠ pl.sect) :
    (((processLinkerScript (some (pre ++ [pl])) store).1 pl.sect).isAddressFixed = true ∧
      ((processLinkerScript (some (pre ++ [pl])) store).1 pl.sect).org = pl.org ∧
      ((processLinkerScript (some (pre ++ [pl])) store).1 pl.sect).isBankFixed = true ∧
      ((processLinkerScript (some (pre ++ [pl])) store).1 pl.sect).bank = pl.bank ∧
      ((processLinkerScript (some (pre ++ [pl])) store).1 pl.sect).isAlignFixed = false) ∧
    (processLinkerScript (some (pre ++ [pl])) store).1 pl.sect =
      { (processLinkerScript (some pre) store).1 pl.sect with
        isAddressFixed := true, org := pl.org, isBankFixed := true, bank := pl.bank,
        isAlignFixed := false } ∧
    (∀ p, p ≠ pl.sect →
      (processLinkerScript (some (pre ++ [pl])) store).1 p
        = (processLinkerScript (some pre) store).1 p) ∧
    (((processLinkerScript (some (pre ++ pl :: post)) store).1 pl.sect).isAddressFixed = true ∧
      ((processLinkerScript (some (pre ++ pl :: post)) store).1 pl.sect).org = pl.org ∧
      ((processLinkerScript (some (pre ++ pl :: post)) store).1 pl.sect).isBankFixed = true ∧
      ((processLinkerScript (some (pre ++ pl :: post)) store).1 pl.sect).bank = pl.bank ∧
      ((processLinkerScript (some (pre ++ pl :: post)) store).1 pl.sect).isAlignFixed
        = false) ∧
    (∀ p, (processLinkerScript (some (pre ++ pl :: post))
        (processLinkerScript (some (pre ++ pl :: post)) store).1).1 p
      = (processLinkerScript (some (pre ++ pl :: post)) store).1 p) ∧
    (∀ (script : Option (List SectionPlacement)) (p : Nat),
      (processLinkerScript script (processLinkerScript script store).1).1 p
        = (processLinkerScript script store).1 p) := by
  have hsnoc : (processLinkerScript (some (pre ++ [pl])) store).1 pl.sect =
      { (processLinkerScript (some pre) store).1 pl.sect with
        isAddressFixed := true, org := pl.org, isBankFixed := true, bank := pl.bank,
        isAlignFixed := false } := by
    rw [processLinkerScript_snoc, applyPlacement_store, if_pos rfl]
    rfl
  have hidem : ∀ (script : Option (List SectionPlacement)) (p : Nat),
      (processLinkerScript script (processLinkerScript script store).1).1 p
        = (processLinkerScript script store).1 p := by
    intro script p
    cases script with
    | none => rfl
    | some records =>
      show (records.foldl applyPlacement ((records.foldl applyPlacement (store, [])).1, [])).1 p
        = (records.foldl applyPlacement (store, [])).1 p
      rcases foldl_applyPlacement_store records p with ⟨org, bank, h⟩ | h
      · rw [h, h, scriptOverride_idem]
      · rw [h, h]
  refine ⟨?_, hsnoc, ?_, ?_, hidem _, hidem⟩
  · rw [hsnoc]
    exact ⟨rfl, rfl, rfl, rfl, rfl⟩
  · intro p hp
    rw [processLinkerScript_snoc, applyPlacement_store, if_neg hp]
  · rw [processLinkerScript_last store pre post pl hlast, hsnoc]
    exact ⟨rfl, rfl, rfl, rfl, rfl⟩

/-- Witness of C8: the script names `tieFirst`, then `fixedSection` (bank-fixed
in bank 0) with bank 5 and `org = $1000`, then `tieFirst` again.  `fixedSection`
ends with bank 5, one bank contradiction is diagnosed for it (and one address
contradiction for the second record of `tieFirst`), and a second run changes
nothing. -/
theorem script_wins_and_is_idempotent_witness :
    (((processLinkerScript (some [⟨1, 0x3000, 0⟩, ⟨0, 0x1000, 5⟩])
          exampleStore).1 0).isAddressFixed = true ∧
      ((processLinkerScript (some [⟨1, 0x3000, 0⟩, ⟨0, 0x1000, 5⟩]) exampleStore).1 0).org
        = 0x1000 ∧
      ((processLinkerScript (some [⟨1, 0x3000, 0⟩, ⟨0, 0x1000, 5⟩])
          exampleStore).1 0).isBankFixed = true ∧
      ((processLinkerScript (some [⟨1, 0x3000, 0⟩, ⟨0, 0x1000, 5⟩]) exampleStore).1 0).bank
        = 5 ∧
      ((processLinkerScript (some [⟨1, 0x3000, 0⟩, ⟨0, 0x1000, 5⟩])
          exampleStore).1 0).isAlignFixed = false) ∧
    (processLinkerScript (some [⟨1, 0x3000, 0⟩, ⟨0, 0x1000, 5⟩, ⟨1, 0x2000, 0⟩])
        exampleStore).1 0 = { fixedSection with bank := 5 } ∧
    (processLinkerScript (some [⟨1, 0x3000, 0⟩, ⟨0, 0x1000, 5⟩, ⟨1, 0x2000, 0⟩])
        exampleStore).1 1
      = { tieFirst with
          isAddressFixed := true, org := 0x2000, isBankFixed := true, bank := 0 } ∧
    (processLinkerScript (some [⟨1, 0x3000, 0⟩, ⟨0, 0x1000, 5⟩, ⟨1, 0x2000, 0⟩])
        exampleStore).1 2 = alignedSection ∧
    (processLinkerScript (some [⟨1, 0x3000, 0⟩, ⟨0, 0x1000, 5⟩, ⟨1, 0x2000, 0⟩])
        exampleStore).2
      = [Diagnostic.bankContradiction 0, Diagnostic.addressContradiction 1] ∧
    (∀ p, (processLinkerScript (some [⟨1, 0x3000, 0⟩, ⟨0, 0x1000, 5⟩, ⟨1, 0x2000, 0⟩])
        (processLinkerScript (some [⟨1, 0x3000, 0⟩, ⟨0, 0x1000, 5⟩, ⟨1, 0x2000, 0⟩])
          exampleStore).1).1 p
      = (processLinkerScript (some [⟨1, 0x3000, 0⟩, ⟨0, 0x1000, 5⟩, ⟨1, 0x2000, 0⟩])
          exampleStore).1 p) :=
  ⟨(script_wins_and_is_idempotent exampleStore [⟨1, 0x3000, 0⟩] [⟨1, 0x2000, 0⟩]
      ⟨0, 0x1000, 5⟩ (by decide)).1,
    by decide, by decide, by decide, by decide,
    (script_wins_and_is_idempotent exampleStore [⟨1, 0x3000, 0⟩] [⟨1, 0x2000, 0⟩]
      ⟨0, 0x1000, 5⟩ (by decide)).2.2.2.2.1⟩

/-- C9 fails on the code: for a section aligned to 256 bytes with offset 1, a
script `org` of `0x1001` satisfies `(org & alignMask) == alignOfs` and is
reported as contradicting the alignment, while a script `org` of `0x1000`
does not satisfy it and is not reported. -/
theorem script_alignment_check_ignores_offset :
    (0x1001 &&& offsetSection.alignMask = offsetSection.alignOfs ∧
      (processLinkerScript (some [{ sect := 0, org := 0x1001, bank := 0 }])
        (fun _ => offsetSection)).2 = [Diagnostic.alignContradiction 0]) ∧
    (0x1000 &&& offsetSection.alignMask ≠ offsetSection.alignOfs ∧
      (processLinkerScript (some [{ sect := 0, org := 0x1000, bank := 0 }])
        (fun _ => offsetSection)).2 = []) := by
  decide

/-- C10: for a section of size 0, `placeSection` returns for every state and
every fuel; it assigns `org = section.org` if address-fixed and
`startaddr[type]` otherwise, `bank = section.bank` if bank-fixed and
`bankranges[type][0]` otherwise, and leaves the free-space map unchanged. -/
theorem placeSection_empty_section (mm : MemoryModel) (fuel : Nat) (st : State)
    (sect : Section) (hsz : sect.size = 0) :
    ∃ st1, placeSection mm fuel st sect = .ok st1 ∧
      st1.placed =
        { sect with
          org := if sect.isAddressFixed then sect.org else mm.startaddr sect.type
          bank := if sect.isBankFixed then sect.bank else (mm.bankranges sect.type).1 } ::
        st.placed ∧
      st1.memory = st.memory :=
  ⟨_, placeSection_zero mm fuel st sect hsz, rfl, rfl⟩

/-- Witness of C10: an empty ROMX section placed in `stateTwo`. -/
theorem placeSection_empty_section_witness :
    ∃ st1, placeSection gbModel 0 stateTwo emptySection = .ok st1 ∧
      st1.placed =
        { emptySection with
          org := if emptySection.isAddressFixed then emptySection.org
                 else gbModel.startaddr emptySection.type
          bank := if emptySection.isBankFixed then emptySection.bank
                  else (gbModel.bankranges emptySection.type).1 } ::
        stateTwo.placed ∧
      st1.memory = stateTwo.memory :=
  placeSection_empty_section gbModel 0 stateTwo emptySection (by decide)

/-- C11 fails on the code: the empty ROM0 section aligned to 256 bytes with
offset 1 meets the conditions of the claim (the mask does not overlap the
start address of the region, the offset is not larger than the mask), and
`placeSection` assigns it `org = 0`, for which `(org - alignOfs) & alignMask`
is `0xFF`. -/
theorem empty_section_alignment_ignores_offset :
    emptyAligned.size = 0 ∧ emptyAligned.isAlignFixed = true ∧
    emptyAligned.alignMask = 2^8 - 1 ∧
    gbModel.startaddr emptyAligned.type &&& emptyAligned.alignMask = 0 ∧
    emptyAligned.alignOfs ≤ emptyAligned.alignMask ∧
    placeSection gbModel 0 gbInit emptyAligned =
      .ok (stateOf (placeSection gbModel 0 gbInit emptyAligned) gbInit) ∧
    (stateOf (placeSection gbModel 0 gbInit emptyAligned) gbInit).placed =
      [{ emptyAligned with org := 0, bank := 0 }] ∧
    alignResidue emptyAligned 0 = 0xFF := by
  refine ⟨by decide, by decide, by decide, by decide, by decide, by rfl, by decide, by decide⟩

/-- C18, as stated, fails: from address `0xFF80`, with mask `0xFF` and offset
0, the 16-bit sum wraps around and the new address is 0, which is not greater
than `0xFF80`. -/
theorem nextAligned_strictly_greater_counterexample :
    pageAligned.alignMask = 2^8 - 1 ∧ pageAligned.alignOfs ≤ pageAligned.alignMask ∧
    nextAligned pageAligned 0xFF80 = 0 ∧ ¬ 0xFF80 < nextAligned pageAligned 0xFF80 := by
  decide

/-- C18, amended: for every 16-bit address `a`, mask `2^k - 1` and offset not
larger than the mask, the new address `a1` satisfies `(a1 - o) & m == 0`; when
some 16-bit address greater than `a` satisfies this condition, `a1` is the
smallest such address (in particular it is greater than `a`); otherwise the
16-bit sum wraps around and `a1` is not greater than `a`. -/
theorem nextAligned_least_or_wraps (sect : Section) (k : Nat) (hk : k ≤ 16)
    (hm : sect.alignMask = 2^k - 1) (ho : sect.alignOfs ≤ sect.alignMask)
    (a : Nat) (ha : a < 2^16) :
    nextAligned sect a < 2^16 ∧
    alignResidue sect (nextAligned sect a) = 0 ∧
    ((∃ x, a < x ∧ x < 2^16 ∧ alignResidue sect x = 0) →
      a < nextAligned sect a ∧
      ∀ x, a < x → x < 2^16 → alignResidue sect x = 0 → nextAligned sect a ≤ x) ∧
    ((¬ ∃ x, a < x ∧ x < 2^16 ∧ alignResidue sect x = 0) → nextAligned sect a ≤ a) := by
  obtain ⟨h16, hal⟩ := nextAligned_aligned sect k hk hm ho a
  have hres : alignResidue sect (nextAligned sect a) = 0 :=
    (alignResidue_eq_zero_iff sect k hk hm ho _ h16).2 hal
  refine ⟨h16, hres, ?_, ?_⟩
  · rintro ⟨x, hx, hx16, hxa⟩
    have hxm := (alignResidue_eq_zero_iff sect k hk hm ho x hx16).1 hxa
    rcases nextAligned_spec sect k hk hm ho a ha with ⟨hlt, hmin⟩ | hnone
    · refine ⟨hlt, fun y hy hy16 hya => ?_⟩
      exact hmin y hy ((alignResidue_eq_zero_iff sect k hk hm ho y hy16).1 hya)
    · exact absurd hxm (hnone x hx hx16)
  · intro hno
    by_contra hc
    exact hno ⟨nextAligned sect a, by omega, h16, hres⟩

/-- Witness of the amended C18: from `0x0005`, with mask `0xFF` and offset 3. -/
theorem nextAligned_least_or_wraps_witness :
    nextAligned alignedSection 5 < 2^16 ∧
    alignResidue alignedSection (nextAligned alignedSection 5) = 0 ∧
    ((∃ x, 5 < x ∧ x < 2^16 ∧ alignResidue alignedSection x = 0) →
      5 < nextAligned alignedSection 5 ∧
      ∀ x, 5 < x → x < 2^16 → alignResidue alignedSection x = 0 →
        nextAligned alignedSection 5 ≤ x) ∧
    ((¬ ∃ x, 5 < x ∧ x < 2^16 ∧ alignResidue alignedSection x = 0) →
      nextAligned alignedSection 5 ≤ 5) :=
  nextAligned_least_or_wraps alignedSection 8 (by decide) (by decide) (by decide) 5
    (by decide)

/-- C19 fails on the code: in the reachable state in which a 64-byte section
occupies the start of HRAM, the search for a 64-byte section aligned to 2
bytes (which fits nowhere) never returns: it runs out of fuel whatever the
fuel, because the address wraps around from `0xFFFE` to 0 without ever
reaching the end `0xFFFF` of the last free interval. -/
theorem getPlacement_spins_in_hram :
    Reachable gbModel stateHram ∧ MemoryWF gbModel stateHram.memory ∧
    hramAligned.AlignWF ∧
    ∀ fuel, getPlacement gbModel stateHram.memory hramAligned fuel = .error .outOfFuel := by
  refine ⟨stateHram_reachable, (stateHram_reachable.inv gbModel gbModel_wf).wf,
    fun _ => ⟨1, by decide, by decide, by decide⟩, ?_⟩
  intro fuel
  unfold getPlacement
  have hbk : (if hramAligned.isBankFixed then hramAligned.bank
      else (gbModel.bankranges hramAligned.type).1) = 0 := by decide
  rw [hbk]
  cases fuel with
  | zero => rfl
  | succ n =>
    unfold getPlacementLoop
    have hb : bankIndex gbModel hramAligned 0 = 0 := by decide
    have ht : hramAligned.type = 4 := rfl
    rw [hb, ht, stateHram_memory]
    simp only [List.getElem?_cons_zero, firstAddress]
    rw [scanBank_spins 0 (n + 1) 0xFFC0 (by decide) (by decide)]

/-- C20 fails on the code: for a program of two 64-byte HRAM sections aligned
to 2 bytes, without linker script and without overlay, both sections are in
bucket 1 and the counter is 2; `placeSection` puts the first at `$FF80`; its
call for the second, for which 63 bytes are left, never returns (the search
runs out of fuel whatever the fuel, without reaching the `errx` of
`placeSection`), and so `assign_AssignSections` never returns either. -/
theorem assign_AssignSections_hangs_in_hram :
    hramStore 0 = hramAligned ∧ hramStore 1 = hramAligned ∧
    hramAligned.size = 0x40 ∧ hramAligned.AlignWF ∧ gbModel.maxsize hramAligned.type = 0x7F ∧
    hramPending.unassignedSections 1 = [hramAligned, hramAligned] ∧
    (∀ c, c ≠ 1 → hramPending.unassignedSections c = []) ∧
    hramPending.nbSectionsToAssign = 2 ∧
    (∀ n, placeSection gbModel (n + 1) hramPending hramAligned = .ok hramHalf) ∧
    hramHalf.placed = [{ hramAligned with org := 0xFF80, bank := 0 }] ∧
    hramHalf.nbSectionsToAssign = 1 ∧
    (∀ fuel, placeSection gbModel fuel hramHalf hramAligned = .error (.search .outOfFuel)) ∧
    (∀ fuel, assign_AssignSections gbModel fuel none false hramStore [0, 1]
      = .error (.place (.search .outOfFuel))) := by
  have hb : ∀ c, c ≠ 1 → hramPending.unassignedSections c = [] := by
    intro c hc
    show (if c = constraintsOf hramAligned then _ else
      (if c = constraintsOf hramAligned then _ else [])) = []
    rw [if_neg (by simpa [constraintsOf, hramAligned, ALIGN_CONSTRAINED] using hc),
      if_neg (by simpa [constraintsOf, hramAligned, ALIGN_CONSTRAINED] using hc)]
  have h1 : hramPending.unassignedSections 1 = [hramAligned, hramAligned] := by decide
  have hn : hramPending.nbSectionsToAssign = 2 := by decide
  refine ⟨rfl, rfl, rfl, fun _ => ⟨1, by decide, by decide, by decide⟩, rfl, h1, hb, hn,
    placeSection_hram_first, by decide, by decide, placeSection_hram_second, ?_⟩
  intro fuel
  rw [assign_unfold]
  have hp : categorized gbModel (scriptedSections none hramStore [0, 1]) = hramPending := rfl
  rw [hp, hb 6 (by decide)]
  simp only [placeBucket, hn, OfNat.ofNat_ne_zero, if_false, Bool.false_eq_true]
  have hn0 : hramPending.nbSectionsToAssign ≠ 0 := by rw [hn]; decide
  rw [assignBuckets_skip _ _ 5 _ _ (hb 5 (by decide)) hn0,
    assignBuckets_skip _ _ 4 _ _ (hb 4 (by decide)) hn0,
    assignBuckets_skip _ _ 3 _ _ (hb 3 (by decide)) hn0,
    assignBuckets_skip _ _ 2 _ _ (hb 2 (by decide)) hn0]
  rw [assignBuckets, h1]
  cases fuel with
  | zero => rfl
  | succ n =>
    rw [placeBucket, placeSection_hram_first n]
    simp only
    rw [placeBucket, placeSection_hram_second (n + 1)]

/-- C21 (completeness of the search): for a section of non-zero size and a
well-formed free-space map, when `getPlacement` returns `NULL` no free interval
of any eligible bank has an address at which `isLocationSuitable` holds; hence,
when some eligible bank has a suitable location, `getPlacement` does not return
`NULL` and `placeSection` does not report the section as unplaceable. -/
theorem getPlacement_null_complete (mm : MemoryModel) (hmm : mm.WF) (st : State)
    (hmem : MemoryWF mm st.memory) (sect : Section) (hsz : sect.size ≠ 0)
    (halign : sect.AlignWF) (fuel : Nat) :
    (getPlacement mm st.memory sect fuel = .ok none →
      ∀ b, eligibleBank mm sect b →
      ∀ l, (st.memory sect.type)[bankIndex mm sect b]? = some l →
      ∀ s ∈ l, ∀ a, isLocationSuitable sect s { address := a, bank := b } = false) ∧
    ((∃ b l s a, eligibleBank mm sect b ∧
        (st.memory sect.type)[bankIndex mm sect b]? = some l ∧ s ∈ l ∧
        isLocationSuitable sect s { address := a, bank := b } = true) →
      getPlacement mm st.memory sect fuel ≠ .ok none ∧
      placeSection mm fuel st sect ≠ .error .unplaceable) := by
  have key : getPlacement mm st.memory sect fuel = .ok none →
      ∀ b, eligibleBank mm sect b →
      ∀ l, (st.memory sect.type)[bankIndex mm sect b]? = some l →
      ∀ s ∈ l, ∀ a, isLocationSuitable sect s { address := a, bank := b } ≠ true := by
    intro h b hb l hl s hs a hsuit
    have ht : sect.type < mm.nbTypes := by
      by_contra hc
      have hlen := (hmem sect.type).1
      rw [if_neg hc] at hlen
      rw [List.length_eq_zero.1 hlen] at hl
      simp at hl
    obtain ⟨-, hhi, hlo, hhi32⟩ := hmm sect.type ht
    have hcomp := getPlacementLoop_complete mm st.memory sect fuel hsz halign _ _ hhi
      (hmem sect.type).2 hhi32 fuel _ none
      (fun hf => by simp only [hf, Bool.false_eq_true, if_false]; exact hlo) h
    have hel : (if sect.isBankFixed then
          b = (if sect.isBankFixed then sect.bank else (mm.bankranges sect.type).1)
        else (if sect.isBankFixed then sect.bank else (mm.bankranges sect.type).1) ≤ b ∧
          b ≤ (mm.bankranges sect.type).2) := by
      unfold eligibleBank at hb
      cases hf : sect.isBankFixed with
      | true => rw [hf] at hb; simpa using hb
      | false => rw [hf] at hb; simpa using hb
    obtain ⟨i1, loc1, e, -⟩ := hcomp b hel l hl s hs a hsuit
    cases e
  refine ⟨?_, ?_⟩
  · intro h b hb l hl s hs a
    have := key h b hb l hl s hs a
    simpa using this
  · rintro ⟨b, l, s, a, hb, hl, hs, hsuit⟩
    have hne : getPlacement mm st.memory sect fuel ≠ .ok none :=
      fun h => key h b hb l hl s hs a hsuit
    refine ⟨hne, ?_⟩
    unfold placeSection
    rw [if_neg hsz]
    split
    · intro hc; cases hc
    · rename_i h; exact absurd h hne
    · intro hc; cases hc

/-- Witness of C21: in the state in which ROMX bank 1 is full, the search for
`wideRomx` returns `NULL`, and no free interval of the banks 1 to 3 is suitable
for it at any address; for `alignedRomx`, which fits in bank 2, neither
`getPlacement` nor `placeSection` gives up. -/
theorem getPlacement_null_complete_witness :
    (getPlacement gbModel stateBank.memory wideRomx 10 = .ok none ∧
      ∀ b, eligibleBank gbModel wideRomx b →
      ∀ l, (stateBank.memory wideRomx.type)[bankIndex gbModel wideRomx b]? = some l →
      ∀ s ∈ l, ∀ a, isLocationSuitable wideRomx s { address := a, bank := b } = false) ∧
    getPlacement gbModel stateBank.memory alignedRomx 10 ≠ .ok none ∧
    placeSection gbModel 10 stateBank alignedRomx ≠ .error .unplaceable :=
  ⟨⟨by rfl,
    (getPlacement_null_complete gbModel gbModel_wf stateBank
      (stateBank_reachable.inv gbModel gbModel_wf).wf wideRomx (by decide)
      (fun _ => ⟨12, by decide, by decide, by decide⟩) 10).1 (by rfl)⟩,
   (getPlacement_null_complete gbModel gbModel_wf stateBank
      (stateBank_reachable.inv gbModel gbModel_wf).wf alignedRomx (by decide)
      (fun _ => ⟨8, by decide, by decide, by decide⟩) 10).2
      ⟨2, [{ address := 0x4000, size := 0x4000 }], { address := 0x4000, size := 0x4000 },
        0x4003, by unfold eligibleBank; decide, by rfl, by simp, by decide⟩⟩

end Rgblink

namespace Rgbasm

/-- C12: two runs of successful `charmap_Add` calls from the empty table leave a table
that is not ordered by decreasing input length. -/
theorem charmap_Add_breaks_order :
    (addAll smallLimits emptyCharmap
        [(zeroEntry, [0x41, 0x42], 1), (zeroEntry, [], 2), (zeroEntry, [0x41], 3)]
      = .ok ([1, 2, 3], ⟨3, [⟨[], 2⟩, ⟨[0x41], 3⟩, zeroEntry, zeroEntry]⟩)
      ∧ Charmap.table ⟨3, [⟨[], 2⟩, ⟨[0x41], 3⟩, zeroEntry, zeroEntry]⟩
          = [⟨[], 2⟩, ⟨[0x41], 3⟩, zeroEntry]
      ∧ ¬ SortedByLength (Charmap.table ⟨3, [⟨[], 2⟩, ⟨[0x41], 3⟩, zeroEntry, zeroEntry]⟩))
    ∧ (addAll smallLimits emptyCharmap
        [(⟨[0x58, 0x59, 0x5A], 8⟩, [0x41, 0x42], 1),
          (⟨[0x57, 0x58, 0x59, 0x5A], 9⟩, [0x43, 0x44], 2)]
      = .ok ([1, 2], ⟨2, [⟨[0x58, 0x59, 0x5A], 8⟩, ⟨[0x57, 0x58, 0x59, 0x5A], 9⟩,
          zeroEntry, zeroEntry]⟩)
      ∧ ¬ SortedByLength
          (Charmap.table ⟨2, [⟨[0x58, 0x59, 0x5A], 8⟩, ⟨[0x57, 0x58, 0x59, 0x5A], 9⟩,
          zeroEntry, zeroEntry]⟩)) :=
  ⟨⟨rfl, rfl, by decide⟩, rfl, by decide⟩

/-- C13: adding ("AB", 1) to the empty table returns 1 but stores the contents of the
uninitialised temporaries, whatever they are, instead of the new entry. -/
theorem charmap_Add_stores_temporaries :
    (∀ temp : Entry, charmap_Add smallLimits temp emptyCharmap [0x41, 0x42] 1
        = .ok (1, ⟨1, [temp, zeroEntry, zeroEntry, zeroEntry]⟩))
    ∧ (∀ temp : Entry, Charmap.table ⟨1, [temp, zeroEntry, zeroEntry, zeroEntry]⟩ = [temp])
    ∧ Charmap.table ⟨1, [zeroEntry, zeroEntry, zeroEntry, zeroEntry]⟩
        ≠ [⟨[0x41, 0x42], 1⟩]
    ∧ (∀ temp : Entry, charmap_Add smallLimits temp oneCharmap [0x43, 0x44] 2
        = .ok (2, ⟨2, [⟨[0x41, 0x42], 1⟩, temp, zeroEntry, zeroEntry]⟩)) :=
  ⟨fun _ => rfl, fun _ => rfl, by decide, fun _ => rfl⟩

/-- C14: adding ("A", 2) to the table [("AB", 1)] overwrites the entry ("AB", 1) and
exposes a stale slot, and adding it to the empty table writes before the array. -/
theorem charmap_Add_overwrites_last :
    (∀ temp : Entry, charmap_Add smallLimits temp oneCharmap [0x41] 2
        = .ok (2, ⟨2, [⟨[0x41], 2⟩, zeroEntry, zeroEntry, zeroEntry]⟩))
    ∧ Charmap.table ⟨2, [⟨[0x41], 2⟩, zeroEntry, zeroEntry, zeroEntry]⟩
        = [⟨[0x41], 2⟩, zeroEntry]
    ∧ Charmap.table ⟨2, [⟨[0x41], 2⟩, zeroEntry, zeroEntry, zeroEntry]⟩
        ≠ oneCharmap.table ++ [⟨[0x41], 2⟩]
    ∧ (∀ temp : Entry, charmap_Add smallLimits temp emptyCharmap [0x41] 2
        = .error .outOfBounds) :=
  ⟨fun _ => rfl, rfl, by decide, fun _ => rfl⟩

/-- C15: a call made when the table holds `MAXCHARMAPS` entries returns
`MAXCHARMAPS + 1` instead of -1 and changes the table, so that five successful calls
from the empty table leave a count of 5 with `MAXCHARMAPS = 4`; a longer input at that
point is written after the last slot. Only a count already above `MAXCHARMAPS`, or too
long an input, gives -1 and leaves the character map as it was. -/
theorem charmap_Add_exceeds_bound :
    fullCharmap.count = smallLimits.MAXCHARMAPS
    ∧ (∀ temp : Entry, charmap_Add smallLimits temp fullCharmap [0x46] 5
        = .ok (5, ⟨5, [⟨[0x41, 0x42], 1⟩, ⟨[0x43], 2⟩, ⟨[0x44], 3⟩, ⟨[0x46], 5⟩]⟩))
    ∧ (∀ temp : Entry, charmap_Add smallLimits temp fullCharmap [0x46, 0x47] 5
        = .error .outOfBounds)
    ∧ addAll smallLimits emptyCharmap
        [(zeroEntry, [0x41, 0x42], 1), (zeroEntry, [0x43, 0x44], 2),
          (zeroEntry, [0x45, 0x46], 3), (zeroEntry, [0x47, 0x48], 4), (zeroEntry, [0x49], 5)]
      = .ok ([1, 2, 3, 4, 5],
          ⟨5, [⟨[0x43, 0x44], 2⟩, ⟨[0x45, 0x46], 3⟩, ⟨[0x47, 0x48], 4⟩, ⟨[0x49], 5⟩]⟩)
    ∧ (∀ (limits : Limits) (temp : Entry) (cm : Charmap) (input : List Nat) (output : Nat),
        limits.MAXCHARMAPS < cm.count ∨ limits.CHARMAPLENGTH < input.length →
        charmap_Add limits temp cm input output = .ok (-1, cm)) := by
  refine ⟨rfl, fun _ => rfl, fun _ => rfl, rfl, ?_⟩
  intro limits temp cm input output h
  unfold charmap_Add
  rw [if_pos]
  simpa using h

/-- C16 (longest match): one step of `charmap_Convert` in front of a non-empty
remaining string `s`, for a table of non-empty entries ordered by decreasing length.
When some entry is a prefix of `s`, the step emits exactly one byte, the output of an
entry that is a longest such prefix (whatever that byte is, 0 included), and advances
by the length of its input. When no entry is a prefix, it copies the bytes of the next
UTF-8 codepoint and advances past it, the length being 6, 5, 4, 3, 2 or 1 for a first
byte of at least 0xFC, 0xF8, 0xF0, 0xE0, 0xC0, or less. The loop appends the emitted
bytes, continues after the advance and stops at the terminator. -/
theorem convertStep_longest_match (cm : Charmap) (s after : List Nat)
    (hcount : cm.count ≤ cm.slots.length)
    (hentries : ∀ e ∈ cm.table, e.input ≠ [] ∧ 0 ∉ e.input)
    (hsorted : SortedByLength cm.table)
    (hs : s ≠ []) (hnul : 0 ∉ s) :
    ((∃ e ∈ cm.table, e.input <+: s) →
      ∃ e ∈ cm.table, e.input <+: s
        ∧ (∀ e1 ∈ cm.table, e1.input <+: s → e1.input.length ≤ e.input.length)
        ∧ convertStep cm (s ++ 0 :: after) = .ok ([e.output], e.input.length))
    ∧ ((∀ e ∈ cm.table, ¬ e.input <+: s) →
      (0xFC ≤ s.headD 0 → convertStep cm (s ++ 0 :: after) = .ok (s.take 6, 6))
      ∧ (0xF8 ≤ s.headD 0 → s.headD 0 < 0xFC →
          convertStep cm (s ++ 0 :: after) = .ok (s.take 5, 5))
      ∧ (0xF0 ≤ s.headD 0 → s.headD 0 < 0xF8 →
          convertStep cm (s ++ 0 :: after) = .ok (s.take 4, 4))
      ∧ (0xE0 ≤ s.headD 0 → s.headD 0 < 0xF0 →
          convertStep cm (s ++ 0 :: after) = .ok (s.take 3, 3))
      ∧ (0xC0 ≤ s.headD 0 → s.headD 0 < 0xE0 →
          convertStep cm (s ++ 0 :: after) = .ok (s.take 2, 2))
      ∧ (s.headD 0 < 0xC0 → convertStep cm (s ++ 0 :: after) = .ok (s.take 1, 1)))
    ∧ (∀ (capacity fuel : Nat) (buffer bytes : List Nat) (j : Nat),
        convertStep cm (s ++ 0 :: after) = .ok (bytes, j) →
        buffer.length + bytes.length ≤ capacity →
        convertLoop cm capacity (fuel + 1) (s ++ 0 :: after) buffer
          = convertLoop cm capacity fuel ((s ++ 0 :: after).drop j) (buffer ++ bytes))
    ∧ (∀ (capacity fuel : Nat) (buffer : List Nat),
        convertLoop cm capacity fuel (0 :: after) buffer = .ok buffer) := by
  obtain ⟨h1, h2, h3, h4⟩ :=
    convertStep_match_or_utf8 cm s after hcount hentries hsorted hs hnul
  refine ⟨h1, ?_, h3, h4⟩
  intro hno
  have h := h2 hno
  obtain ⟨c6, c5, c4, c3, c2, c1⟩ := utf8Size_cases (s.headD 0)
  refine ⟨fun a => ?_, fun a b => ?_, fun a b => ?_, fun a b => ?_, fun a b => ?_, fun a => ?_⟩
  · rw [h, c6 a]
  · rw [h, c5 a b]
  · rw [h, c4 a b]
  · rw [h, c3 a b]
  · rw [h, c2 a b]
  · rw [h, c1 a]

/-- Witness of C16: the table [("AB", 1), ("A", 2)] on "ABA" gives [1, 2]; on a
three-byte codepoint the step copies three bytes and advances by 3; codepoints of the
lengths 6, 5, 4, 2 and 1; and a whole conversion mixing entries and codepoints. -/
theorem convertStep_longest_match_witness :
    (∃ e ∈ abCharmap.table, e.input <+: [0x41, 0x42, 0x41]
        ∧ (∀ e1 ∈ abCharmap.table, e1.input <+: [0x41, 0x42, 0x41] →
            e1.input.length ≤ e.input.length)
        ∧ convertStep abCharmap ([0x41, 0x42, 0x41] ++ 0 :: [])
            = .ok ([e.output], e.input.length))
    ∧ convertStep abCharmap ([0x41, 0x42, 0x41] ++ 0 :: []) = .ok ([0x01], 2)
    ∧ charmap_Convert abCharmap [0x41, 0x42, 0x41, 0] = .ok [0x01, 0x02]
    ∧ convertStep abCharmap ([0xE2, 0x82, 0xAC, 0x41] ++ 0 :: [])
        = .ok ([0xE2, 0x82, 0xAC], 3)
    ∧ convertStep abCharmap [0xFC, 0x84, 0x80, 0x80, 0x80, 0x80, 0x41, 0]
        = .ok ([0xFC, 0x84, 0x80, 0x80, 0x80, 0x80], 6)
    ∧ convertStep abCharmap [0xF8, 0x88, 0x80, 0x80, 0x80, 0x41, 0]
        = .ok ([0xF8, 0x88, 0x80, 0x80, 0x80], 5)
    ∧ convertStep abCharmap [0xF0, 0x9F, 0x98, 0x80, 0x41, 0]
        = .ok ([0xF0, 0x9F, 0x98, 0x80], 4)
    ∧ convertStep abCharmap [0xC3, 0xA9, 0x41, 0] = .ok ([0xC3, 0xA9], 2)
    ∧ convertStep abCharmap [0x42, 0x41, 0] = .ok ([0x42], 1)
    ∧ charmap_Convert abCharmap
        [0x41, 0x42, 0xC3, 0xA9, 0xE2, 0x82, 0xAC, 0xF0, 0x9F, 0x98, 0x80, 0x42, 0x41, 0]
      = .ok [0x01, 0xC3, 0xA9, 0xE2, 0x82, 0xAC, 0xF0, 0x9F, 0x98, 0x80, 0x42, 0x02] :=
  ⟨(convertStep_longest_match abCharmap [0x41, 0x42, 0x41] [] (by decide) (by decide)
      (by decide) (by decide) (by decide)).1 ⟨⟨[0x41, 0x42], 1⟩, by decide, by decide⟩,
    rfl, rfl,
    ((convertStep_longest_match abCharmap [0xE2, 0x82, 0xAC, 0x41] [] (by decide) (by decide)
      (by decide) (by decide) (by decide)).2.1 (by decide)).2.2.2.1 (by decide) (by decide),
    rfl, rfl, rfl, rfl, rfl, rfl⟩

/-- C17: with the empty table, the string consisting of the single byte 0xC3 makes the
conversion step advance two bytes, past the terminator. -/
theorem charmap_Convert_skips_terminator :
    convertStep emptyCharmap [0xC3, 0] = .ok ([0xC3], 2)
    ∧ strlen [0xC3, 0] = some 1
    ∧ charmap_Convert emptyCharmap [0xC3, 0] = .error .outOfBounds
    ∧ charmap_Convert emptyCharmap [0xC3, 0, 0x41, 0] = .error .outOfBounds
    ∧ charmap_Convert emptyCharmap [0xC3, 0, 0x41, 0x42, 0] = .error .outOfBounds
    ∧ charmap_Convert emptyCharmap [0xC3, 0, 0] = .ok [0xC3] :=
  ⟨rfl, rfl, rfl, rfl, rfl, rfl⟩

end Rgbasm
